import Mathlib

/-!
Graph container (`Week 13/graph.cpp`).

A shallow embedding of the graph class: vertices are kept in a sequence, every
vertex owns its list of outgoing edge records, and a name map resolves a vertex
name to its index.  Member functions become functions from the graph before the
call to the outcome of the call paired with the graph after it, so that the
state left behind by a call that throws is visible.

Conventions of the embedding:
* `std::string` is `String`, `size_t` is `Nat` (every counter stays within two of
  the number of stored vertices, which a vector cannot bring near `2 ^ 64`, so no
  counter wraps), `int`/`long long` are `Int` (weights and labels are stored and
  printed, never computed with).
* `std::vector<T>` is `List T`; `push_back` appends at the end.  The unchecked
  `operator[]` of the vector is undefined behaviour out of range; the embedding
  makes that explicit as the outcome `Error.OutOfRange`.
* An exception is the `Except.error` outcome.  The three `std::invalid_argument`
  throw sites are told apart by their message.
* The back-pointer `edge::m_graph` is not stored: `edge::target` takes the owning
  graph as an argument.
-/

/-- Failure outcomes of the member functions.  `InvalidName` is the throw
"add_vertex: illegal vertex name", `DuplicateName` the throw "... already exists",
`UnknownVertex` the throw "No vertex with name ... present" of `find_id`;
`OutOfRange` stands for an out-of-range `operator[]` on the vertex vector. -/
inductive Error where
  | InvalidName
  | DuplicateName
  | UnknownVertex
  | MalformedHeader
  | IoError
  | OutOfRange
  deriving DecidableEq

/-- The character test `std::iswspace` in the default "C" locale: space, horizontal
tab, line feed, vertical tab, form feed and carriage return. -/
def iswspace (c : Char) : Bool :=
  c = ' ' || c = '\t' || c = '\n' || c = Char.ofNat 11 || c = Char.ofNat 12 || c = '\r'

/-- Modelled from the spec: the constant `colour::white` of the header `colours.h`,
the sentinel colour "white" every new vertex starts with. -/
def colour.white : String := "white"

/-- The map `std::unordered_map<std::string, size_t>` as a list of entries with
pairwise distinct keys; only `find`, `contains`, `operator[]`, `size` and `clear`
are used by the program, none of which observes the order of the entries. -/
abbrev name_map := List (String × Nat)

/-- The lookup `m.find(k)`: `none` stands for `m.end()`. -/
def name_map.find (m : name_map) (k : String) : Option Nat :=
  List.lookup k m

/-- The test `m.contains(k)`. -/
def name_map.contains (m : name_map) (k : String) : Bool :=
  (m.find k).isSome

/-- The assignment `m[k] = v`: overwrites the entry of `k` or inserts a new one. -/
def name_map.assign (m : name_map) (k : String) (v : Nat) : name_map :=
  if m.contains k then m.map (fun p => if p.1 = k then (k, v) else p)
  else m ++ [(k, v)]

/-- An edge record `graph::edge`: target index and weight. -/
structure graph.edge where
  m_target : Nat
  m_weight : Int
  deriving DecidableEq

/-- A vertex `graph::vertex`. -/
structure graph.vertex where
  m_name : String
  m_id : Nat
  m_colour : String
  m_label : String
  m_edges : List graph.edge
  deriving DecidableEq

/-- The constructor `vertex::vertex(name, id)`: colour white, empty label, no edges. -/
def graph.vertex.new (name : String) (id : Nat) : graph.vertex :=
  { m_name := name, m_id := id, m_colour := colour.white, m_label := "", m_edges := [] }

/-- The class `graph`. -/
structure graph where
  m_directed : Bool
  m_num_edges : Nat
  m_vertices : List graph.vertex
  m_name_to_id : name_map
  deriving DecidableEq

namespace graph

/-- The accessor `edge::weight`. -/
def edge.weight (e : edge) : Int := e.m_weight

/-- The accessor `vertex::name`. -/
def vertex.name (v : vertex) : String := v.m_name

/-- The accessor `vertex::edges`. -/
def vertex.edges (v : vertex) : List edge := v.m_edges

/-- The accessor `vertex::colour`. -/
def vertex.colour (v : vertex) : String := v.m_colour

/-- The accessor `vertex::label`. -/
def vertex.label (v : vertex) : String := v.m_label

/-- The constructor `graph::graph(bool is_directed)`. -/
def new (is_directed : Bool) : graph :=
  { m_directed := is_directed, m_num_edges := 0, m_vertices := [], m_name_to_id := [] }

/-- The query `graph::is_directed`. -/
def is_directed (g : graph) : Bool := g.m_directed

/-- The query `graph::num_vertices`. -/
def num_vertices (g : graph) : Nat := g.m_vertices.length

/-- The query `graph::num_edges`. -/
def num_edges (g : graph) : Nat := g.m_num_edges

/-- The query `graph::vertices`. -/
def vertices (g : graph) : List vertex := g.m_vertices

/-- The name test of `add_vertex`: `std::all_of` over the characters with `iswspace`
(true for the empty name). -/
def blank (name : String) : Bool := name.data.all iswspace

/-- The member `graph::add_vertex`. -/
def add_vertex (g : graph) (name : String) : Except Error Nat × graph :=
  if blank name then (.error .InvalidName, g)
  else if (g.m_name_to_id.find name).isSome then (.error .DuplicateName, g)
  else
    let result := g.m_vertices.length
    let g1 := { g with m_name_to_id := g.m_name_to_id.assign name result }
    (.ok result,
      { g1 with m_vertices := g1.m_vertices ++ [vertex.new name g1.m_vertices.length] })

/-- The statement `m_vertices[id].m_edges.push_back(edge{*this, target, weight})`. -/
def push_edge (g : graph) (id target : Nat) (weight : Int) : Except Error Unit × graph :=
  match g.m_vertices[id]? with
  | none => (.error .OutOfRange, g)
  | some v =>
    (.ok (), { g with m_vertices :=
      g.m_vertices.set id { v with m_edges := v.m_edges ++ [⟨target, weight⟩] } })

/-- The lookup-or-create step of `add_edge`:
`it != m_name_to_id.end() ? it->second : add_vertex(name)`. -/
def lookup_or_add (g : graph) (name : String) : Except Error Nat × graph :=
  match g.m_name_to_id.find name with
  | some id => (.ok id, g)
  | none => g.add_vertex name

/-- The member `graph::add_edge`. -/
def add_edge (g : graph) (from_ to_ : String) (weight : Int) : Except Error Unit × graph :=
  -- lookup source
  match g.lookup_or_add from_ with
  | (.error e, g1) => (.error e, g1)
  | (.ok source_id, g1) =>
    -- lookup target
    match g1.lookup_or_add to_ with
    | (.error e, g2) => (.error e, g2)
    | (.ok target_id, g2) =>
      -- add edge (source -> to)
      match g2.push_edge source_id target_id weight with
      | (.error e, g3) => (.error e, g3)
      | (.ok _, g3) =>
        if !g3.m_directed then
          -- add an edge from 'to' to from
          match g3.push_edge target_id source_id weight with
          | (.error e, g4) => (.error e, g4)
          | (.ok _, g4) => (.ok (), { g4 with m_num_edges := g4.m_num_edges + 1 })
        else (.ok (), { g3 with m_num_edges := g3.m_num_edges + 1 })

/-- The member `graph::find_id`. -/
def find_id (g : graph) (label : String) : Except Error Nat :=
  match g.m_name_to_id.find label with
  | none => .error .UnknownVertex
  | some id => .ok id

/-- The member `graph::find_vertex` (and `operator[]` by name). -/
def find_vertex (g : graph) (name : String) : Except Error vertex :=
  match g.find_id name with
  | .error e => .error e
  | .ok id =>
    match g.m_vertices[id]? with
    | none => .error .OutOfRange
    | some v => .ok v

/-- The accessor `edge::target`, resolved in the owning graph `g`. -/
def edge.target (g : graph) (e : edge) : Except Error vertex :=
  match g.m_vertices[e.m_target]? with
  | none => .error .OutOfRange
  | some v => .ok v

/-- The member `graph::colour_vertex`. -/
def colour_vertex (g : graph) (name colour : String) : Except Error Unit × graph :=
  match g.find_id name with
  | .error e => (.error e, g)
  | .ok id =>
    match g.m_vertices[id]? with
    | none => (.error .OutOfRange, g)
    | some v => (.ok (), { g with m_vertices := g.m_vertices.set id { v with m_colour := colour } })

/-- A range-based `for` loop whose body may throw: the body runs on the elements in
order and the first exception leaves the loop with the state reached so far. -/
def for_each {α : Type} (body : graph → α → Except Error Unit × graph) :
    List α → graph → Except Error Unit × graph
  | [], g => (.ok (), g)
  | x :: rest, g =>
    match body g x with
    | (.error e, g1) => (.error e, g1)
    | (.ok _, g1) => for_each body rest g1

/-- The member `graph::colour_vertices` (both overloads; the names are taken in
iteration order). -/
def colour_vertices (g : graph) (names : List String) (colour : String) :
    Except Error Unit × graph :=
  for_each (fun g v => g.colour_vertex v colour) names g

/-- The member `graph::label_vertex(name, const std::string &)`. -/
def label_vertex (g : graph) (name lbl : String) : Except Error Unit × graph :=
  match g.find_id name with
  | .error e => (.error e, g)
  | .ok id =>
    match g.m_vertices[id]? with
    | none => (.error .OutOfRange, g)
    | some v => (.ok (), { g with m_vertices := g.m_vertices.set id { v with m_label := lbl } })

/-- The member `graph::label_vertex(name, long long)`. -/
def label_vertex_int (g : graph) (name : String) (lbl : Int) : Except Error Unit × graph :=
  match g.find_id name with
  | .error e => (.error e, g)
  | .ok id =>
    match g.m_vertices[id]? with
    | none => (.error .OutOfRange, g)
    | some v =>
      (.ok (), { g with m_vertices := g.m_vertices.set id { v with m_label := toString lbl } })

/-- A function returning its local graph by value: an exception escaping the body
discards the local. -/
def returned {α : Type} (r : Except Error α × graph) : Except Error graph :=
  match r with
  | (.error e, _) => .error e
  | (.ok _, g) => .ok g

/-- Sequencing of two statements on the same graph object: the second runs only when
the first did not throw. -/
def and_then {α : Type} (r : Except Error α × graph)
    (next : graph → Except Error Unit × graph) : Except Error Unit × graph :=
  match r with
  | (.error e, g) => (.error e, g)
  | (.ok _, g) => next g

/-- The loop body of `graph::chain` for the counter value `i`. -/
def chain_body (result : graph) (i : Nat) : Except Error Unit × graph :=
  and_then (result.add_vertex ("a" ++ toString (i + 2))) fun r =>
    r.add_edge ("a" ++ toString (i + 1)) ("a" ++ toString (i + 2)) 0

/-- The generator `graph::chain`. -/
def chain (length : Nat) : Except Error graph :=
  returned <|
    and_then ((new true).add_vertex "a1") fun r =>
      for_each chain_body (List.range length) r

/-- The lambda `name` of `graph::grid`. -/
def grid_name (r c : Nat) : String :=
  "a" ++ toString (r + 1) ++ "_" ++ toString (c + 1)

/-- The generator `graph::grid`. -/
def grid (size : Nat) : Except Error graph :=
  returned <|
    and_then
      (for_each
        (fun g row => for_each (fun g col => and_then (g.add_vertex (grid_name row col))
          fun g1 => (.ok (), g1)) (List.range size) g)
        (List.range size) (new true))
      fun r =>
        if size > 0 then
          and_then
            -- horizontal edges
            (for_each
              (fun g row => for_each
                (fun g col => g.add_edge (grid_name row (col - 1)) (grid_name row col) 0)
                (List.range' 1 (size - 1)) g)
              (List.range size) r)
            fun r1 =>
              -- vertical edges
              for_each
                (fun g col => for_each
                  (fun g row => g.add_edge (grid_name (row - 1) col) (grid_name row col) 0)
                  (List.range' 1 (size - 1)) g)
                (List.range size) r1
        else (.ok (), r)

/-- The body of the outer loop of `graph::operator=` for the source vertex `v` of
the source graph `other`. -/
def assign_body (other : graph) (g : graph) (v : vertex) : Except Error Unit × graph :=
  and_then
    (for_each
      (fun g vw =>
        match vw.target other with
        | .error e => (.error e, g)
        | .ok t => g.add_edge v.name t.name vw.m_weight)
      v.m_edges g)
    fun g1 =>
      match g1.find_id v.name with
      | .error e => (.error e, g1)
      | .ok id =>
        match g1.m_vertices[id]? with
        | none => (.error .OutOfRange, g1)
        | some thisv =>
          (.ok (), { g1 with m_vertices :=
            g1.m_vertices.set id { thisv with m_colour := v.m_colour, m_label := v.m_label } })

/-- The copy assignment `graph::operator=(const graph &other)` into a graph object
distinct from `other`.  The first argument is the destination before the call: all
four of its members are overwritten before the loop starts. -/
def assign (_self other : graph) : Except Error Unit × graph :=
  for_each (assign_body other) other.m_vertices
    { m_vertices := [], m_name_to_id := [], m_directed := other.m_directed, m_num_edges := 0 }

/-- A call of one of the mutating members on a graph object. -/
inductive Op where
  | add_vertex (name : String)
  | add_edge (from_ to_ : String) (weight : Int)
  | colour_vertex (name colour : String)
  | colour_vertices (names : List String) (colour : String)
  | label_vertex (name lbl : String)
  | label_vertex_int (name : String) (lbl : Int)

/-- The graph object after a call, whether the call returned or threw. -/
def Op.run (g : graph) : Op → graph
  | .add_vertex name => (g.add_vertex name).2
  | .add_edge from_ to_ weight => (g.add_edge from_ to_ weight).2
  | .colour_vertex name colour => (g.colour_vertex name colour).2
  | .colour_vertices names colour => (g.colour_vertices names colour).2
  | .label_vertex name lbl => (g.label_vertex name lbl).2
  | .label_vertex_int name lbl => (g.label_vertex_int name lbl).2

/-- The graphs a caller can hold: a freshly constructed graph, and the graph left by
any call (successful or failing) on such a graph. -/
inductive Reachable : graph → Prop
  | new (is_directed : Bool) : Reachable (new is_directed)
  | step {g : graph} (op : Op) : Reachable g → Reachable (op.run g)

/-- The edge list of the vertex stored at index `i` (empty when there is none). -/
def edges_at (g : graph) (i : Nat) : List edge :=
  match g.m_vertices[i]? with
  | some v => v.m_edges
  | none => []

/-- The number of edge records stored in the graph, all edge lists together. -/
def total_records (g : graph) : Nat :=
  (g.m_vertices.map fun v => v.m_edges.length).sum

/-- The name map and the vertex sequence agree: a name is mapped to `i` exactly when
the vertex at index `i` carries that name; the keys of the map are pairwise distinct
and there are as many entries as vertices; no vertex name is blank. -/
structure names_ok (g : graph) : Prop where
  find_iff : ∀ name i, g.m_name_to_id.find name = some i ↔
    (g.m_vertices[i]?).map vertex.name = some name
  keys_nodup : (g.m_name_to_id.map Prod.fst).Nodup
  size_eq : g.m_name_to_id.length = g.m_vertices.length
  not_blank : ∀ v ∈ g.m_vertices, blank v.m_name = false

/-- The vertex sequence `vs` with the record `(target, weight)` appended to the edge
list of the vertex at index `id` (unchanged when there is no such vertex). -/
def with_edge (vs : List vertex) (id target : Nat) (weight : Int) : List vertex :=
  match vs[id]? with
  | none => vs
  | some v => vs.set id { v with m_edges := v.m_edges ++ [⟨target, weight⟩] }

/-- The graph `g` with the vertex `name` appended under the next index. -/
def with_vertex (g : graph) (name : String) : graph :=
  { g with m_name_to_id := g.m_name_to_id ++ [(name, g.m_vertices.length)],
           m_vertices := g.m_vertices ++ [vertex.new name g.m_vertices.length] }


/-- The number of records one `add_edge` call stores: one in a directed graph, two
(the edge and its mirror) in an undirected one. -/
def records_per_call (g : graph) : Nat := if g.m_directed then 1 else 2

/-- The edge counter counts the successful `add_edge` calls: the stored records are
`records_per_call` times the counter. -/
def count_ok (g : graph) : Prop :=
  g.total_records = g.records_per_call * g.m_num_edges

/-- The graph `g2` is `g1` with at most one stored vertex replaced by a vertex of the
same name, id and edge list (a change of colour or label). -/
def attr_step (g1 g2 : graph) : Prop :=
  g2 = g1 ∨ ∃ i v u, g1.m_vertices[i]? = some v ∧ u.m_name = v.m_name ∧ u.m_id = v.m_id ∧
    u.m_edges = v.m_edges ∧ g2 = { g1 with m_vertices := g1.m_vertices.set i u }


/-- The vertices named `names`, stored from index `start` on, white and unlabelled,
the vertex at index `i` holding the edge list `edges i`. -/
def plain_vertices (edges : Nat → List edge) : Nat → List String → List vertex
  | _, [] => []
  | start, n :: rest =>
    { m_name := n, m_id := start, m_colour := colour.white, m_label := "",
      m_edges := edges start } :: plain_vertices edges (start + 1) rest

/-- The name map sending the names `names` to the indices from `start` on. -/
def plain_map : Nat → List String → name_map
  | _, [] => []
  | start, n :: rest => (n, start) :: plain_map (start + 1) rest

/-- The directed graph with the vertices `names` in index order, all white and
unlabelled, the edge list `edges i` at index `i`, and the edge counter `count`. -/
def plain (names : List String) (edges : Nat → List edge) (count : Nat) : graph :=
  { m_directed := true, m_num_edges := count,
    m_vertices := plain_vertices edges 0 names, m_name_to_id := plain_map 0 names }

/-- The value of a string of decimal digits. -/
def digits_value (cs : List Char) : Nat :=
  cs.foldl (fun acc c => 10 * acc + (c.toNat - 48)) 0


/-- The vertex names of `chain(k)` in index order: a1, ..., a(k+1). -/
def chain_names (k : Nat) : List String :=
  (List.range (k + 1)).map fun i => "a" ++ toString (i + 1)

/-- The edge lists of `chain(k)`: the vertex at index `i < k` has the one edge to
index `i + 1` with weight 0, the last vertex has none. -/
def chain_edges (k : Nat) : Nat → List edge :=
  fun i => if i < k then [⟨i + 1, 0⟩] else []


/-- The first `k` vertex names of `grid(n)` in index order: index `i` is the cell in
row `i / n` and column `i % n`. -/
def grid_names (n k : Nat) : List String :=
  (List.range k).map fun i => grid_name (i / n) (i % n)

/-- The edge lists of `grid(n)` while the horizontal edges are added: the cells with
index below `k` that have a right neighbour hold the edge to it. -/
def grid_h (n k : Nat) : Nat → List edge :=
  fun i => if i < k ∧ i % n + 1 < n then [⟨i + 1, 0⟩] else []

/-- The edge lists of `grid(n)` while the vertical edges are added: all horizontal
edges, then the edge to the cell below for the cells in the columns before `c` and for
the cells of column `c` in the rows before `r - 1`. -/
def grid_v (n c r : Nat) : Nat → List edge :=
  fun i => grid_h n (n * n) i ++
    if (i % n < c ∨ (i % n = c ∧ i / n + 1 < r)) ∧ i + n < n * n then [⟨i + n, 0⟩] else []


/-- Every stored edge record points at a stored vertex. -/
def targets_ok (g : graph) : Prop :=
  ∀ i, ∀ e ∈ edges_at g i, e.m_target < g.m_vertices.length

/-- Every stored vertex carries its position in the vertex sequence as its id. -/
def ids_ok (g : graph) : Prop :=
  ∀ (i : Nat) (v : vertex), g.m_vertices[i]? = some v → v.m_id = i

/-- The adjacency of an undirected graph is symmetric with multiplicity: the records
`(v, w)` at index `u` are as many as the records `(u, w)` at index `v`, and the
self-loop records `(u, w)` at index `u` come in pairs. -/
def sym_ok (g : graph) : Prop :=
  g.m_directed = false → ∀ (u v : Nat) (w : Int),
    (u ≠ v → (edges_at g u).count ⟨v, w⟩ = (edges_at g v).count ⟨u, w⟩) ∧
    Even ((edges_at g u).count ⟨u, w⟩)

/-- The graph `g2` keeps what `g1` stores: every vertex of `g1` is in `g2` at the same
index with the same name and id, its edge list in `g1` is a prefix of its edge list in
`g2`, and every name resolved by `g1` is resolved by `g2` to the same index. -/
def keeps (g1 g2 : graph) : Prop :=
  (∀ (i : Nat) (v : vertex), g1.m_vertices[i]? = some v → ∃ u : vertex,
    g2.m_vertices[i]? = some u ∧
    u.m_name = v.m_name ∧ u.m_id = v.m_id ∧ v.m_edges <+: u.m_edges) ∧
  (∀ n i, g1.m_name_to_id.find n = some i → g2.m_name_to_id.find n = some i)


/-- The character test `std::isspace` of the classic locale, which the stream
extractors use to delimit tokens: the same six characters as `iswspace`. -/
def isspace (c : Char) : Bool :=
  c = ' ' || c = '\t' || c = '\n' || c = Char.ofNat 11 || c = Char.ofNat 12 || c = '\r'

/-- The lines successive `std::getline` calls deliver on a text before the stream
fails: the text is cut at every line feed (which is dropped), and characters after the
last line feed form a last line only when there are any. -/
def split_lines : List Char → List (List Char)
  | [] => []
  | c :: cs =>
    if c = '\n' then [] :: split_lines cs
    else
      match split_lines cs with
      | [] => [[c]]
      | l :: ls => (c :: l) :: ls

/-- The extraction `iss >> word` of a `std::string`: leading whitespace is skipped, the
token runs up to the next whitespace character, and the extraction fails when no
character is left.  Returns the token and the unread rest. -/
def read_word (cs : List Char) : Option (String × List Char) :=
  match (cs.dropWhile isspace).span (fun c => !isspace c) with
  | ([], _) => none
  | (w, rest) => some (String.mk w, rest)

/-- The range of `int`. -/
def clamp_int (z : Int) : Int :=
  if z < -2147483648 then -2147483648 else if 2147483647 < z then 2147483647 else z

/-- The extraction `iss >> weight` into an `int` that holds 0: leading whitespace is
skipped, an optional sign and the decimal digits after it are read; without digits the
extraction fails and 0 is stored, and a value outside the range of `int` is stored as
the nearest bound. -/
def read_int (cs : List Char) : Int :=
  match cs.dropWhile isspace with
  | '-' :: rest =>
    if rest.takeWhile Char.isDigit = [] then 0
    else clamp_int (- (digits_value (rest.takeWhile Char.isDigit) : Int))
  | '+' :: rest =>
    if rest.takeWhile Char.isDigit = [] then 0
    else clamp_int (digits_value (rest.takeWhile Char.isDigit))
  | rest =>
    if rest.takeWhile Char.isDigit = [] then 0
    else clamp_int (digits_value (rest.takeWhile Char.isDigit))

/-- The statement `if (!result.m_name_to_id.contains(name)) result.add_vertex(name);`
of `load`. -/
def add_vertex_if_absent (g : graph) (name : String) : Except Error Unit × graph :=
  if !g.m_name_to_id.contains name then and_then (g.add_vertex name) fun g1 => (.ok (), g1)
  else (.ok (), g)

/-- The body of the `while` loop of `graph::load` for one line of the file. -/
def load_line (result : graph) (line : List Char) : Except Error Unit × graph :=
  match read_word line with
  | none => (.ok (), result)
  | some (from_, rest1) =>
    match read_word rest1 with
    | none => (.ok (), result)
    | some (to_, rest2) =>
      and_then (result.add_vertex_if_absent from_) fun r1 =>
        and_then (r1.add_vertex_if_absent to_) fun r2 =>
          r2.add_edge from_ to_ (read_int rest2)

/-- The loader `graph::load` as a function of the file: `none` is a file that cannot
be opened, `some text` a file with that content.  The first line is compared with the
literals of the source, which end in a carriage return. -/
def load (file : Option String) : Except Error graph :=
  match file with
  | none => .error .IoError
  | some text =>
    if (split_lines text.data).headD [] = "directed\r".data then
      returned (for_each load_line (split_lines text.data).tail (new true))
    else if (split_lines text.data).headD [] = "undirected\r".data then
      returned (for_each load_line (split_lines text.data).tail (new false))
    else .error .MalformedHeader


/-- No index used on the vertex sequence of `g` is out of range: every stored edge
record points at a stored vertex, so `edge::target` resolves, and `add_edge`,
`find_vertex`, `colour_vertex` and `label_vertex` never index outside the sequence
whatever their arguments. -/
def in_range (g : graph) : Prop :=
  (∀ v ∈ g.vertices, ∀ e ∈ v.edges, e.m_target < g.num_vertices ∧ ∃ t, e.target g = .ok t) ∧
  (∀ a b w, (g.add_edge a b w).1 ≠ .error .OutOfRange) ∧
  (∀ n, g.find_vertex n ≠ .error .OutOfRange) ∧
  (∀ n c, (g.colour_vertex n c).1 ≠ .error .OutOfRange) ∧
  (∀ n l, (g.label_vertex n l).1 ≠ .error .OutOfRange) ∧
  (∀ n l, (g.label_vertex_int n l).1 ≠ .error .OutOfRange)


/-- The manipulator `std::quoted`: the text between double quotes, with a backslash
before every double quote and every backslash. -/
def quoted (s : String) : String :=
  "\"" ++ String.mk (s.data.flatMap fun c => if c = '"' || c = '\\' then ['\\', c] else [c]) ++ "\""

/-- The line `to_dot` writes for a vertex. -/
def dot_vertex_line (v : vertex) : String :=
  "\t" ++ v.name ++ "[name=" ++ quoted v.name ++
    (if v.label = "" then "" else ", label=\"" ++ v.name ++ "\\n" ++ v.label ++ "\"") ++
    ", fillcolor=" ++ quoted v.colour ++ "];\n"

/-- The comparison `operator<` of `std::string`: lexicographic on the characters. -/
def string_lt (a b : String) : Bool := decide (a.data < b.data)

/-- The line `to_dot` writes for an edge from the vertex named `src` to the vertex
named `dst`. -/
def dot_edge_line (src dst : String) : String :=
  "\t" ++ src ++ " -> " ++ dst ++ ";\n"

/-- The inner loop of the edge section of `to_dot`, over the edge records of the vertex
`v`: the lines written, in order. -/
def dot_edges_of (g : graph) (v : vertex) : List edge → Except Error (List String)
  | [] => .ok []
  | e :: rest =>
    match e.target g with
    | .error err => .error err
    | .ok t =>
      match dot_edges_of g v rest with
      | .error err => .error err
      | .ok ls =>
        .ok (if g.m_directed || string_lt v.name t.name then
          dot_edge_line v.name t.name :: ls else ls)

/-- The outer loop of the edge section of `to_dot`, over the vertices. -/
def dot_edges (g : graph) : List vertex → Except Error (List String)
  | [] => .ok []
  | v :: rest =>
    match dot_edges_of g v v.m_edges with
    | .error err => .error err
    | .ok l1 =>
      match dot_edges g rest with
      | .error err => .error err
      | .ok l2 => .ok (l1 ++ l2)

/-- What `to_dot` writes before the edge section: the header and the vertex lines. -/
def dot_head (g : graph) : String :=
  "digraph g \x7b\n" ++ "\trankdir = LR;" ++ "\tnode[shape=oval style=filled];\n" ++
    String.join (g.m_vertices.map dot_vertex_line)

/-- The line of `to_dot` that opens the edge section (after an empty line). -/
def dot_edge_header (g : graph) : String :=
  "\n\tedge[dir = " ++ (if g.m_directed then "forward" else "none") ++ "];\n"

/-- The text `graph::to_dot` writes into a file it could open. -/
def dot_text (g : graph) : Except Error String :=
  match dot_edges g g.m_vertices with
  | .error err => .error err
  | .ok ls => .ok (dot_head g ++ dot_edge_header g ++ String.join ls ++ "\x7d\n")

/-- The member `graph::to_dot` as a function of the graph and of whether the file
could be opened: the returned flag and the text written. -/
def to_dot (g : graph) (opened : Bool) : Except Error (Bool × String) :=
  if opened then
    match dot_text g with
    | .error err => .error err
    | .ok text => .ok (true, text)
  else .ok (false, "")

/-- The line written for the record `e` in the edge list of a vertex named `src`, if
any: in a directed graph always, in an undirected graph when `src` is strictly less
than the name of the target. -/
def line_of (g : graph) (src : String) (e : edge) : Option String :=
  match g.m_vertices[e.m_target]? with
  | some t =>
    if g.m_directed || string_lt src t.m_name then some (dot_edge_line src t.m_name) else none
  | none => none

/-- The edge lines written for the records stored at index `i`, in order. -/
def lines_at (g : graph) (i : Nat) : List String :=
  match g.m_vertices[i]? with
  | some v => v.m_edges.filterMap (line_of g v.m_name)
  | none => []


/-- The name of the vertex stored at index `t` (the empty name when there is none). -/
def name_at (g : graph) (t : Nat) : String :=
  match g.m_vertices[t]? with
  | some v => v.m_name
  | none => ""

/-- The edge records of the vertex named `n`, each as the name of its target and its
weight, in stored order (empty when no vertex has that name). -/
def named_records (g : graph) (n : String) : List (String × Int) :=
  match g.m_name_to_id.find n with
  | some i => (edges_at g i).map fun e => (name_at g e.m_target, e.m_weight)
  | none => []

/-- The colour and the label of the vertex named `n`, if there is one. -/
def look_of (g : graph) (n : String) : Option (String × String) :=
  match g.m_name_to_id.find n with
  | some i => (g.m_vertices[i]?).map fun v => (v.m_colour, v.m_label)
  | none => none

/-- The vertex at index `i` of the source is not in the destination when the copy
assignment looks it up: it has no edge records and no vertex before it has a record
that points at it. -/
def unreached (s : graph) (i : Nat) : Prop :=
  edges_at s i = [] ∧ ∀ j, j < i → ∀ e ∈ edges_at s j, e.m_target ≠ i

instance unreached_decidable (s : graph) (i : Nat) : Decidable (unreached s i) := by
  unfold unreached
  infer_instance


/-- The destination `d` of the copy assignment after the first `k` vertices of the
source `s` have been processed: the names present are those of the processed vertices
and of the targets of their records, the counter has counted their records, and (for a
directed source) the processed vertices have their records, colour and label while
every other vertex has no record yet. -/
structure copied (s d : graph) (k : Nat) : Prop where
  names : names_ok d
  targets : targets_ok d
  directed : d.m_directed = s.m_directed
  present : ∀ name, d.m_name_to_id.contains name = true ↔
    ∃ j, j < k ∧ (name = name_at s j ∨ ∃ e ∈ edges_at s j, name_at s e.m_target = name)
  count : d.m_num_edges = ((s.m_vertices.take k).map fun v => v.m_edges.length).sum
  records : s.m_directed = true → ∀ j, j < k →
    named_records d (name_at s j) = named_records s (name_at s j)
  others : s.m_directed = true → ∀ name, (∀ j, j < k → name ≠ name_at s j) →
    named_records d name = []
  look : ∀ j, j < k → look_of d (name_at s j) = look_of s (name_at s j)


end graph

namespace graph

/-! ## Elementary facts about the name map and the vertex sequence -/

theorem find_append_fresh (m : name_map) (k : String) (v : Nat) (h : m.find k = none) :
    name_map.find (m ++ [(k, v)]) k = some v := by
  unfold name_map.find at *
  simp [List.lookup_append, h]

theorem find_append_other (m : name_map) (k k2 : String) (v : Nat) (h : k2 ≠ k) :
    name_map.find (m ++ [(k, v)]) k2 = m.find k2 := by
  unfold name_map.find
  rw [List.lookup_append]
  have : List.lookup k2 [(k, v)] = none := by
    have hne : (k2 == k) = false := by simpa using h
    simp [List.lookup_cons, hne]
  rw [this]; cases List.lookup k2 m <;> rfl

theorem assign_fresh (m : name_map) (k : String) (v : Nat) (h : m.find k = none) :
    m.assign k v = m ++ [(k, v)] := by
  simp [name_map.assign, name_map.contains, h]

/-- The outcome of `add_vertex` on a name that passes both checks. -/
theorem add_vertex_ok (g : graph) (n : String) (hb : blank n = false)
    (hp : g.m_name_to_id.find n = none) :
    g.add_vertex n = (.ok g.m_vertices.length,
      { g with m_name_to_id := g.m_name_to_id ++ [(n, g.m_vertices.length)],
               m_vertices := g.m_vertices ++ [vertex.new n g.m_vertices.length] }) := by
  simp [add_vertex, hb, hp, assign_fresh]

/-! ## Claims -/

/-- C1: for a name `n` that is not blank and has no entry in the name map,
`add_vertex(n)` returns the previous `num_vertices()`, `num_vertices()` grows by
exactly one, a following `find_id(n)` returns that index, and a second
`add_vertex(n)` throws the duplicate-name error. -/
theorem add_vertex_fresh (g : graph) (n : String) (hb : blank n = false)
    (hp : g.m_name_to_id.contains n = false) :
    (g.add_vertex n).1 = .ok g.num_vertices ∧
    (g.add_vertex n).2.num_vertices = g.num_vertices + 1 ∧
    (g.add_vertex n).2.find_id n = .ok g.num_vertices ∧
    ((g.add_vertex n).2.add_vertex n).1 = .error .DuplicateName := by
  have hp2 : g.m_name_to_id.find n = none := by
    simpa [name_map.contains] using hp
  rw [add_vertex_ok g n hb hp2]
  refine ⟨rfl, by simp [num_vertices], ?_, ?_⟩
  · simp [find_id, find_append_fresh _ _ _ hp2, num_vertices]
  · simp [add_vertex, hb, find_append_fresh _ _ _ hp2]

/-- Witness for C1: the name "a" added to the empty directed graph. -/
theorem add_vertex_fresh_witness :
    ((new true).add_vertex "a").1 = .ok 0 ∧
    ((new true).add_vertex "a").2.num_vertices = 0 + 1 ∧
    ((new true).add_vertex "a").2.find_id "a" = .ok 0 ∧
    (((new true).add_vertex "a").2.add_vertex "a").1 = .error .DuplicateName :=
  add_vertex_fresh (new true) "a" (by decide) (by decide)

/-- C2: `add_vertex(name)` throws the invalid-name error exactly when every character
of `name` is whitespace (so for the empty name and for "   "), throws the
duplicate-name error exactly when `name` is not blank and has an entry in the name
map, and a throwing call leaves the graph as it was. -/
theorem add_vertex_failure (g : graph) (name : String) :
    ((g.add_vertex name).1 = .error .InvalidName ↔
      (name = "" ∨ ∀ c ∈ name.data, iswspace c = true)) ∧
    ((g.add_vertex name).1 = .error .DuplicateName ↔
      ((¬ ∀ c ∈ name.data, iswspace c = true) ∧ g.m_name_to_id.contains name = true)) ∧
    (∀ e, (g.add_vertex name).1 = .error e → (g.add_vertex name).2 = g) ∧
    (g.add_vertex "").1 = .error .InvalidName ∧
    (g.add_vertex "   ").1 = .error .InvalidName := by
  have hbl : blank name = true ↔ ∀ c ∈ name.data, iswspace c = true := by
    simp [blank, List.all_eq_true]
  have hempty : name = "" → ∀ c ∈ name.data, iswspace c = true := by
    rintro rfl c hc; simp at hc
  refine ⟨?_, ?_, ?_, ?_, ?_⟩
  · by_cases hb : blank name = true
    · simpa [add_vertex, hb] using Or.inr (hbl.mp hb)
    · have hb2 : blank name = false := by simpa using hb
      have hn : ¬ ∀ c ∈ name.data, iswspace c = true := fun h => hb (hbl.mpr h)
      have hne : ¬ name = "" := fun h => hn (hempty h)
      by_cases hf : (g.m_name_to_id.find name).isSome = true
      · simp [add_vertex, hb2, hf, hn, hne]
      · simp [add_vertex, hb2, hf, hn, hne]
  · by_cases hb : blank name = true
    · have hall := hbl.mp hb
      simp only [add_vertex, hb, if_true]
      constructor
      · intro h; cases h
      · intro h; exact absurd hall h.1
    · have hb2 : blank name = false := by simpa using hb
      have hn : ¬ ∀ c ∈ name.data, iswspace c = true := fun h => hb (hbl.mpr h)
      by_cases hf : (g.m_name_to_id.find name).isSome = true
      · simp [add_vertex, hb2, hf, hn, name_map.contains]
      · simp [add_vertex, hb2, hf, hn, name_map.contains]
  · intro e
    by_cases hb : blank name = true
    · simp [add_vertex, hb]
    · have hb2 : blank name = false := by simpa using hb
      by_cases hf : (g.m_name_to_id.find name).isSome = true
      · simp [add_vertex, hb2, hf]
      · simp [add_vertex, hb2, hf]
  · simp [add_vertex, blank]
  · have : blank "   " = true := by decide
    simp [add_vertex, this]

/-! ## The name map stays in step with the vertex sequence -/

theorem names_ok_new (d : Bool) : names_ok (new d) where
  find_iff := by intro name i; simp [new, name_map.find]
  keys_nodup := by simp [new]
  size_eq := rfl
  not_blank := by intro v hv; simp [new] at hv

theorem names_ok.lt_of_find {g : graph} (h : names_ok g) {name : String} {i : Nat}
    (hf : g.m_name_to_id.find name = some i) : i < g.m_vertices.length := by
  have := (h.find_iff name i).mp hf
  by_contra hlt
  rw [List.getElem?_eq_none (by omega)] at this
  simp at this

theorem names_ok.getElem_of_find {g : graph} (h : names_ok g) {name : String} {i : Nat}
    (hf : g.m_name_to_id.find name = some i) :
    ∃ v, g.m_vertices[i]? = some v ∧ v.m_name = name := by
  have := (h.find_iff name i).mp hf
  cases hv : g.m_vertices[i]? with
  | none => rw [hv] at this; simp at this
  | some v => rw [hv] at this; exact ⟨v, rfl, by simpa [vertex.name] using this⟩

theorem key_not_mem_of_find_none {m : name_map} {k : String} (h : m.find k = none) :
    k ∉ m.map Prod.fst := by
  unfold name_map.find at h
  rw [List.lookup_eq_none_iff] at h
  intro hk
  obtain ⟨p, hp, rfl⟩ := List.mem_map.mp hk
  simpa using h p hp

theorem names_ok_add_vertex_ok {g : graph} (h : names_ok g) {n : String}
    (hb : blank n = false) (hp : g.m_name_to_id.find n = none) :
    names_ok { g with m_name_to_id := g.m_name_to_id ++ [(n, g.m_vertices.length)],
                      m_vertices := g.m_vertices ++ [vertex.new n g.m_vertices.length] } where
  find_iff := by
    intro name i
    show name_map.find (g.m_name_to_id ++ [(n, g.m_vertices.length)]) name = some i ↔
      ((g.m_vertices ++ [vertex.new n g.m_vertices.length])[i]?).map vertex.name = some name
    by_cases hn : name = n
    · subst hn
      rw [find_append_fresh _ _ _ hp]
      rcases Nat.lt_trichotomy i g.m_vertices.length with hlt | heq | hgt
      · rw [List.getElem?_append_left hlt]
        have hne : ¬ (g.m_vertices[i]?).map vertex.name = some name := by
          intro hc
          have := (h.find_iff name i).mpr hc
          rw [hp] at this; cases this
        constructor
        · intro he; simp at he; omega
        · intro he; exact absurd he hne
      · subst heq
        simp [vertex.new, vertex.name]
      · rw [List.getElem?_eq_none (by simp; omega)]
        constructor
        · intro he; simp at he; omega
        · intro he; simp at he
    · rw [find_append_other _ _ _ _ hn, h.find_iff name i]
      rcases Nat.lt_trichotomy i g.m_vertices.length with hlt | heq | hgt
      · rw [List.getElem?_append_left hlt]
      · subst heq
        simp [vertex.new, vertex.name]
        exact fun hc => hn hc.symm
      · have h1 : (g.m_vertices ++ [vertex.new n g.m_vertices.length])[i]? = none :=
          List.getElem?_eq_none (by simp; omega)
        have h2 : g.m_vertices[i]? = none := List.getElem?_eq_none (by omega)
        rw [h1, h2]
  keys_nodup := by
    show ((g.m_name_to_id ++ [(n, g.m_vertices.length)]).map Prod.fst).Nodup
    rw [List.map_append, List.nodup_append]
    refine ⟨h.keys_nodup, by simp, ?_⟩
    intro a ha hb2
    simp at hb2
    subst hb2
    exact key_not_mem_of_find_none hp ha
  size_eq := by simp [h.size_eq]
  not_blank := by
    intro v hv
    simp only [List.mem_append, List.mem_singleton] at hv
    rcases hv with hv | rfl
    · exact h.not_blank v hv
    · exact hb

theorem names_ok_add_vertex {g : graph} (h : names_ok g) (n : String) :
    names_ok (g.add_vertex n).2 := by
  by_cases hb : blank n = true
  · simpa [add_vertex, hb] using h
  · have hb2 : blank n = false := by simpa using hb
    cases hp : g.m_name_to_id.find n with
    | some i => simpa [add_vertex, hb2, hp] using h
    | none =>
      rw [add_vertex_ok g n hb2 hp]
      exact names_ok_add_vertex_ok h hb2 hp

/-- Replacing a stored vertex by one of the same name keeps the name map in step. -/
theorem names_ok_set {g : graph} (h : names_ok g) {i : Nat} {v w : vertex}
    (hv : g.m_vertices[i]? = some v) (hw : w.m_name = v.m_name) :
    names_ok { g with m_vertices := g.m_vertices.set i w } where
  find_iff := by
    intro name j
    show g.m_name_to_id.find name = some j ↔
      ((g.m_vertices.set i w)[j]?).map vertex.name = some name
    rw [h.find_iff name j, List.getElem?_set]
    by_cases hij : i = j
    · subst hij
      have hlt : i < g.m_vertices.length := by
        by_contra hc
        rw [List.getElem?_eq_none (by omega)] at hv; cases hv
      simp [hlt, hv, vertex.name, hw]
    · simp [hij]
  keys_nodup := h.keys_nodup
  size_eq := by simp [h.size_eq]
  not_blank := by
    intro u hu
    rcases List.mem_or_eq_of_mem_set hu with hu | rfl
    · exact h.not_blank u hu
    · rw [hw]; exact h.not_blank v (List.getElem?_mem hv)

/-! ## Loops and the edge-list update -/

theorem for_each_preserves {α : Type} (P : graph → Prop)
    (body : graph → α → Except Error Unit × graph)
    (hbody : ∀ g x, P g → P (body g x).2) :
    ∀ (xs : List α) (g : graph), P g → P (for_each body xs g).2 := by
  intro xs
  induction xs with
  | nil => intro g hg; simpa [for_each] using hg
  | cons x rest ih =>
    intro g hg
    have hx := hbody g x hg
    unfold for_each
    rcases hbx : body g x with ⟨r, g1⟩
    rw [hbx] at hx
    cases r with
    | error e => simpa using hx
    | ok u => simpa using ih g1 hx

theorem with_edge_length (vs : List vertex) (i t : Nat) (w : Int) :
    (with_edge vs i t w).length = vs.length := by
  unfold with_edge; split <;> simp

theorem with_edge_getElem? (vs : List vertex) (i t : Nat) (w : Int) (j : Nat) :
    (with_edge vs i t w)[j]? =
      (vs[j]?).map fun v =>
        if j = i then { v with m_edges := v.m_edges ++ [⟨t, w⟩] } else v := by
  unfold with_edge
  cases hv : vs[i]? with
  | none =>
    by_cases hji : j = i
    · subst hji; simp [hv]
    · simp [hji]
  | some v =>
    have hlt : i < vs.length := by
      by_contra hc
      rw [List.getElem?_eq_none (by omega)] at hv; cases hv
    simp only [List.getElem?_set]
    by_cases hji : j = i
    · subst hji; simp [hlt, hv]
    · have : ¬ i = j := fun h => hji h.symm
      simp [this, hji]

theorem with_edge_names (vs : List vertex) (i t : Nat) (w : Int) (j : Nat) :
    ((with_edge vs i t w)[j]?).map vertex.name = (vs[j]?).map vertex.name := by
  rw [with_edge_getElem?]
  cases vs[j]? with
  | none => rfl
  | some v => by_cases hji : j = i <;> simp [hji, vertex.name]

theorem sum_lengths_set (vs : List vertex) (i : Nat) (v u : vertex)
    (hv : vs[i]? = some v) (hu : u.m_edges.length = v.m_edges.length + 1) :
    ((vs.set i u).map fun x => x.m_edges.length).sum =
      (vs.map fun x => x.m_edges.length).sum + 1 := by
  induction vs generalizing i with
  | nil => simp at hv
  | cons x rest ih =>
    cases i with
    | zero =>
      simp at hv
      subst hv
      simp [hu]; omega
    | succ k =>
      simp at hv
      rw [List.set_cons_succ, List.map_cons, List.sum_cons, ih k hv, List.map_cons,
        List.sum_cons]
      omega

theorem sum_lengths_with_edge (vs : List vertex) (i t : Nat) (w : Int) (hlt : i < vs.length) :
    ((with_edge vs i t w).map fun x => x.m_edges.length).sum =
      (vs.map fun x => x.m_edges.length).sum + 1 := by
  unfold with_edge
  have hv : vs[i]? = some vs[i] := List.getElem?_eq_getElem hlt
  simp only [hv]
  exact sum_lengths_set _ _ _ _ hv (by simp)

theorem push_edge_eq {g : graph} {i : Nat} (hlt : i < g.m_vertices.length) (t : Nat) (w : Int) :
    g.push_edge i t w = (.ok (), { g with m_vertices := with_edge g.m_vertices i t w }) := by
  have hv : g.m_vertices[i]? = some g.m_vertices[i] := List.getElem?_eq_getElem hlt
  simp [push_edge, with_edge, hv]

theorem push_edge_snd (g : graph) (i t : Nat) (w : Int) :
    (g.push_edge i t w).2 = { g with m_vertices := with_edge g.m_vertices i t w } := by
  unfold push_edge with_edge
  cases g.m_vertices[i]? <;> rfl

theorem names_ok_with_edge {g : graph} (h : names_ok g) (i t : Nat) (w : Int) :
    names_ok { g with m_vertices := with_edge g.m_vertices i t w } := by
  unfold with_edge
  cases hv : g.m_vertices[i]? with
  | none => exact h
  | some v => exact names_ok_set h hv rfl

theorem names_ok_num_edges {g : graph} (h : names_ok g) (k : Nat) :
    names_ok { g with m_num_edges := k } :=
  ⟨h.find_iff, h.keys_nodup, h.size_eq, h.not_blank⟩

theorem edges_at_with_edge (g : graph) (i t : Nat) (w : Int) (hlt : i < g.m_vertices.length)
    (j : Nat) :
    edges_at { g with m_vertices := with_edge g.m_vertices i t w } j =
      if j = i then edges_at g j ++ [⟨t, w⟩] else edges_at g j := by
  unfold edges_at
  show (match (with_edge g.m_vertices i t w)[j]? with
    | some v => v.m_edges | none => []) = _
  rw [with_edge_getElem?]
  by_cases hji : j = i
  · subst hji
    simp [List.getElem?_eq_getElem hlt]
  · cases g.m_vertices[j]? <;> simp [hji]

theorem total_records_with_edge (g : graph) (i t : Nat) (w : Int)
    (hlt : i < g.m_vertices.length) :
    total_records { g with m_vertices := with_edge g.m_vertices i t w } =
      total_records g + 1 := by
  unfold total_records with_edge
  have hv : g.m_vertices[i]? = some g.m_vertices[i] := List.getElem?_eq_getElem hlt
  simp only [hv]
  exact sum_lengths_set _ _ _ _ hv (by simp)

/-! ## Endpoint creation in `add_edge` -/

theorem add_vertex_eq_with_vertex (g : graph) (n : String) (hb : blank n = false)
    (hp : g.m_name_to_id.find n = none) :
    g.add_vertex n = (.ok g.m_vertices.length, g.with_vertex n) :=
  add_vertex_ok g n hb hp

theorem names_ok_with_vertex {g : graph} (h : names_ok g) {n : String}
    (hb : blank n = false) (hp : g.m_name_to_id.find n = none) :
    names_ok (g.with_vertex n) :=
  names_ok_add_vertex_ok h hb hp

theorem find_with_vertex_self (g : graph) (n : String) (hp : g.m_name_to_id.find n = none) :
    (g.with_vertex n).m_name_to_id.find n = some g.m_vertices.length :=
  find_append_fresh _ _ _ hp

theorem find_with_vertex_other (g : graph) (n k : String) (hk : k ≠ n) :
    (g.with_vertex n).m_name_to_id.find k = g.m_name_to_id.find k :=
  find_append_other _ _ _ _ hk

theorem find_with_vertex_of_find (g : graph) (n k : String) (i : Nat)
    (hp : g.m_name_to_id.find n = none) (hk : g.m_name_to_id.find k = some i) :
    (g.with_vertex n).m_name_to_id.find k = some i := by
  have hne : k ≠ n := by
    rintro rfl; rw [hp] at hk; cases hk
  rw [find_with_vertex_other g n k hne, hk]

theorem edges_at_with_vertex (g : graph) (n : String) (i : Nat) :
    edges_at (g.with_vertex n) i = edges_at g i := by
  unfold edges_at with_vertex
  simp only [List.getElem?_append]
  by_cases hlt : i < g.m_vertices.length
  · simp [hlt]
  · have h2 : g.m_vertices[i]? = none := List.getElem?_eq_none (by omega)
    simp only [hlt, if_false, h2]
    by_cases h0 : i - g.m_vertices.length = 0
    · simp [h0, vertex.new]
    · have : [vertex.new n g.m_vertices.length][i - g.m_vertices.length]? = none :=
        List.getElem?_eq_none (by simp; omega)
      rw [this]

theorem total_records_with_vertex (g : graph) (n : String) :
    total_records (g.with_vertex n) = total_records g := by
  simp [total_records, with_vertex, vertex.new]

theorem lookup_or_add_spec (g : graph) {a : String} (ha : blank a = false) :
    ∃ ia, (g.lookup_or_add a).1 = .ok ia ∧
      ((g.m_name_to_id.find a = some ia ∧ (g.lookup_or_add a).2 = g) ∨
       (g.m_name_to_id.find a = none ∧ ia = g.m_vertices.length ∧
          (g.lookup_or_add a).2 = g.with_vertex a)) := by
  unfold lookup_or_add
  cases hf : g.m_name_to_id.find a with
  | some i => exact ⟨i, rfl, Or.inl ⟨rfl, rfl⟩⟩
  | none =>
    refine ⟨g.m_vertices.length, ?_, Or.inr ⟨rfl, rfl, ?_⟩⟩
    · simp [add_vertex_eq_with_vertex g a ha hf]
    · simp [add_vertex_eq_with_vertex g a ha hf]

/-- What the lookup-or-create step leaves untouched, and what it establishes. -/
theorem lookup_or_add_frame {g : graph} (h : names_ok g) {a : String} (ha : blank a = false) :
    names_ok (g.lookup_or_add a).2 ∧
    (g.lookup_or_add a).2.m_directed = g.m_directed ∧
    (g.lookup_or_add a).2.m_num_edges = g.m_num_edges ∧
    (∀ i, edges_at (g.lookup_or_add a).2 i = edges_at g i) ∧
    total_records (g.lookup_or_add a).2 = total_records g ∧
    (∀ n i, g.m_name_to_id.find n = some i →
      (g.lookup_or_add a).2.m_name_to_id.find n = some i) ∧
    ∃ ia, (g.lookup_or_add a).1 = .ok ia ∧
      (g.lookup_or_add a).2.m_name_to_id.find a = some ia := by
  obtain ⟨ia, hia, hcase⟩ := lookup_or_add_spec g ha
  rcases hcase with ⟨hf, heq⟩ | ⟨hf, hlen, heq⟩
  · rw [heq]
    exact ⟨h, rfl, rfl, fun _ => rfl, rfl, fun _ _ hn => hn, ia, hia, hf⟩
  · refine ⟨?_, ?_, ?_, ?_, ?_, ?_, ia, hia, ?_⟩
    · rw [heq]; exact names_ok_with_vertex h ha hf
    · rw [heq]; rfl
    · rw [heq]; rfl
    · intro i; rw [heq]; exact edges_at_with_vertex g a i
    · rw [heq]; exact total_records_with_vertex g a
    · intro n i hn; rw [heq]; exact find_with_vertex_of_find g a n i hf hn
    · rw [heq, hlen]; exact find_with_vertex_self g a hf

/-- The outcome of `add_edge` on non-blank names, in terms of the graph `g2` left by
the two lookup-or-create steps and the indices `ia`, `ib` they return. -/
theorem add_edge_eq {g : graph} (h : names_ok g) {a b : String} (ha : blank a = false)
    (hb : blank b = false) (w : Int) :
    ∃ ia ib, (g.lookup_or_add a).1 = .ok ia ∧
      ((g.lookup_or_add a).2.lookup_or_add b).1 = .ok ib ∧
      ((g.lookup_or_add a).2.lookup_or_add b).2.m_name_to_id.find a = some ia ∧
      ((g.lookup_or_add a).2.lookup_or_add b).2.m_name_to_id.find b = some ib ∧
      g.add_edge a b w = (.ok (),
        { ((g.lookup_or_add a).2.lookup_or_add b).2 with
          m_num_edges := g.m_num_edges + 1,
          m_vertices :=
            if g.m_directed then
              with_edge ((g.lookup_or_add a).2.lookup_or_add b).2.m_vertices ia ib w
            else
              with_edge
                (with_edge ((g.lookup_or_add a).2.lookup_or_add b).2.m_vertices ia ib w)
                ib ia w }) := by
  obtain ⟨h1, hd1, hn1, -, -, hk1, ia, hia, hfa⟩ := lookup_or_add_frame h ha
  obtain ⟨h2, hd2, hn2, -, -, hk2, ib, hib, hfb⟩ := lookup_or_add_frame h1 hb
  have hfa2 := hk2 a ia hfa
  refine ⟨ia, ib, hia, hib, hfa2, hfb, ?_⟩
  have hlta := h2.lt_of_find hfa2
  have hltb := h2.lt_of_find hfb
  unfold add_edge
  rcases hr1 : g.lookup_or_add a with ⟨r1, g1⟩
  rw [hr1] at hia hib hfa2 hfb hlta hltb hd1 hn1 hd2 hn2
  simp only at hia hib hfa2 hfb hlta hltb hd1 hn1 hd2 hn2
  subst hia
  simp only
  rcases hr2 : g1.lookup_or_add b with ⟨r2, g2⟩
  rw [hr2] at hib hfa2 hfb hlta hltb hd2 hn2
  simp only at hib hfa2 hfb hlta hltb hd2 hn2
  subst hib
  simp only
  rw [push_edge_eq hlta]
  simp only
  have hltb2 : ib < ({ g2 with m_vertices := with_edge g2.m_vertices ia ib w } : graph).m_vertices.length := by
    show ib < (with_edge g2.m_vertices ia ib w).length
    rw [with_edge_length]; exact hltb
  rw [push_edge_eq hltb2]
  have hdir : g2.m_directed = g.m_directed := hd2.trans hd1
  have hnum : g2.m_num_edges = g.m_num_edges := hn2.trans hn1
  cases hdg : g.m_directed <;> simp [hdir, hdg, hnum]

/-! ## Colouring and labelling -/

theorem colour_vertex_attr_step (g : graph) (name colour : String) :
    attr_step g (g.colour_vertex name colour).2 := by
  cases hf : g.find_id name with
  | error e => simp only [colour_vertex, hf]; exact Or.inl rfl
  | ok id =>
    cases hv : g.m_vertices[id]? with
    | none => simp only [colour_vertex, hf, hv]; exact Or.inl rfl
    | some v =>
      simp only [colour_vertex, hf, hv]
      exact Or.inr ⟨id, v, { v with m_colour := colour }, hv, rfl, rfl, rfl, rfl⟩

theorem label_vertex_attr_step (g : graph) (name lbl : String) :
    attr_step g (g.label_vertex name lbl).2 := by
  cases hf : g.find_id name with
  | error e => simp only [label_vertex, hf]; exact Or.inl rfl
  | ok id =>
    cases hv : g.m_vertices[id]? with
    | none => simp only [label_vertex, hf, hv]; exact Or.inl rfl
    | some v =>
      simp only [label_vertex, hf, hv]
      exact Or.inr ⟨id, v, { v with m_label := lbl }, hv, rfl, rfl, rfl, rfl⟩

theorem label_vertex_int_attr_step (g : graph) (name : String) (lbl : Int) :
    attr_step g (g.label_vertex_int name lbl).2 := by
  cases hf : g.find_id name with
  | error e => simp only [label_vertex_int, hf]; exact Or.inl rfl
  | ok id =>
    cases hv : g.m_vertices[id]? with
    | none => simp only [label_vertex_int, hf, hv]; exact Or.inl rfl
    | some v =>
      simp only [label_vertex_int, hf, hv]
      exact Or.inr ⟨id, v, { v with m_label := toString lbl }, hv, rfl, rfl, rfl, rfl⟩

theorem sum_lengths_set_same (vs : List vertex) (i : Nat) (v u : vertex)
    (hv : vs[i]? = some v) (hu : u.m_edges = v.m_edges) :
    ((vs.set i u).map fun x => x.m_edges.length).sum =
      (vs.map fun x => x.m_edges.length).sum := by
  induction vs generalizing i with
  | nil => simp at hv
  | cons x rest ih =>
    cases i with
    | zero =>
      simp at hv
      subst hv
      simp [hu]
    | succ k =>
      simp at hv
      rw [List.set_cons_succ, List.map_cons, List.sum_cons, ih k hv, List.map_cons,
        List.sum_cons]

theorem names_ok_attr_step {g1 g2 : graph} (hs : attr_step g1 g2) (h : names_ok g1) :
    names_ok g2 := by
  rcases hs with rfl | ⟨i, v, u, hv, hn, -, -, rfl⟩
  · exact h
  · exact names_ok_set h hv hn

theorem count_ok_attr_step {g1 g2 : graph} (hs : attr_step g1 g2) (h : count_ok g1) :
    count_ok g2 := by
  rcases hs with rfl | ⟨i, v, u, hv, -, -, he, rfl⟩
  · exact h
  · unfold count_ok total_records records_per_call at *
    simp only
    rw [sum_lengths_set_same _ _ _ _ hv he]
    exact h

/-! ## Every outcome of `add_edge` -/

theorem find_none_of_blank {g : graph} (h : names_ok g) {a : String} (ha : blank a = true) :
    g.m_name_to_id.find a = none := by
  cases hf : g.m_name_to_id.find a with
  | none => rfl
  | some i =>
    obtain ⟨v, hv, hn⟩ := h.getElem_of_find hf
    have := h.not_blank v (List.getElem?_mem hv)
    rw [hn, ha] at this; cases this

theorem lookup_or_add_blank {g : graph} (h : names_ok g) {a : String} (ha : blank a = true) :
    g.lookup_or_add a = (.error .InvalidName, g) := by
  simp [lookup_or_add, find_none_of_blank h ha, add_vertex, ha]

theorem names_ok_lookup_or_add {g : graph} (h : names_ok g) (a : String) :
    names_ok (g.lookup_or_add a).2 := by
  unfold lookup_or_add
  cases hf : g.m_name_to_id.find a with
  | some i => exact h
  | none => exact names_ok_add_vertex h a

/-- The three ways an `add_edge` call can end on a graph whose name map is in step:
both names blank-free and the edge stored, the source blank and nothing changed, or
the target blank after the source was looked up or created. -/
theorem add_edge_cases {g : graph} (h : names_ok g) (a b : String) (w : Int) :
    (blank a = false ∧ blank b = false ∧ (g.add_edge a b w).1 = .ok ()) ∨
    (blank a = true ∧ g.add_edge a b w = (.error .InvalidName, g)) ∨
    (blank a = false ∧ blank b = true ∧
      g.add_edge a b w = (.error .InvalidName, (g.lookup_or_add a).2)) := by
  cases ha : blank a with
  | true =>
    refine Or.inr (Or.inl ⟨rfl, ?_⟩)
    simp [add_edge, lookup_or_add_blank h ha]
  | false =>
    cases hb : blank b with
    | true =>
      refine Or.inr (Or.inr ⟨rfl, rfl, ?_⟩)
      obtain ⟨ia, hia, -⟩ := lookup_or_add_spec g ha
      have h1 := names_ok_lookup_or_add h a
      unfold add_edge
      rcases hr1 : g.lookup_or_add a with ⟨r1, g1⟩
      rw [hr1] at hia h1
      simp only at hia h1
      subst hia
      simp [lookup_or_add_blank h1 hb]
    | false =>
      refine Or.inl ⟨rfl, rfl, ?_⟩
      obtain ⟨ia, ib, -, -, -, -, heq⟩ := add_edge_eq h ha hb w
      rw [heq]

theorem names_ok_add_edge {g : graph} (h : names_ok g) (a b : String) (w : Int) :
    names_ok (g.add_edge a b w).2 := by
  rcases add_edge_cases h a b w with ⟨ha, hb, -⟩ | ⟨-, heq⟩ | ⟨-, -, heq⟩
  · obtain ⟨ia, ib, -, -, -, -, heq⟩ := add_edge_eq h ha hb w
    rw [heq]
    have h2 := names_ok_lookup_or_add (names_ok_lookup_or_add h a) b
    cases g.m_directed with
    | true => exact names_ok_num_edges (names_ok_with_edge h2 ia ib w) _
    | false =>
      exact names_ok_num_edges
        (names_ok_with_edge (names_ok_with_edge h2 ia ib w) ib ia w) _
  · rw [heq]; exact h
  · rw [heq]; exact names_ok_lookup_or_add h a

theorem count_ok_with_vertex {g : graph} (h : count_ok g) (n : String) :
    count_ok (g.with_vertex n) := by
  unfold count_ok at *
  rw [total_records_with_vertex]
  exact h

theorem count_ok_add_vertex {g : graph} (h : count_ok g) (n : String) :
    count_ok (g.add_vertex n).2 := by
  by_cases hb : blank n = true
  · simpa [add_vertex, hb] using h
  · have hb2 : blank n = false := by simpa using hb
    cases hp : g.m_name_to_id.find n with
    | some i => simpa [add_vertex, hb2, hp] using h
    | none =>
      rw [add_vertex_eq_with_vertex g n hb2 hp]
      exact count_ok_with_vertex h n

theorem count_ok_lookup_or_add {g : graph} (h : count_ok g) (a : String) :
    count_ok (g.lookup_or_add a).2 := by
  unfold lookup_or_add
  cases hf : g.m_name_to_id.find a with
  | some i => exact h
  | none => exact count_ok_add_vertex h a

theorem count_ok_add_edge {g : graph} (h : names_ok g) (hc : count_ok g) (a b : String)
    (w : Int) : count_ok (g.add_edge a b w).2 := by
  rcases add_edge_cases h a b w with ⟨ha, hb, -⟩ | ⟨-, heq⟩ | ⟨-, -, heq⟩
  · obtain ⟨ia, ib, -, -, hfa, hfb, heq⟩ := add_edge_eq h ha hb w
    obtain ⟨h1, hd1, hn1, -, ht1, -, -⟩ := lookup_or_add_frame h ha
    obtain ⟨h2, hd2, hn2, -, ht2, -, -⟩ := lookup_or_add_frame h1 hb
    have hlta := h2.lt_of_find hfa
    have hltb := h2.lt_of_find hfb
    rw [heq]
    generalize ((g.lookup_or_add a).2.lookup_or_add b).2 = g2 at *
    generalize (g.lookup_or_add a).2 = g1 at *
    have hd : g2.m_directed = g.m_directed := hd2.trans hd1
    have ht : (g2.m_vertices.map fun x => x.m_edges.length).sum =
        (g.m_vertices.map fun x => x.m_edges.length).sum := ht2.trans ht1
    have hltb2 : ib < (with_edge g2.m_vertices ia ib w).length := by
      rw [with_edge_length]; exact hltb
    simp only [count_ok, total_records, records_per_call] at hc ⊢
    cases hdg : g.m_directed with
    | true =>
      simp only [hdg, hd, if_true] at hc ⊢
      rw [sum_lengths_with_edge _ _ _ _ hlta, ht, hc]
      omega
    | false =>
      simp only [hdg, hd, Bool.false_eq_true, if_false] at hc ⊢
      rw [sum_lengths_with_edge _ _ _ _ hltb2, sum_lengths_with_edge _ _ _ _ hlta, ht, hc]
      omega
  · rw [heq]; exact hc
  · rw [heq]; exact count_ok_lookup_or_add hc a

/-! ## Invariants of the reachable graphs -/

theorem reachable_ok {g : graph} (hr : Reachable g) : names_ok g ∧ count_ok g := by
  induction hr with
  | new d => exact ⟨names_ok_new d, by simp [count_ok, total_records, new]⟩
  | step op _ ih =>
    obtain ⟨hn, hc⟩ := ih
    cases op with
    | add_vertex name => exact ⟨names_ok_add_vertex hn name, count_ok_add_vertex hc name⟩
    | add_edge a b w => exact ⟨names_ok_add_edge hn a b w, count_ok_add_edge hn hc a b w⟩
    | colour_vertex name colour =>
      exact ⟨names_ok_attr_step (colour_vertex_attr_step _ _ _) hn,
        count_ok_attr_step (colour_vertex_attr_step _ _ _) hc⟩
    | colour_vertices names colour =>
      exact for_each_preserves (fun g => names_ok g ∧ count_ok g) _
        (fun g x hg => ⟨names_ok_attr_step (colour_vertex_attr_step _ _ _) hg.1,
          count_ok_attr_step (colour_vertex_attr_step _ _ _) hg.2⟩) names _ ⟨hn, hc⟩
    | label_vertex name lbl =>
      exact ⟨names_ok_attr_step (label_vertex_attr_step _ _ _) hn,
        count_ok_attr_step (label_vertex_attr_step _ _ _) hc⟩
    | label_vertex_int name lbl =>
      exact ⟨names_ok_attr_step (label_vertex_int_attr_step _ _ _) hn,
        count_ok_attr_step (label_vertex_int_attr_step _ _ _) hc⟩

theorem names_ok.names_nodup {g : graph} (h : names_ok g) :
    (g.m_vertices.map vertex.name).Nodup := by
  rw [List.nodup_iff_getElem?_ne_getElem?]
  intro i j hij hj heq
  rw [List.length_map] at hj
  have hi : i < g.m_vertices.length := by omega
  rw [List.getElem?_map, List.getElem?_map] at heq
  have hvj : g.m_vertices[j]? = some g.m_vertices[j] := List.getElem?_eq_getElem hj
  have e1 : (g.m_vertices[j]?).map vertex.name = some g.m_vertices[j].name := by
    rw [hvj]; rfl
  have f1 := (h.find_iff _ j).mpr e1
  have f2 := (h.find_iff _ i).mpr (heq.trans e1)
  rw [f1] at f2
  injection f2 with f2
  omega

/-! ## Claims on reachable graphs -/

/-- C8: in every reachable graph the name map and the vertex sequence are in
bijection: a name is mapped to `v` exactly when `v` is a valid index and the vertex
stored there carries the name; the vertex names are pairwise distinct, none is blank,
and the map has exactly `num_vertices()` entries (under pairwise distinct keys). -/
theorem reachable_name_bijection (g : graph) (hr : Reachable g) :
    (∀ name v, g.m_name_to_id.find name = some v ↔
      (v < g.num_vertices ∧ ∃ x, g.vertices[v]? = some x ∧ x.name = name)) ∧
    (g.vertices.map vertex.name).Nodup ∧
    (∀ x ∈ g.vertices, blank x.name = false) ∧
    (g.m_name_to_id.map Prod.fst).Nodup ∧
    g.m_name_to_id.length = g.num_vertices := by
  have h := (reachable_ok hr).1
  refine ⟨?_, h.names_nodup, h.not_blank, h.keys_nodup, h.size_eq⟩
  intro name v
  rw [h.find_iff name v]
  unfold num_vertices vertices
  constructor
  · intro hm
    cases hv : g.m_vertices[v]? with
    | none => rw [hv] at hm; cases hm
    | some x =>
      rw [hv] at hm
      refine ⟨?_, x, rfl, by simpa using hm⟩
      by_contra hc
      rw [List.getElem?_eq_none (by omega)] at hv; cases hv
  · rintro ⟨-, x, hx, hn⟩
    rw [hx]; simp [hn]

/-- Witness for C8: the graph left by `add_edge("x", "y", 1)` on the empty undirected
graph. -/
theorem reachable_name_bijection_witness :
    (∀ name v, ((new false).add_edge "x" "y" 1).2.m_name_to_id.find name = some v ↔
      (v < ((new false).add_edge "x" "y" 1).2.num_vertices ∧
        ∃ x, ((new false).add_edge "x" "y" 1).2.vertices[v]? = some x ∧ x.name = name)) ∧
    (((new false).add_edge "x" "y" 1).2.vertices.map vertex.name).Nodup ∧
    (∀ x ∈ ((new false).add_edge "x" "y" 1).2.vertices, blank x.name = false) ∧
    (((new false).add_edge "x" "y" 1).2.m_name_to_id.map Prod.fst).Nodup ∧
    ((new false).add_edge "x" "y" 1).2.m_name_to_id.length =
      ((new false).add_edge "x" "y" 1).2.num_vertices :=
  reachable_name_bijection _ (Reachable.step (Op.add_edge "x" "y" 1) (Reachable.new false))

/-- C7, as stated, fails: after one `add_edge` on an undirected graph the counter is 1
while two records are stored. -/
theorem num_edges_sum_counterexample :
    Reachable ((new false).add_edge "p" "q" 7).2 ∧
    ((new false).add_edge "p" "q" 7).2.num_edges = 1 ∧
    ((new false).add_edge "p" "q" 7).2.total_records = 2 ∧
    ((new false).add_edge "p" "q" 7).2.num_edges ≠
      ((new false).add_edge "p" "q" 7).2.total_records :=
  ⟨Reachable.step (Op.add_edge "p" "q" 7) (Reachable.new false), by decide, by decide,
    by decide⟩

/-- C7, amended: in every reachable graph the stored records number `num_edges()` when
the graph is directed and twice `num_edges()` when it is undirected. -/
theorem reachable_num_edges (g : graph) (hr : Reachable g) :
    (g.is_directed = true → g.total_records = g.num_edges) ∧
    (g.is_directed = false → g.total_records = 2 * g.num_edges) := by
  have h := (reachable_ok hr).2
  unfold count_ok records_per_call at h
  unfold is_directed num_edges
  constructor
  · intro hd; rw [h, hd]; simp
  · intro hd; rw [h, hd]; simp

/-- Witness for C7 (amended): the directed graph left by `add_edge("p", "q", 7)`. -/
theorem reachable_num_edges_witness :
    (((new true).add_edge "p" "q" 7).2.is_directed = true →
      ((new true).add_edge "p" "q" 7).2.total_records =
        ((new true).add_edge "p" "q" 7).2.num_edges) ∧
    (((new true).add_edge "p" "q" 7).2.is_directed = false →
      ((new true).add_edge "p" "q" 7).2.total_records =
        2 * ((new true).add_edge "p" "q" 7).2.num_edges) :=
  reachable_num_edges _ (Reachable.step (Op.add_edge "p" "q" 7) (Reachable.new true))

/-! ## The effect of a successful `add_edge` -/

theorem edges_at_congr {g1 g2 : graph} (h : g1.m_vertices = g2.m_vertices) (j : Nat) :
    edges_at g1 j = edges_at g2 j := by
  unfold edges_at; rw [h]

/-- The edge lists after appending to a vertex sequence. -/
theorem edges_at_with_edge_list (g g0 : graph) (i t : Nat) (w : Int)
    (hvs : g.m_vertices = with_edge g0.m_vertices i t w) (hlt : i < g0.m_vertices.length)
    (j : Nat) :
    edges_at g j = if j = i then edges_at g0 j ++ [⟨t, w⟩] else edges_at g0 j := by
  rw [← edges_at_with_edge g0 i t w hlt j]
  exact edges_at_congr hvs j

/-- A successful `add_edge` in terms of the graph before it: the two names resolve to
indices `ia` and `ib`, the counter grows by one, the record `(ib, w)` is appended to
the list at `ia` and, in an undirected graph, the record `(ia, w)` to the list at `ib`
after it. -/
theorem add_edge_spec {g : graph} (h : names_ok g) {a b : String} (ha : blank a = false)
    (hb : blank b = false) (w : Int) :
    ∃ ia ib, (g.add_edge a b w).1 = .ok () ∧
      (g.add_edge a b w).2.m_name_to_id.find a = some ia ∧
      (g.add_edge a b w).2.m_name_to_id.find b = some ib ∧
      (g.add_edge a b w).2.m_directed = g.m_directed ∧
      (g.add_edge a b w).2.m_num_edges = g.m_num_edges + 1 ∧
      (g.add_edge a b w).2.m_name_to_id =
        ((g.lookup_or_add a).2.lookup_or_add b).2.m_name_to_id ∧
      (g.add_edge a b w).2.m_vertices.length =
        ((g.lookup_or_add a).2.lookup_or_add b).2.m_vertices.length ∧
      (∀ j, edges_at (g.add_edge a b w).2 j =
        edges_at g j ++ (if j = ia then [⟨ib, w⟩] else []) ++
          (if g.m_directed = false ∧ j = ib then [⟨ia, w⟩] else [])) := by
  obtain ⟨ia, ib, -, -, hfa, hfb, heq⟩ := add_edge_eq h ha hb w
  obtain ⟨h1, hd1, -, he1, -, -, -⟩ := lookup_or_add_frame h ha
  obtain ⟨h2, hd2, -, he2, -, -, -⟩ := lookup_or_add_frame h1 hb
  have hlta := h2.lt_of_find hfa
  have hltb := h2.lt_of_find hfb
  refine ⟨ia, ib, ?_⟩
  rw [heq]
  generalize ((g.lookup_or_add a).2.lookup_or_add b).2 = g2 at *
  generalize (g.lookup_or_add a).2 = g1 at *
  refine ⟨rfl, hfa, hfb, ?_, rfl, rfl, ?_, ?_⟩
  · exact hd2.trans hd1
  · simp only
    split <;> simp [with_edge_length]
  · intro j
    have hbase : edges_at g2 j = edges_at g j := (he2 j).trans (he1 j)
    cases hdg : g.m_directed with
    | true =>
      rw [edges_at_with_edge_list _ g2 ia ib w (by simp) hlta j, hbase]
      by_cases hj : j = ia <;> simp [hj]
    | false =>
      have hltb2 : ib < ({ g2 with m_vertices := with_edge g2.m_vertices ia ib w } :
          graph).m_vertices.length := by
        show ib < (with_edge g2.m_vertices ia ib w).length
        rw [with_edge_length]; exact hltb
      rw [edges_at_with_edge_list _
        { g2 with m_vertices := with_edge g2.m_vertices ia ib w } ib ia w (by simp) hltb2 j,
        edges_at_with_edge g2 ia ib w hlta j, hbase]
      by_cases hj : j = ia
      · subst hj
        by_cases hj2 : j = ib
        · subst hj2; simp
        · simp [hj2]
      · by_cases hj2 : j = ib
        · subst hj2; simp [hj]
        · simp [hj, hj2]

theorem find_id_of_find {g : graph} {n : String} {i : Nat}
    (h : g.m_name_to_id.find n = some i) : g.find_id n = .ok i := by
  simp [find_id, h]

theorem find_vertex_of_find {g : graph} (h : names_ok g) {n : String} {i : Nat}
    (hf : g.m_name_to_id.find n = some i) :
    ∃ v, g.find_vertex n = .ok v ∧ g.m_vertices[i]? = some v ∧ v.m_edges = edges_at g i := by
  obtain ⟨v, hv, -⟩ := h.getElem_of_find hf
  refine ⟨v, ?_, hv, ?_⟩
  · simp [find_vertex, find_id, hf, hv]
  · simp [edges_at, hv]

/-- C3, as stated, fails: one `add_edge` on the empty undirected graph leaves
`num_edges()` at 1, not at 2. -/
theorem add_edge_undirected_counterexample :
    (new false).is_directed = false ∧
    ((new false).add_edge "x" "y" 5).1 = .ok () ∧
    ((new false).add_edge "x" "y" 5).2.num_edges = (new false).num_edges + 1 ∧
    ((new false).add_edge "x" "y" 5).2.num_edges ≠ (new false).num_edges + 2 :=
  ⟨rfl, rfl, rfl, by decide⟩

/-- C3, amended: on a reachable undirected graph and non-blank names `a`, `b`,
`add_edge(a, b, w)` succeeds; afterwards the edge list of `a` holds an edge whose
target is the vertex `b` with weight `w`, the edge list of `b` holds an edge whose
target is the vertex `a` with weight `w`, and `num_edges()` has grown by exactly 1. -/
theorem add_edge_undirected (g : graph) (hr : Reachable g) (hd : g.is_directed = false)
    (a b : String) (ha : blank a = false) (hb : blank b = false) (w : Int) :
    (g.add_edge a b w).1 = .ok () ∧
    (∃ va vb, (g.add_edge a b w).2.find_vertex a = .ok va ∧
      (g.add_edge a b w).2.find_vertex b = .ok vb ∧
      (∃ e ∈ va.edges, e.target (g.add_edge a b w).2 = .ok vb ∧ e.weight = w) ∧
      (∃ e ∈ vb.edges, e.target (g.add_edge a b w).2 = .ok va ∧ e.weight = w)) ∧
    (g.add_edge a b w).2.num_edges = g.num_edges + 1 := by
  have h := (reachable_ok hr).1
  have hG := names_ok_add_edge h a b w
  obtain ⟨ia, ib, hok, hfa, hfb, -, hnum, -, -, hedges⟩ := add_edge_spec h ha hb w
  obtain ⟨va, hva, hia, hea⟩ := find_vertex_of_find hG hfa
  obtain ⟨vb, hvb, hib, heb⟩ := find_vertex_of_find hG hfb
  have hdir : g.m_directed = false := hd
  refine ⟨hok, ⟨va, vb, hva, hvb, ⟨⟨ib, w⟩, ?_, ?_, rfl⟩, ⟨⟨ia, w⟩, ?_, ?_, rfl⟩⟩, hnum⟩
  · show _ ∈ va.m_edges
    rw [hea, hedges ia]; simp
  · simp [edge.target, hib]
  · show _ ∈ vb.m_edges
    rw [heb, hedges ib]; simp [hdir]
  · simp [edge.target, hia]

/-- Witness for C3 (amended): a self-loop on the empty undirected graph. -/
theorem add_edge_undirected_witness :
    ((new false).add_edge "x" "x" 3).1 = .ok () ∧
    (∃ va vb, ((new false).add_edge "x" "x" 3).2.find_vertex "x" = .ok va ∧
      ((new false).add_edge "x" "x" 3).2.find_vertex "x" = .ok vb ∧
      (∃ e ∈ va.edges, e.target ((new false).add_edge "x" "x" 3).2 = .ok vb ∧
        e.weight = 3) ∧
      (∃ e ∈ vb.edges, e.target ((new false).add_edge "x" "x" 3).2 = .ok va ∧
        e.weight = 3)) ∧
    ((new false).add_edge "x" "x" 3).2.num_edges = (new false).num_edges + 1 :=
  add_edge_undirected (new false) (Reachable.new false) rfl "x" "x" (by decide) (by decide) 3

/-- C4: on a reachable directed graph and non-blank names `a`, `b`, `add_edge(a, b, w)`
succeeds, `num_edges()` grows by exactly 1, the record (index of `b`, `w`) is appended
at the end of the edge list of `a`, and the edge list at every other index (that of
`b` included when it differs from `a`) is as before. -/
theorem add_edge_directed (g : graph) (hr : Reachable g) (hd : g.is_directed = true)
    (a b : String) (ha : blank a = false) (hb : blank b = false) (w : Int) :
    (g.add_edge a b w).1 = .ok () ∧
    (g.add_edge a b w).2.num_edges = g.num_edges + 1 ∧
    ∃ ia ib, (g.add_edge a b w).2.find_id a = .ok ia ∧
      (g.add_edge a b w).2.find_id b = .ok ib ∧
      ∀ i, edges_at (g.add_edge a b w).2 i =
        if i = ia then edges_at g i ++ [⟨ib, w⟩] else edges_at g i := by
  have h := (reachable_ok hr).1
  obtain ⟨ia, ib, hok, hfa, hfb, -, hnum, -, -, hedges⟩ := add_edge_spec h ha hb w
  have hdir : g.m_directed = true := hd
  refine ⟨hok, hnum, ia, ib, find_id_of_find hfa, find_id_of_find hfb, ?_⟩
  intro i
  rw [hedges i]
  by_cases hi : i = ia <;> simp [hi, hdir]

/-- Witness for C4: an edge between two new names on the empty directed graph. -/
theorem add_edge_directed_witness :
    ((new true).add_edge "x" "y" 3).1 = .ok () ∧
    ((new true).add_edge "x" "y" 3).2.num_edges = (new true).num_edges + 1 ∧
    ∃ ia ib, ((new true).add_edge "x" "y" 3).2.find_id "x" = .ok ia ∧
      ((new true).add_edge "x" "y" 3).2.find_id "y" = .ok ib ∧
      ∀ i, edges_at ((new true).add_edge "x" "y" 3).2 i =
        if i = ia then edges_at (new true) i ++ [⟨ib, 3⟩] else edges_at (new true) i :=
  add_edge_directed (new true) (Reachable.new true) rfl "x" "y" (by decide) (by decide) 3

theorem contains_eq_false_iff (m : name_map) (k : String) :
    m.contains k = false ↔ m.find k = none := by
  unfold name_map.contains
  cases m.find k <;> simp

theorem contains_eq_true_of_find {m : name_map} {k : String} {i : Nat}
    (h : m.find k = some i) : m.contains k = true := by
  simp [name_map.contains, h]

/-- C5: on a reachable graph (directed or not) and non-blank names, `add_edge(from, to,
w)` succeeds and `num_vertices()` grows by the number of distinct names among the two
that had no entry before the call; a name present before keeps its index, a new `from`
gets the old `num_vertices()`, and a new `to` gets the index after the one of `from`
when `from` was created too (the same index when both names are equal), so `find_id`
succeeds for both names afterwards. -/
theorem add_edge_creates_endpoints (g : graph) (hr : Reachable g) (a b : String)
    (ha : blank a = false) (hb : blank b = false) (w : Int) :
    (g.add_edge a b w).1 = .ok () ∧
    (g.add_edge a b w).2.num_vertices = g.num_vertices +
      (({a, b} : Finset String).filter fun x => g.m_name_to_id.contains x = false).card ∧
    (g.add_edge a b w).2.find_id a = .ok
      (match g.m_name_to_id.find a with
        | some i => i
        | none => g.num_vertices) ∧
    (g.add_edge a b w).2.find_id b = .ok
      (match g.m_name_to_id.find b with
        | some i => i
        | none =>
          if a = b ∨ g.m_name_to_id.contains a = true then g.num_vertices
          else g.num_vertices + 1) := by
  have h := (reachable_ok hr).1
  obtain ⟨ia, ib, hok, -, -, -, -, hmap, hlen, -⟩ := add_edge_spec h ha hb w
  refine ⟨hok, ?_⟩
  unfold num_vertices find_id
  rw [hlen, hmap]
  clear hok hmap hlen ia ib
  obtain ⟨ia, -, hca⟩ := lookup_or_add_spec g ha
  rcases hca with ⟨hfa, hg1⟩ | ⟨hfa, -, hg1⟩
  · -- `from` was present
    rw [hg1]
    have hcta := contains_eq_true_of_find hfa
    obtain ⟨ib, -, hcb⟩ := lookup_or_add_spec g hb
    rcases hcb with ⟨hfb, hg2⟩ | ⟨hfb, -, hg2⟩
    · rw [hg2]
      have hctb := contains_eq_true_of_find hfb
      simp [hfa, hfb, Finset.filter_insert, Finset.filter_singleton, hcta, hctb]
    · rw [hg2]
      have hne : a ≠ b := by rintro rfl; rw [hfa] at hfb; cases hfb
      have hctb := (contains_eq_false_iff _ _).mpr hfb
      rw [find_with_vertex_of_find g b a ia hfb hfa, find_with_vertex_self g b hfb]
      simp [hfa, hfb, Finset.filter_insert, Finset.filter_singleton, hcta, hctb, with_vertex,
        hne]
  · -- `from` was created
    rw [hg1]
    have hcta := (contains_eq_false_iff _ _).mpr hfa
    have h1 := names_ok_with_vertex h ha hfa
    obtain ⟨ib, -, hcb⟩ := lookup_or_add_spec (g.with_vertex a) hb
    rcases hcb with ⟨hfb, hg2⟩ | ⟨hfb, -, hg2⟩
    · rw [hg2, hfb, find_with_vertex_self g a hfa]
      by_cases hab : a = b
      · subst hab
        rw [find_with_vertex_self g a hfa] at hfb
        injection hfb with hfb
        simp [hfa, Finset.filter_singleton, hcta, with_vertex, ← hfb]
      · have hfb0 : g.m_name_to_id.find b = some ib := by
          rw [← find_with_vertex_other g a b (fun hc => hab hc.symm)]; exact hfb
        have hctb := contains_eq_true_of_find hfb0
        simp [hfa, hfb0, Finset.filter_insert, Finset.filter_singleton, hcta, hctb,
          with_vertex]
    · have hab : a ≠ b := by
        rintro rfl; rw [find_with_vertex_self g a hfa] at hfb; cases hfb
      have hfb0 : g.m_name_to_id.find b = none := by
        rw [← find_with_vertex_other g a b (fun hc => hab hc.symm)]; exact hfb
      have hctb := (contains_eq_false_iff _ _).mpr hfb0
      rw [hg2, find_with_vertex_self _ b hfb,
        find_with_vertex_of_find _ b a _ hfb (find_with_vertex_self g a hfa)]
      simp [hfa, hfb0, Finset.filter_insert, Finset.filter_singleton, hcta, hctb, with_vertex,
        hab]

/-- Witness for C5: a self-loop on a new name creates one vertex. -/
theorem add_edge_creates_endpoints_witness :
    ((new true).add_edge "x" "x" 0).1 = .ok () ∧
    ((new true).add_edge "x" "x" 0).2.num_vertices = (new true).num_vertices +
      (({"x", "x"} : Finset String).filter
        fun x => (new true).m_name_to_id.contains x = false).card ∧
    ((new true).add_edge "x" "x" 0).2.find_id "x" = .ok
      (match (new true).m_name_to_id.find "x" with
        | some i => i
        | none => (new true).num_vertices) ∧
    ((new true).add_edge "x" "x" 0).2.find_id "x" = .ok
      (match (new true).m_name_to_id.find "x" with
        | some i => i
        | none =>
          if "x" = "x" ∨ (new true).m_name_to_id.contains "x" = true then
            (new true).num_vertices
          else (new true).num_vertices + 1) :=
  add_edge_creates_endpoints (new true) (Reachable.new true) "x" "x" (by decide) (by decide) 0

/-- C6 does not hold of the code.  Copy-assigning a reachable graph with a vertex that
has no edges throws the unknown-vertex error of `find_id` (the vertex was never
re-created in the destination), and copy-assigning the undirected graph with the one
edge x - y replays both stored records through `add_edge`, so the copy reports 2 edges
instead of 1 and stores every record twice. -/
theorem assign_diverges :
    Reachable ((new true).add_vertex "a").2 ∧
    (assign (new false) ((new true).add_vertex "a").2).1 = .error .UnknownVertex ∧
    Reachable ((new false).add_edge "x" "y" 5).2 ∧
    (assign (new true) ((new false).add_edge "x" "y" 5).2).1 = .ok () ∧
    ((new false).add_edge "x" "y" 5).2.num_edges = 1 ∧
    (assign (new true) ((new false).add_edge "x" "y" 5).2).2.num_edges = 2 ∧
    edges_at ((new false).add_edge "x" "y" 5).2 0 = [⟨1, 5⟩] ∧
    edges_at (assign (new true) ((new false).add_edge "x" "y" 5).2).2 0 =
      [⟨1, 5⟩, ⟨1, 5⟩] :=
  ⟨Reachable.step (Op.add_vertex "a") (Reachable.new true), rfl,
    Reachable.step (Op.add_edge "x" "y" 5) (Reachable.new false), rfl, rfl, rfl, rfl, rfl⟩

/-! ## Decimal names: `std::to_string` is injective -/

theorem toDigitsCore_acc (b : Nat) : ∀ (f n : Nat) (ds : List Char),
    Nat.toDigitsCore b f n ds = Nat.toDigitsCore b f n [] ++ ds := by
  intro f
  induction f with
  | zero => intro n ds; simp [Nat.toDigitsCore]
  | succ f ih =>
    intro n ds
    simp only [Nat.toDigitsCore]
    split
    · simp
    · rw [ih (n / b) (Nat.digitChar (n % b) :: ds), ih (n / b) [Nat.digitChar (n % b)]]
      simp

theorem digitChar_value : ∀ m, m < 10 → (Nat.digitChar m).toNat - 48 = m := by
  decide

theorem digits_value_append (xs : List Char) (c : Char) :
    digits_value (xs ++ [c]) = 10 * digits_value xs + (c.toNat - 48) := by
  simp [digits_value, List.foldl_append]

theorem digits_value_toDigitsCore : ∀ (f n : Nat), n < f →
    digits_value (Nat.toDigitsCore 10 f n []) = n := by
  intro f
  induction f with
  | zero => intro n h; omega
  | succ f ih =>
    intro n h
    simp only [Nat.toDigitsCore]
    split
    · rename_i h0
      have hn : n < 10 := by omega
      have hm : n % 10 = n := Nat.mod_eq_of_lt hn
      rw [hm]
      simpa [digits_value] using digitChar_value n hn
    · rename_i h0
      rw [toDigitsCore_acc, digits_value_append, ih (n / 10) (by omega),
        digitChar_value (n % 10) (Nat.mod_lt _ (by norm_num))]
      omega

theorem toString_nat_injective {m n : Nat} (h : toString m = toString n) : m = n := by
  have h2 : Nat.toDigits 10 m = Nat.toDigits 10 n := by
    have := congrArg String.data h
    simpa [toString, Nat.repr, List.asString] using this
  have := congrArg digits_value h2
  simpa [Nat.toDigits, digits_value_toDigitsCore] using this

theorem digitChar_ne_underscore : ∀ m, m < 10 → Nat.digitChar m ≠ '_' := by decide

theorem underscore_not_mem_toDigitsCore : ∀ (f n : Nat) (ds : List Char), '_' ∉ ds →
    '_' ∉ Nat.toDigitsCore 10 f n ds := by
  intro f
  induction f with
  | zero => intro n ds h; simpa [Nat.toDigitsCore] using h
  | succ f ih =>
    intro n ds h
    have hd : '_' ≠ Nat.digitChar (n % 10) :=
      fun hc => digitChar_ne_underscore (n % 10) (Nat.mod_lt _ (by norm_num)) hc.symm
    simp only [Nat.toDigitsCore]
    split
    · simp [h, hd]
    · apply ih; simp [h, hd]

theorem underscore_not_mem_toString (n : Nat) : '_' ∉ (toString n).data := by
  simpa [toString, Nat.repr, List.asString, Nat.toDigits] using
    underscore_not_mem_toDigitsCore (n + 1) n [] (by simp)

theorem blank_a_append (s : String) : blank ("a" ++ s) = false := by
  simp [blank, String.data_append, iswspace]

/-! ## Graphs in closed form -/

theorem plain_vertices_append (E : Nat → List edge) (xs ys : List String) (s : Nat) :
    plain_vertices E s (xs ++ ys) =
      plain_vertices E s xs ++ plain_vertices E (s + xs.length) ys := by
  induction xs generalizing s with
  | nil => simp [plain_vertices]
  | cons x rest ih =>
    rw [List.cons_append, plain_vertices, plain_vertices, ih (s + 1), List.length_cons,
      show s + 1 + rest.length = s + (rest.length + 1) by omega, List.cons_append]

theorem plain_map_append (xs ys : List String) (s : Nat) :
    plain_map s (xs ++ ys) = plain_map s xs ++ plain_map (s + xs.length) ys := by
  induction xs generalizing s with
  | nil => simp [plain_map]
  | cons x rest ih =>
    rw [List.cons_append, plain_map, plain_map, ih (s + 1), List.length_cons,
      show s + 1 + rest.length = s + (rest.length + 1) by omega, List.cons_append]

theorem plain_vertices_length (E : Nat → List edge) (xs : List String) (s : Nat) :
    (plain_vertices E s xs).length = xs.length := by
  induction xs generalizing s with
  | nil => rfl
  | cons x rest ih => simp [plain_vertices, ih]

theorem plain_vertices_getElem? (E : Nat → List edge) (xs : List String) (s i : Nat) :
    (plain_vertices E s xs)[i]? = (xs[i]?).map fun n =>
      { m_name := n, m_id := s + i, m_colour := colour.white, m_label := "",
        m_edges := E (s + i) } := by
  induction xs generalizing s i with
  | nil => simp [plain_vertices]
  | cons x rest ih =>
    cases i with
    | zero => simp [plain_vertices]
    | succ k =>
      simp only [plain_vertices, List.getElem?_cons_succ, ih]
      rw [show s + 1 + k = s + (k + 1) by omega]

theorem plain_map_keys (xs : List String) (s : Nat) :
    (plain_map s xs).map Prod.fst = xs := by
  induction xs generalizing s with
  | nil => rfl
  | cons x rest ih => simp [plain_map, ih]

theorem plain_map_length (xs : List String) (s : Nat) :
    (plain_map s xs).length = xs.length := by
  induction xs generalizing s with
  | nil => rfl
  | cons x rest ih => simp [plain_map, ih]

theorem plain_map_find (xs : List String) (hnd : xs.Nodup) (s : Nat) (n : String) (i : Nat) :
    name_map.find (plain_map s xs) n = some i ↔ (s ≤ i ∧ xs[i - s]? = some n) := by
  induction xs generalizing s with
  | nil => simp [plain_map, name_map.find]
  | cons x rest ih =>
    have hx : x ∉ rest := (List.nodup_cons.mp hnd).1
    have hrest : rest.Nodup := (List.nodup_cons.mp hnd).2
    have ih2 := ih hrest (s + 1)
    unfold name_map.find at ih2 ⊢
    simp only [plain_map, List.lookup_cons]
    by_cases hnx : n = x
    · subst hnx
      simp only [beq_self_eq_true]
      constructor
      · intro h; injection h with h; subst h; simp
      · rintro ⟨hle, hget⟩
        cases hk : i - s with
        | zero => congr 1; omega
        | succ k =>
          rw [hk, List.getElem?_cons_succ] at hget
          exact absurd (List.getElem?_mem hget) hx
    · have hne : (n == x) = false := by simpa using hnx
      simp only [hne]
      rw [ih2]
      constructor
      · rintro ⟨hle, hget⟩
        refine ⟨by omega, ?_⟩
        rw [show i - s = (i - (s + 1)) + 1 by omega, List.getElem?_cons_succ]
        exact hget
      · rintro ⟨hle, hget⟩
        cases hk : i - s with
        | zero =>
          rw [hk] at hget
          simp at hget
          exact absurd hget.symm hnx
        | succ k =>
          rw [hk, List.getElem?_cons_succ] at hget
          refine ⟨by omega, ?_⟩
          rw [show i - (s + 1) = k by omega]
          exact hget

theorem names_ok_plain (names : List String) (E : Nat → List edge) (c : Nat)
    (hnd : names.Nodup) (hnb : ∀ n ∈ names, blank n = false) :
    names_ok (plain names E c) where
  find_iff := by
    intro name i
    show name_map.find (plain_map 0 names) name = some i ↔
      ((plain_vertices E 0 names)[i]?).map vertex.name = some name
    rw [plain_map_find names hnd, plain_vertices_getElem?]
    cases hn : names[i]? <;> simp [vertex.name, hn]
  keys_nodup := by
    show ((plain_map 0 names).map Prod.fst).Nodup
    rw [plain_map_keys]; exact hnd
  size_eq := by
    show (plain_map 0 names).length = (plain_vertices E 0 names).length
    rw [plain_map_length, plain_vertices_length]
  not_blank := by
    intro v hv
    obtain ⟨i, hi⟩ := List.mem_iff_getElem?.mp hv
    change (plain_vertices E 0 names)[i]? = some v at hi
    rw [plain_vertices_getElem?] at hi
    cases hn : names[i]? with
    | none => rw [hn] at hi; cases hi
    | some n =>
      rw [hn] at hi
      simp at hi
      subst hi
      exact hnb n (List.getElem?_mem hn)

theorem find_plain (names : List String) (E : Nat → List edge) (c : Nat)
    (hnd : names.Nodup) (n : String) (i : Nat) (h : names[i]? = some n) :
    (plain names E c).m_name_to_id.find n = some i := by
  show name_map.find (plain_map 0 names) n = some i
  rw [plain_map_find names hnd]
  exact ⟨Nat.zero_le _, h⟩

theorem find_plain_none (names : List String) (E : Nat → List edge) (c : Nat)
    (n : String) (h : n ∉ names) :
    (plain names E c).m_name_to_id.find n = none := by
  show name_map.find (plain_map 0 names) n = none
  unfold name_map.find
  rw [List.lookup_eq_none_iff]
  intro p hp
  have : p.1 ∈ (plain_map 0 names).map Prod.fst := List.mem_map_of_mem _ hp
  rw [plain_map_keys] at this
  have hne : n ≠ p.1 := fun hc => h (hc ▸ this)
  simpa using hne

/-- `add_vertex` on a graph in closed form. -/
theorem add_vertex_plain (names : List String) (E : Nat → List edge) (c : Nat) (n : String)
    (hn : n ∉ names) (hb : blank n = false) (hE : E names.length = []) :
    (plain names E c).add_vertex n = (.ok names.length, plain (names ++ [n]) E c) := by
  rw [add_vertex_eq_with_vertex _ n hb (find_plain_none names E c n hn)]
  simp only [plain, with_vertex, plain_vertices_length, plain_vertices_append, plain_map_append,
    plain_vertices, plain_map, vertex.new, Nat.zero_add, hE]

theorem with_edge_plain (names : List String) (E : Nat → List edge) (ia ib : Nat) (w : Int) :
    with_edge (plain_vertices E 0 names) ia ib w =
      plain_vertices (Function.update E ia (E ia ++ [⟨ib, w⟩])) 0 names := by
  apply List.ext_getElem?
  intro j
  rw [with_edge_getElem?, plain_vertices_getElem?, plain_vertices_getElem?]
  cases names[j]? with
  | none => rfl
  | some n =>
    by_cases hj : j = ia
    · subst hj; simp [Function.update]
    · simp [hj, Function.update]

/-- `add_edge` between two stored vertices of a graph in closed form. -/
theorem add_edge_plain (names : List String) (E : Nat → List edge) (c : Nat)
    (hnd : names.Nodup) (a b : String) (ia ib : Nat) (w : Int)
    (ha : names[ia]? = some a) (hb : names[ib]? = some b) :
    (plain names E c).add_edge a b w =
      (.ok (), plain names (Function.update E ia (E ia ++ [⟨ib, w⟩])) (c + 1)) := by
  have hfa := find_plain names E c hnd a ia ha
  have hfb := find_plain names E c hnd b ib hb
  have hlt : ia < (plain names E c).m_vertices.length := by
    show ia < (plain_vertices E 0 names).length
    rw [plain_vertices_length]
    by_contra hc
    rw [List.getElem?_eq_none (by omega)] at ha; cases ha
  simp only [add_edge, lookup_or_add, hfa, hfb, push_edge_eq hlt]
  simp [plain, with_edge_plain]

theorem plain_vertices_names (E : Nat → List edge) (xs : List String) (s : Nat) :
    (plain_vertices E s xs).map vertex.name = xs := by
  induction xs generalizing s with
  | nil => rfl
  | cons x rest ih => simp [plain_vertices, ih, vertex.name]

theorem edges_at_plain (names : List String) (E : Nat → List edge) (c i : Nat)
    (hi : i < names.length) : edges_at (plain names E c) i = E i := by
  unfold edges_at
  show (match (plain_vertices E 0 names)[i]? with
    | some v => v.m_edges | none => []) = _
  rw [plain_vertices_getElem?, List.getElem?_eq_getElem hi]
  simp

theorem string_append_left_cancel {p s t : String} (h : p ++ s = p ++ t) : s = t := by
  have := congrArg String.data h
  rw [String.data_append, String.data_append] at this
  exact String.ext (List.append_cancel_left this)

/-! ## The generator `chain` -/

theorem chain_names_succ (k : Nat) :
    chain_names (k + 1) = chain_names k ++ ["a" ++ toString (k + 2)] := by
  unfold chain_names
  rw [List.range_succ, List.map_append]
  rfl

theorem chain_names_length (k : Nat) : (chain_names k).length = k + 1 := by
  simp [chain_names]

theorem chain_names_getElem? (k i : Nat) (hi : i ≤ k) :
    (chain_names k)[i]? = some ("a" ++ toString (i + 1)) := by
  unfold chain_names
  rw [List.getElem?_map, List.getElem?_range (by omega)]
  rfl

theorem chain_names_nodup (k : Nat) : (chain_names k).Nodup := by
  unfold chain_names
  refine List.Nodup.map ?_ (List.nodup_range _)
  intro i j hij
  have := toString_nat_injective (string_append_left_cancel hij)
  omega

theorem chain_names_not_blank (k : Nat) : ∀ n ∈ chain_names k, blank n = false := by
  intro n hn
  unfold chain_names at hn
  obtain ⟨i, -, rfl⟩ := List.mem_map.mp hn
  exact blank_a_append _

theorem chain_names_fresh (k : Nat) : "a" ++ toString (k + 2) ∉ chain_names k := by
  intro hc
  unfold chain_names at hc
  obtain ⟨i, hi, heq⟩ := List.mem_map.mp hc
  have := toString_nat_injective (string_append_left_cancel heq)
  rw [List.mem_range] at hi
  omega

/-- One pass of the loop of `chain`: from the chain of length `k` to the chain of
length `k + 1`. -/
theorem chain_body_step (k : Nat) :
    chain_body (plain (chain_names k) (chain_edges k) k) k =
      (.ok (), plain (chain_names (k + 1)) (chain_edges (k + 1)) (k + 1)) := by
  unfold chain_body
  rw [add_vertex_plain (chain_names k) (chain_edges k) k _ (chain_names_fresh k)
    (blank_a_append _) (by simp [chain_edges, chain_names_length])]
  simp only [and_then]
  rw [← chain_names_succ,
    add_edge_plain (chain_names (k + 1)) (chain_edges k) k (chain_names_nodup (k + 1))
      _ _ k (k + 1) 0 (chain_names_getElem? (k + 1) k (by omega))
      (chain_names_getElem? (k + 1) (k + 1) (by omega))]
  congr 2
  funext i
  unfold chain_edges Function.update
  by_cases hi : i = k
  · subst hi; simp
  · by_cases hlt : i < k
    · have : i < k + 1 := by omega
      simp [hi, hlt, this]
    · have : ¬ i < k + 1 := by omega
      simp [hi, hlt, this]

theorem chain_loop (m : Nat) : ∀ s : Nat,
    for_each chain_body (List.range' s m) (plain (chain_names s) (chain_edges s) s) =
      (.ok (), plain (chain_names (s + m)) (chain_edges (s + m)) (s + m)) := by
  induction m with
  | zero => intro s; simp [for_each]
  | succ m ih =>
    intro s
    rw [List.range'_succ, for_each, chain_body_step]
    simp only
    rw [ih (s + 1), show s + 1 + m = s + (m + 1) by omega]

/-- The graph `chain` returns, in closed form. -/
theorem chain_eq (n : Nat) : chain n = .ok (plain (chain_names n) (chain_edges n) n) := by
  unfold chain
  have h0 : (new true).add_vertex "a1" = (.ok 0, plain (chain_names 0) (chain_edges 0) 0) := by
    rfl
  rw [h0]
  simp only [and_then]
  rw [List.range_eq_range', chain_loop n 0]
  simp [returned]

/-- C9: for every length `n`, `chain(n)` returns a directed graph with exactly `n + 1`
vertices named a1, ..., a(n+1) in index order and `num_edges()` equal to `n`; for each
`i` in `1..n` the vertex a(i) has exactly one edge, whose target is the vertex a(i+1)
and whose weight is 0, and the vertex a(n+1) has no edges.  In particular `chain(3)` has
the 4 vertices a1..a4 and the 3 edges a1 -> a2 -> a3 -> a4. -/
theorem chain_is_path (n : Nat) :
    ∃ g, chain n = .ok g ∧ g.is_directed = true ∧ g.num_vertices = n + 1 ∧
      g.vertices.map vertex.name = (List.range (n + 1)).map (fun i => "a" ++ toString (i + 1)) ∧
      g.num_edges = n ∧
      (∀ i, i < n → ∃ v e t, g.find_vertex ("a" ++ toString (i + 1)) = .ok v ∧
        v.edges = [e] ∧ e.target g = .ok t ∧ t.name = "a" ++ toString (i + 2) ∧
        e.weight = 0) ∧
      (∃ v, g.find_vertex ("a" ++ toString (n + 1)) = .ok v ∧ v.edges = []) ∧
      (∃ g3, chain 3 = .ok g3 ∧ g3.vertices.map vertex.name = ["a1", "a2", "a3", "a4"] ∧
        g3.num_edges = 3 ∧
        g3.vertices.map vertex.edges = [[⟨1, 0⟩], [⟨2, 0⟩], [⟨3, 0⟩], []]) := by
  have hok := names_ok_plain (chain_names n) (chain_edges n) n (chain_names_nodup n)
    (chain_names_not_blank n)
  refine ⟨_, chain_eq n, rfl, ?_, ?_, rfl, ?_, ?_, ⟨_, rfl, rfl, rfl, rfl⟩⟩
  · show (plain_vertices (chain_edges n) 0 (chain_names n)).length = n + 1
    rw [plain_vertices_length, chain_names_length]
  · show (plain_vertices (chain_edges n) 0 (chain_names n)).map vertex.name = _
    rw [plain_vertices_names]; rfl
  · intro i hi
    have hf := find_plain (chain_names n) (chain_edges n) n (chain_names_nodup n) _ i
      (chain_names_getElem? n i (by omega))
    obtain ⟨v, hv, -, hev⟩ := find_vertex_of_find hok hf
    rw [edges_at_plain _ _ _ _ (by rw [chain_names_length]; omega)] at hev
    have ht : (plain (chain_names n) (chain_edges n) n).m_vertices[i + 1]? =
        some { m_name := "a" ++ toString (i + 2), m_id := i + 1, m_colour := colour.white,
               m_label := "", m_edges := chain_edges n (i + 1) } := by
      show (plain_vertices (chain_edges n) 0 (chain_names n))[i + 1]? = _
      rw [plain_vertices_getElem?, chain_names_getElem? n (i + 1) (by omega)]
      simp
    refine ⟨v, ⟨i + 1, 0⟩,
      { m_name := "a" ++ toString (i + 2), m_id := i + 1, m_colour := colour.white,
        m_label := "", m_edges := chain_edges n (i + 1) }, hv, ?_, ?_, rfl, rfl⟩
    · show v.m_edges = _
      rw [hev]; simp [chain_edges, hi]
    · simp only [edge.target, ht]
  · have hf := find_plain (chain_names n) (chain_edges n) n (chain_names_nodup n) _ n
      (chain_names_getElem? n n (by omega))
    obtain ⟨v, hv, -, hev⟩ := find_vertex_of_find hok hf
    rw [edges_at_plain _ _ _ _ (by rw [chain_names_length]; omega)] at hev
    refine ⟨v, hv, ?_⟩
    show v.m_edges = _
    rw [hev]; simp [chain_edges]

/-! ## The generator `grid` -/

/-- A counting loop whose passes take the state `S i` to `S (i + 1)`. -/
theorem for_each_range' (body : graph → Nat → Except Error Unit × graph) (S : Nat → graph)
    (m : Nat) : ∀ s : Nat, (∀ i, s ≤ i → i < s + m → body (S i) i = (.ok (), S (i + 1))) →
    for_each body (List.range' s m) (S s) = (.ok (), S (s + m)) := by
  induction m with
  | zero => intro s _; simp [for_each]
  | succ m ih =>
    intro s hstep
    rw [List.range'_succ, for_each, hstep s (Nat.le_refl _) (by omega)]
    simp only
    rw [ih (s + 1) (fun i h1 h2 => hstep i (by omega) (by omega)),
      show s + 1 + m = s + (m + 1) by omega]

theorem append_cons_inj_of_not_mem {α : Type} {a : α} :
    ∀ (xs xs2 ys ys2 : List α), a ∉ xs → a ∉ xs2 →
      xs ++ a :: ys = xs2 ++ a :: ys2 → xs = xs2 ∧ ys = ys2 := by
  intro xs
  induction xs with
  | nil =>
    intro xs2 ys ys2 _ h2 heq
    cases xs2 with
    | nil => simpa using heq
    | cons x rest =>
      simp at heq
      exact absurd (heq.1 ▸ List.mem_cons_self _ _) h2
  | cons x rest ih =>
    intro xs2 ys ys2 h1 h2 heq
    cases xs2 with
    | nil =>
      simp at heq
      exact absurd (heq.1 ▸ List.mem_cons_self _ _) h1
    | cons y rest2 =>
      simp only [List.cons_append, List.cons.injEq] at heq
      obtain ⟨hxy, hrest⟩ := heq
      have := ih rest2 ys ys2 (fun hc => h1 (List.mem_cons_of_mem _ hc))
        (fun hc => h2 (List.mem_cons_of_mem _ hc)) hrest
      exact ⟨by rw [hxy, this.1], this.2⟩

theorem grid_name_data (r c : Nat) :
    (grid_name r c).data = 'a' :: ((toString (r + 1)).data ++ '_' :: (toString (c + 1)).data) := by
  simp [grid_name, String.data_append]

theorem grid_name_injective {r c r2 c2 : Nat} (h : grid_name r c = grid_name r2 c2) :
    r = r2 ∧ c = c2 := by
  have hd := congrArg String.data h
  rw [grid_name_data, grid_name_data] at hd
  injection hd with _ hd
  obtain ⟨h1, h2⟩ := append_cons_inj_of_not_mem _ _ _ _
    (underscore_not_mem_toString _) (underscore_not_mem_toString _) hd
  have e1 := toString_nat_injective (String.ext h1)
  have e2 := toString_nat_injective (String.ext h2)
  omega

theorem grid_name_not_blank (r c : Nat) : blank (grid_name r c) = false := by
  simp [blank, grid_name_data, iswspace]

theorem grid_names_succ (n k : Nat) :
    grid_names n (k + 1) = grid_names n k ++ [grid_name (k / n) (k % n)] := by
  unfold grid_names
  rw [List.range_succ, List.map_append]
  rfl

theorem grid_names_length (n k : Nat) : (grid_names n k).length = k := by
  simp [grid_names]

theorem grid_names_getElem? (n k i : Nat) (hi : i < k) :
    (grid_names n k)[i]? = some (grid_name (i / n) (i % n)) := by
  unfold grid_names
  rw [List.getElem?_map, List.getElem?_range hi]
  rfl

theorem grid_names_fresh (n k : Nat) : grid_name (k / n) (k % n) ∉ grid_names n k := by
  intro hc
  unfold grid_names at hc
  obtain ⟨i, hi, heq⟩ := List.mem_map.mp hc
  obtain ⟨h1, h2⟩ := grid_name_injective heq
  rw [List.mem_range] at hi
  have e1 := Nat.div_add_mod i n
  have e2 := Nat.div_add_mod k n
  rw [h1, h2] at e1
  omega

theorem grid_names_nodup (n k : Nat) : (grid_names n k).Nodup := by
  induction k with
  | zero => simp [grid_names]
  | succ k ih =>
    rw [grid_names_succ, List.nodup_append]
    refine ⟨ih, by simp, ?_⟩
    intro a ha hb
    simp at hb
    subst hb
    exact grid_names_fresh n k ha

theorem grid_names_not_blank (n k : Nat) : ∀ x ∈ grid_names n k, blank x = false := by
  intro x hx
  unfold grid_names at hx
  obtain ⟨i, -, rfl⟩ := List.mem_map.mp hx
  exact grid_name_not_blank _ _

theorem cell_div (n r c : Nat) (hc : c < n) : (r * n + c) / n = r := by
  rw [Nat.add_comm, Nat.add_mul_div_right _ _ (by omega), Nat.div_eq_of_lt hc, Nat.zero_add]

theorem cell_mod (n r c : Nat) (hc : c < n) : (r * n + c) % n = c := by
  rw [Nat.add_comm, Nat.add_mul_mod_self_right, Nat.mod_eq_of_lt hc]

/-- The vertex loops of `grid`: row `r` appends the `n` names of its cells. -/
theorem grid_vertex_row (n r : Nat) :
    for_each (fun g col => and_then (g.add_vertex (grid_name r col)) fun g1 => (.ok (), g1))
        (List.range n) (plain (grid_names n (r * n)) (fun _ => []) 0) =
      (.ok (), plain (grid_names n ((r + 1) * n)) (fun _ => []) 0) := by
  have := for_each_range'
    (fun g col => and_then (g.add_vertex (grid_name r col)) fun g1 => (.ok (), g1))
    (fun c => plain (grid_names n (r * n + c)) (fun _ => []) 0) n 0 (by
      intro c _ hc
      have hc2 : c < n := by omega
      have hname : grid_name r c = grid_name ((r * n + c) / n) ((r * n + c) % n) := by
        rw [cell_div n r c hc2, cell_mod n r c hc2]
      simp only
      rw [hname, add_vertex_plain _ _ _ _ (grid_names_fresh n (r * n + c))
        (grid_name_not_blank _ _) rfl, ← grid_names_succ]
      rfl)
  rw [List.range_eq_range']
  simp only [Nat.add_zero, Nat.zero_add] at this
  rw [this, show r * n + n = (r + 1) * n by ring]

theorem grid_vertices (n : Nat) :
    for_each
        (fun g row => for_each
          (fun g col => and_then (g.add_vertex (grid_name row col)) fun g1 => (.ok (), g1))
          (List.range n) g)
        (List.range n) (new true) =
      (.ok (), plain (grid_names n (n * n)) (fun _ => []) 0) := by
  have := for_each_range'
    (fun g row => for_each
      (fun g col => and_then (g.add_vertex (grid_name row col)) fun g1 => (.ok (), g1))
      (List.range n) g)
    (fun r => plain (grid_names n (r * n)) (fun _ => []) 0) n 0
    (fun r _ _ => grid_vertex_row n r)
  rw [← List.range_eq_range'] at this
  simp only [Nat.zero_add, Nat.zero_mul] at this
  exact this

theorem cell_lt (n r c : Nat) (hr : r < n) (hc : c < n) : r * n + c < n * n := by
  have : (r + 1) * n ≤ n * n := Nat.mul_le_mul_right n hr
  have e : (r + 1) * n = r * n + n := by ring
  omega

theorem grid_names_cell (n r c : Nat) (hr : r < n) (hc : c < n) :
    (grid_names n (n * n))[r * n + c]? = some (grid_name r c) := by
  rw [grid_names_getElem? n (n * n) (r * n + c) (cell_lt n r c hr hc), cell_div n r c hc,
    cell_mod n r c hc]

/-- The horizontal edges of row `r`. -/
theorem grid_h_row (n r : Nat) (hr : r < n) :
    for_each (fun g col => g.add_edge (grid_name r (col - 1)) (grid_name r col) 0)
        (List.range' 1 (n - 1)) (plain (grid_names n (n * n)) (grid_h n (r * n)) (r * (n - 1))) =
      (.ok (), plain (grid_names n (n * n)) (grid_h n ((r + 1) * n)) ((r + 1) * (n - 1))) := by
  have := for_each_range'
    (fun g col => g.add_edge (grid_name r (col - 1)) (grid_name r col) 0)
    (fun c => plain (grid_names n (n * n)) (grid_h n (r * n + (c - 1))) (r * (n - 1) + (c - 1)))
    (n - 1) 1 (by
      intro c hc1 hc2
      have hc : c < n := by omega
      simp only
      rw [add_edge_plain _ _ _ (grid_names_nodup n (n * n)) _ _ (r * n + (c - 1)) (r * n + c) 0
        (grid_names_cell n r (c - 1) hr (by omega)) (grid_names_cell n r c hr hc)]
      have hcc : c + 1 - 1 = c - 1 + 1 := by omega
      rw [hcc]
      congr 2
      funext i
      unfold grid_h Function.update
      by_cases hi : i = r * n + (c - 1)
      · subst hi
        have hm := cell_mod n r (c - 1) (by omega)
        have e : r * n + (c - 1) + 1 = r * n + c := by omega
        have hlt : (r * n + (c - 1)) % n + 1 < n := by rw [hm]; omega
        simp [hlt, e]
      · have : (i < r * n + (c - 1 + 1)) ↔ (i < r * n + (c - 1)) := by omega
        simp [hi, this])
  simp only [Nat.sub_self, Nat.add_zero] at this
  rw [this]
  have e1 : 1 + (n - 1) - 1 = n - 1 := by omega
  rw [e1]
  have e2 : r * (n - 1) + (n - 1) = (r + 1) * (n - 1) := by ring
  rw [e2]
  congr 2
  funext i
  unfold grid_h
  have e3 : (r + 1) * n = r * n + n := by ring
  by_cases hi : i = r * n + (n - 1)
  · subst hi
    have hm := cell_mod n r (n - 1) (by omega)
    have hlt : ¬ ((r * n + (n - 1)) % n + 1 < n) := by rw [hm]; omega
    simp [hlt]
  · have : (i < (r + 1) * n) ↔ (i < r * n + (n - 1)) := by omega
    simp [this]

theorem grid_h_all (n : Nat) :
    for_each
        (fun g row => for_each
          (fun g col => g.add_edge (grid_name row (col - 1)) (grid_name row col) 0)
          (List.range' 1 (n - 1)) g)
        (List.range n) (plain (grid_names n (n * n)) (fun _ => []) 0) =
      (.ok (), plain (grid_names n (n * n)) (grid_h n (n * n)) (n * (n - 1))) := by
  have := for_each_range'
    (fun g row => for_each
      (fun g col => g.add_edge (grid_name row (col - 1)) (grid_name row col) 0)
      (List.range' 1 (n - 1)) g)
    (fun r => plain (grid_names n (n * n)) (grid_h n (r * n)) (r * (n - 1))) n 0
    (fun r _ hr => grid_h_row n r (by omega))
  rw [← List.range_eq_range'] at this
  simp only [Nat.zero_add, Nat.zero_mul] at this
  have h0 : grid_h n 0 = fun _ => [] := by
    funext i; simp [grid_h]
  rw [h0] at this
  exact this

theorem cell_eq_of_div_mod (n i r c : Nat) (hd : i / n = r) (hm : i % n = c) :
    i = r * n + c := by
  have := Nat.div_add_mod i n
  rw [hd, hm, Nat.mul_comm] at this
  exact this.symm

/-- The vertical edges of column `c`. -/
theorem grid_v_col (n c : Nat) (hc : c < n) :
    for_each (fun g row => g.add_edge (grid_name (row - 1) c) (grid_name row c) 0)
        (List.range' 1 (n - 1))
        (plain (grid_names n (n * n)) (grid_v n c 1) (n * (n - 1) + c * (n - 1))) =
      (.ok (), plain (grid_names n (n * n)) (grid_v n (c + 1) 1)
        (n * (n - 1) + (c + 1) * (n - 1))) := by
  have := for_each_range'
    (fun g row => g.add_edge (grid_name (row - 1) c) (grid_name row c) 0)
    (fun r => plain (grid_names n (n * n)) (grid_v n c r)
      (n * (n - 1) + c * (n - 1) + (r - 1)))
    (n - 1) 1 (by
      intro r hr1 hr2
      have hr : r < n := by omega
      simp only
      rw [add_edge_plain _ _ _ (grid_names_nodup n (n * n)) _ _ ((r - 1) * n + c) (r * n + c) 0
        (grid_names_cell n (r - 1) c (by omega) hc) (grid_names_cell n r c hr hc)]
      have hcc : n * (n - 1) + c * (n - 1) + (r - 1) + 1 =
          n * (n - 1) + c * (n - 1) + (r + 1 - 1) := by omega
      rw [hcc]
      congr 2
      funext i
      unfold grid_v Function.update
      have hd := cell_div n (r - 1) c hc
      have hm := cell_mod n (r - 1) c hc
      have hrn : (r - 1) * n + n = r * n := by
        have : r - 1 + 1 = r := by omega
        calc (r - 1) * n + n = (r - 1 + 1) * n := by ring
          _ = r * n := by rw [this]
      have hlt := cell_lt n r c hr hc
      by_cases hi : i = (r - 1) * n + c
      · subst hi
        have h1 : ¬ ((r - 1) * n + c) / n + 1 < r := by rw [hd]; omega
        have h2 : ((r - 1) * n + c) / n + 1 < r + 1 := by rw [hd]; omega
        have h3 : (r - 1) * n + c + n < n * n := by omega
        have h4 : (r - 1) * n + c + n = r * n + c := by omega
        simp [hm, h1, h2, h3, h4, hlt]
      · have hiff : (i % n = c ∧ i / n + 1 < r + 1) ↔ (i % n = c ∧ i / n + 1 < r) := by
          constructor
          · rintro ⟨hmc, hdv⟩
            refine ⟨hmc, ?_⟩
            by_contra hcon
            have hdr : i / n = r - 1 := by omega
            exact hi (cell_eq_of_div_mod n i (r - 1) c hdr hmc)
          · rintro ⟨hmc, hdv⟩
            exact ⟨hmc, by omega⟩
        simp only [hi, ↓reduceDIte, hiff])
  simp only [Nat.sub_self, Nat.add_zero] at this
  rw [this]
  have e1 : 1 + (n - 1) - 1 = n - 1 := by omega
  have e2 : n * (n - 1) + c * (n - 1) + (n - 1) = n * (n - 1) + (c + 1) * (n - 1) := by ring
  rw [e1, e2]
  have e3 : 1 + (n - 1) = n := by omega
  rw [e3]
  congr 2
  funext i
  unfold grid_v
  congr 1
  have hrow : i + n < n * n → i / n + 1 < n := by
    intro h
    have hn : 0 < n := by omega
    have : i / n < n - 1 := by
      rw [Nat.div_lt_iff_lt_mul hn]
      have e : (n - 1) * n + n = n * n := by
        have : n - 1 + 1 = n := by omega
        calc (n - 1) * n + n = (n - 1 + 1) * n := by ring
          _ = n * n := by rw [this]
      omega
    omega
  by_cases hb : i + n < n * n
  · have hr := hrow hb
    have : (i % n < c ∨ i % n = c ∧ i / n + 1 < n) ↔
        (i % n < c + 1 ∨ i % n = c + 1 ∧ i / n + 1 < 1) := by
      constructor
      · rintro (h | ⟨h, -⟩)
        · exact Or.inl (by omega)
        · exact Or.inl (by omega)
      · rintro (h | ⟨-, h⟩)
        · by_cases hlt : i % n < c
          · exact Or.inl hlt
          · exact Or.inr ⟨by omega, hr⟩
        · simp at h
    simp [hb, this]
  · simp [hb]

theorem grid_v_all (n : Nat) :
    for_each
        (fun g col => for_each
          (fun g row => g.add_edge (grid_name (row - 1) col) (grid_name row col) 0)
          (List.range' 1 (n - 1)) g)
        (List.range n) (plain (grid_names n (n * n)) (grid_h n (n * n)) (n * (n - 1))) =
      (.ok (), plain (grid_names n (n * n)) (grid_v n n 1) (2 * n * (n - 1))) := by
  have := for_each_range'
    (fun g col => for_each
      (fun g row => g.add_edge (grid_name (row - 1) col) (grid_name row col) 0)
      (List.range' 1 (n - 1)) g)
    (fun c => plain (grid_names n (n * n)) (grid_v n c 1) (n * (n - 1) + c * (n - 1))) n 0
    (fun c _ hc => grid_v_col n c (by omega))
  rw [← List.range_eq_range'] at this
  simp only [Nat.zero_add, Nat.zero_mul, Nat.add_zero] at this
  have h0 : grid_v n 0 1 = grid_h n (n * n) := by
    funext i; simp [grid_v]
  have e : n * (n - 1) + n * (n - 1) = 2 * n * (n - 1) := by ring
  rw [h0, e] at this
  exact this

/-- The graph `grid` returns, in closed form. -/
theorem grid_eq (n : Nat) :
    grid n = .ok (plain (grid_names n (n * n)) (grid_v n n 1) (2 * n * (n - 1))) := by
  unfold grid
  rw [grid_vertices]
  simp only [and_then]
  by_cases hn : n > 0
  · rw [if_pos hn, grid_h_all]
    simp only
    rw [grid_v_all]
    rfl
  · have h0 : n = 0 := by omega
    subst h0
    rfl

theorem and_then_ok_snd {α : Type} (r : Except Error α × graph) :
    (and_then r fun g1 => (.ok (), g1)).2 = r.2 := by
  rcases r with ⟨_ | _, g⟩ <;> rfl

theorem reachable_plain_grid (n : Nat) :
    Reachable (plain (grid_names n (n * n)) (grid_v n n 1) (2 * n * (n - 1))) := by
  have r1 : Reachable (for_each
      (fun g row => for_each
        (fun g col => and_then (g.add_vertex (grid_name row col)) fun g1 => (.ok (), g1))
        (List.range n) g)
      (List.range n) (new true)).2 :=
    for_each_preserves Reachable _
      (fun g row hg => for_each_preserves Reachable _
        (fun g col hg => by
          rw [and_then_ok_snd]
          exact Reachable.step (Op.add_vertex _) hg) _ g hg) _ _ (Reachable.new true)
  rw [grid_vertices] at r1
  have r2 : Reachable (for_each
      (fun g row => for_each
        (fun g col => g.add_edge (grid_name row (col - 1)) (grid_name row col) 0)
        (List.range' 1 (n - 1)) g)
      (List.range n) (plain (grid_names n (n * n)) (fun _ => []) 0)).2 :=
    for_each_preserves Reachable _
      (fun g row hg => for_each_preserves Reachable _
        (fun g col hg => Reachable.step (Op.add_edge _ _ 0) hg) _ g hg) _ _ r1
  rw [grid_h_all] at r2
  have r3 : Reachable (for_each
      (fun g col => for_each
        (fun g row => g.add_edge (grid_name (row - 1) col) (grid_name row col) 0)
        (List.range' 1 (n - 1)) g)
      (List.range n) (plain (grid_names n (n * n)) (grid_h n (n * n)) (n * (n - 1)))).2 :=
    for_each_preserves Reachable _
      (fun g col hg => for_each_preserves Reachable _
        (fun g row hg => Reachable.step (Op.add_edge _ _ 0) hg) _ g hg) _ _ r2
  rw [grid_v_all] at r3
  exact r3

theorem grid_v_cell (n r c : Nat) (hr : r < n) (hc : c < n) :
    grid_v n n 1 (r * n + c) =
      (if c + 1 < n then [⟨r * n + (c + 1), 0⟩] else []) ++
        (if r + 1 < n then [⟨(r + 1) * n + c, 0⟩] else []) := by
  unfold grid_v grid_h
  have hm := cell_mod n r c hc
  have hlt := cell_lt n r c hr hc
  have e : (r + 1) * n = r * n + n := by ring
  have hrow : r * n + c + n < n * n ↔ r + 1 < n := by
    constructor
    · intro h
      have h2 : (r + 1) * n < n * n := by omega
      exact Nat.lt_of_mul_lt_mul_right h2
    · intro h
      have := cell_lt n (r + 1) c h hc
      omega
  rw [hm]
  congr 1
  · by_cases h1 : c + 1 < n
    · simp [h1, hlt, Nat.add_assoc]
    · simp [h1]
  · by_cases h2 : r + 1 < n
    · have h3 := hrow.mpr h2
      simp only [h2, h3, hc, true_or, and_self, if_true]
      rw [e]
      congr 2
      omega
    · have h3 : ¬ r * n + c + n < n * n := fun h => h2 (hrow.mp h)
      simp [h2, h3]

/-- C10: for every size `n`, `grid(n)` returns a directed graph with exactly `n * n`
vertices and `2 * n * (n - 1)` edges (counter and stored records); the vertex at index
`i` is named "a", row number `i / n + 1`, "_", column number `i % n + 1`, so the vertex
named a(r+1)_(c+1) has index `r * n + c`, and its edge list consists of the edge to the
cell `(r, c + 1)` when `c + 1 < n` followed by the edge to the cell `(r + 1, c)` when
`r + 1 < n`, both of weight 0, and of nothing else.  `grid(0)` is the empty graph and
`grid(2)` has the 4 vertices a1_1, a1_2, a2_1, a2_2 and the 4 edges a1_1 -> a1_2,
a1_1 -> a2_1, a1_2 -> a2_2, a2_1 -> a2_2. -/
theorem grid_is_grid (n : Nat) :
    ∃ g, grid n = .ok g ∧ g.is_directed = true ∧ g.num_vertices = n * n ∧
      g.vertices.map vertex.name = (List.range (n * n)).map
        (fun i => "a" ++ toString (i / n + 1) ++ "_" ++ toString (i % n + 1)) ∧
      g.num_edges = 2 * n * (n - 1) ∧ g.total_records = 2 * n * (n - 1) ∧
      (∀ r c, r < n → c < n → ∃ v,
        g.find_id ("a" ++ toString (r + 1) ++ "_" ++ toString (c + 1)) = .ok (r * n + c) ∧
        g.find_vertex ("a" ++ toString (r + 1) ++ "_" ++ toString (c + 1)) = .ok v ∧
        g.vertices[r * n + c]? = some v ∧
        v.name = "a" ++ toString (r + 1) ++ "_" ++ toString (c + 1) ∧
        v.edges = (if c + 1 < n then [⟨r * n + (c + 1), 0⟩] else []) ++
          (if r + 1 < n then [⟨(r + 1) * n + c, 0⟩] else [])) ∧
      grid 0 = .ok (new true) ∧
      (∃ g2, grid 2 = .ok g2 ∧ g2.num_vertices = 4 ∧ g2.num_edges = 4 ∧
        g2.vertices.map vertex.name = ["a1_1", "a1_2", "a2_1", "a2_2"] ∧
        g2.vertices.map vertex.edges = [[⟨1, 0⟩, ⟨2, 0⟩], [⟨3, 0⟩], [⟨3, 0⟩], []] ∧
        g2.find_id "a1_2" = .ok 1 ∧ g2.find_id "a2_1" = .ok 2) := by
  have hnd := grid_names_nodup n (n * n)
  have hok := names_ok_plain (grid_names n (n * n)) (grid_v n n 1) (2 * n * (n - 1)) hnd
    (grid_names_not_blank n (n * n))
  refine ⟨_, grid_eq n, rfl, ?_, ?_, rfl, ?_, ?_, rfl, ⟨_, rfl, rfl, rfl, rfl, rfl, rfl, rfl⟩⟩
  · show (plain_vertices (grid_v n n 1) 0 (grid_names n (n * n))).length = n * n
    rw [plain_vertices_length, grid_names_length]
  · show (plain_vertices (grid_v n n 1) 0 (grid_names n (n * n))).map vertex.name = _
    rw [plain_vertices_names]
    rfl
  · have := (reachable_ok (reachable_plain_grid n)).2
    unfold count_ok records_per_call at this
    rw [this]
    show (if true = true then 1 else 2) * (2 * n * (n - 1)) = _
    simp
  · intro r c hr hc
    have hf := find_plain (grid_names n (n * n)) (grid_v n n 1) (2 * n * (n - 1)) hnd _
      (r * n + c) (grid_names_cell n r c hr hc)
    obtain ⟨v, hv, hget, hev⟩ := find_vertex_of_find hok hf
    obtain ⟨v2, hv2, hname⟩ := hok.getElem_of_find hf
    have hvv : v2 = v := Option.some.inj (hv2.symm.trans hget)
    subst hvv
    refine ⟨v2, find_id_of_find hf, hv, hget, hname, ?_⟩
    show v2.m_edges = _
    rw [hev, edges_at_plain _ _ _ _ (by rw [grid_names_length]; exact cell_lt n r c hr hc),
      grid_v_cell n r c hr hc]

/-! ## Failing `add_edge` calls -/

theorem lookup_or_add_snd_cases (g : graph) (a : String) :
    (g.lookup_or_add a).2 = g ∨
    (blank a = false ∧ g.m_name_to_id.find a = none ∧ (g.lookup_or_add a).2 = g.with_vertex a) := by
  unfold lookup_or_add
  cases hf : g.m_name_to_id.find a with
  | some i => exact Or.inl rfl
  | none =>
    cases hb : blank a with
    | true => left; simp [add_vertex, hb]
    | false => right; exact ⟨rfl, rfl, by simp [add_vertex_eq_with_vertex g a hb hf]⟩

/-- C19: on a reachable graph `add_edge(from, to, w)` throws exactly when one of the
two names is blank, and then always the invalid-name error; a throwing call stores no
edge record and leaves `num_edges()` as it was, and it leaves the whole graph as it was
unless `from` is non-blank and new while `to` is blank, in which case `from` has been
appended as a new vertex without edges. -/
theorem add_edge_failure (g : graph) (hr : Reachable g) (a b : String) (w : Int) :
    ((g.add_edge a b w).1 ≠ .ok () ↔ (blank a = true ∨ blank b = true)) ∧
    (∀ e, (g.add_edge a b w).1 = .error e → e = .InvalidName) ∧
    ((g.add_edge a b w).1 ≠ .ok () →
      (∀ i, edges_at (g.add_edge a b w).2 i = edges_at g i) ∧
      (g.add_edge a b w).2.num_edges = g.num_edges ∧
      (g.add_edge a b w).2 =
        if blank a = false ∧ g.m_name_to_id.contains a = false ∧ blank b = true then
          g.with_vertex a
        else g) := by
  have h := (reachable_ok hr).1
  rcases add_edge_cases h a b w with ⟨ha, hb, hok⟩ | ⟨ha, heq⟩ | ⟨ha, hb, heq⟩
  · refine ⟨?_, ?_, ?_⟩
    · simp [hok, ha, hb]
    · intro e he; rw [hok] at he; cases he
    · intro hne; exact absurd hok hne
  · rw [heq]
    refine ⟨by simp [ha], ?_, ?_⟩
    · intro e he; injection he with he; exact he.symm
    · intro _
      exact ⟨fun _ => rfl, rfl, by simp [ha]⟩
  · rw [heq]
    refine ⟨by simp [hb], ?_, ?_⟩
    · intro e he; injection he with he; exact he.symm
    · intro _
      rcases lookup_or_add_snd_cases g a with hg | ⟨-, hf, hg⟩
      · rw [hg]
        refine ⟨fun _ => rfl, rfl, ?_⟩
        have hfa : g.m_name_to_id.find a ≠ none := by
          intro hc
          obtain ⟨ia, hia, hcase⟩ := lookup_or_add_spec g ha
          rcases hcase with ⟨hf2, -⟩ | ⟨-, -, hw⟩
          · rw [hc] at hf2; cases hf2
          · rw [hg] at hw
            have := congrArg (fun x => x.m_vertices.length) hw
            simp [with_vertex] at this
        have hct : ¬ g.m_name_to_id.contains a = false := by
          rw [contains_eq_false_iff]; exact hfa
        simp [hct]
      · rw [hg]
        refine ⟨fun i => edges_at_with_vertex g a i, rfl, ?_⟩
        have hct := (contains_eq_false_iff _ _).mpr hf
        simp [ha, hb, hct]

/-- Witness for C19: a blank target after a new source on the empty directed graph. -/
theorem add_edge_failure_witness :
    (((new true).add_edge "x" " " 1).1 ≠ .ok () ↔ (blank "x" = true ∨ blank " " = true)) ∧
    (∀ e, ((new true).add_edge "x" " " 1).1 = .error e → e = .InvalidName) ∧
    (((new true).add_edge "x" " " 1).1 ≠ .ok () →
      (∀ i, edges_at ((new true).add_edge "x" " " 1).2 i = edges_at (new true) i) ∧
      ((new true).add_edge "x" " " 1).2.num_edges = (new true).num_edges ∧
      ((new true).add_edge "x" " " 1).2 =
        if blank "x" = false ∧ (new true).m_name_to_id.contains "x" = false ∧
            blank " " = true then
          (new true).with_vertex "x"
        else new true) :=
  add_edge_failure (new true) (Reachable.new true) "x" " " 1

/-! ## Lookup by name, colouring and labelling -/

theorem names_ok.find_isSome_iff {g : graph} (h : names_ok g) (n : String) :
    (∃ i, g.m_name_to_id.find n = some i) ↔ n ∈ g.m_vertices.map vertex.name := by
  rw [List.mem_iff_getElem?]
  constructor
  · rintro ⟨i, hi⟩
    exact ⟨i, by rw [List.getElem?_map]; exact (h.find_iff n i).mp hi⟩
  · rintro ⟨i, hi⟩
    rw [List.getElem?_map] at hi
    exact ⟨i, (h.find_iff n i).mpr hi⟩

theorem names_ok.find_none_iff {g : graph} (h : names_ok g) (n : String) :
    g.m_name_to_id.find n = none ↔ n ∉ g.m_vertices.map vertex.name := by
  rw [← h.find_isSome_iff n]
  cases g.m_name_to_id.find n <;> simp

theorem colour_vertex_of_find {g : graph} {n : String} {i : Nat} {v : vertex}
    (hf : g.m_name_to_id.find n = some i) (hv : g.m_vertices[i]? = some v) (c : String) :
    g.colour_vertex n c =
      (.ok (), { g with m_vertices := g.m_vertices.set i { v with m_colour := c } }) := by
  simp [colour_vertex, find_id, hf, hv]

theorem label_vertex_of_find {g : graph} {n : String} {i : Nat} {v : vertex}
    (hf : g.m_name_to_id.find n = some i) (hv : g.m_vertices[i]? = some v) (l : String) :
    g.label_vertex n l =
      (.ok (), { g with m_vertices := g.m_vertices.set i { v with m_label := l } }) := by
  simp [label_vertex, find_id, hf, hv]

theorem label_vertex_int_of_find {g : graph} {n : String} {i : Nat} {v : vertex}
    (hf : g.m_name_to_id.find n = some i) (hv : g.m_vertices[i]? = some v) (l : Int) :
    g.label_vertex_int n l =
      (.ok (), { g with m_vertices := g.m_vertices.set i { v with m_label := toString l } }) := by
  simp [label_vertex_int, find_id, hf, hv]

/-- C15: on a reachable graph `find_id`, `find_vertex` (which is also the by-name index
operator), `colour_vertex` and both `label_vertex` variants throw the unknown-vertex
error when the name is not the name of a stored vertex, leaving the graph as it was,
and throw nothing when it is; for a stored name `find_id` returns an index below
`num_vertices()` and `find_vertex` returns the vertex at that index, whose name is the
queried one. -/
theorem lookup_by_name (g : graph) (hr : Reachable g) (name : String) :
    (name ∉ g.vertices.map vertex.name →
      g.find_id name = .error .UnknownVertex ∧
      g.find_vertex name = .error .UnknownVertex ∧
      (∀ c, g.colour_vertex name c = (.error .UnknownVertex, g)) ∧
      (∀ l, g.label_vertex name l = (.error .UnknownVertex, g)) ∧
      (∀ l, g.label_vertex_int name l = (.error .UnknownVertex, g))) ∧
    (name ∈ g.vertices.map vertex.name →
      ∃ i v, g.find_id name = .ok i ∧ i < g.num_vertices ∧
        g.find_vertex name = .ok v ∧ g.vertices[i]? = some v ∧ v.name = name ∧
        (∀ c, (g.colour_vertex name c).1 = .ok ()) ∧
        (∀ l, (g.label_vertex name l).1 = .ok ()) ∧
        (∀ l, (g.label_vertex_int name l).1 = .ok ())) := by
  have h := (reachable_ok hr).1
  unfold vertices num_vertices
  constructor
  · intro habs
    have hf := (h.find_none_iff name).mpr habs
    refine ⟨by simp [find_id, hf], by simp [find_vertex, find_id, hf], ?_, ?_, ?_⟩
    · intro c; simp [colour_vertex, find_id, hf]
    · intro l; simp [label_vertex, find_id, hf]
    · intro l; simp [label_vertex_int, find_id, hf]
  · intro hpres
    obtain ⟨i, hf⟩ := (h.find_isSome_iff name).mpr hpres
    obtain ⟨v, hv, hn⟩ := h.getElem_of_find hf
    refine ⟨i, v, find_id_of_find hf, h.lt_of_find hf, ?_, hv, hn, ?_, ?_, ?_⟩
    · simp [find_vertex, find_id, hf, hv]
    · intro c; rw [colour_vertex_of_find hf hv]
    · intro l; rw [label_vertex_of_find hf hv]
    · intro l; rw [label_vertex_int_of_find hf hv]

/-- Witness for C15: the names "a" (stored) and "b" (not stored) after
`add_vertex("a")`. -/
theorem lookup_by_name_witness :
    ("b" ∉ ((new true).add_vertex "a").2.vertices.map vertex.name →
      ((new true).add_vertex "a").2.find_id "b" = .error .UnknownVertex ∧
      ((new true).add_vertex "a").2.find_vertex "b" = .error .UnknownVertex ∧
      (∀ c, ((new true).add_vertex "a").2.colour_vertex "b" c =
        (.error .UnknownVertex, ((new true).add_vertex "a").2)) ∧
      (∀ l, ((new true).add_vertex "a").2.label_vertex "b" l =
        (.error .UnknownVertex, ((new true).add_vertex "a").2)) ∧
      (∀ l, ((new true).add_vertex "a").2.label_vertex_int "b" l =
        (.error .UnknownVertex, ((new true).add_vertex "a").2))) ∧
    ("b" ∈ ((new true).add_vertex "a").2.vertices.map vertex.name →
      ∃ i v, ((new true).add_vertex "a").2.find_id "b" = .ok i ∧
        i < ((new true).add_vertex "a").2.num_vertices ∧
        ((new true).add_vertex "a").2.find_vertex "b" = .ok v ∧
        ((new true).add_vertex "a").2.vertices[i]? = some v ∧ v.name = "b" ∧
        (∀ c, (((new true).add_vertex "a").2.colour_vertex "b" c).1 = .ok ()) ∧
        (∀ l, (((new true).add_vertex "a").2.label_vertex "b" l).1 = .ok ()) ∧
        (∀ l, (((new true).add_vertex "a").2.label_vertex_int "b" l).1 = .ok ())) :=
  lookup_by_name _ (Reachable.step (Op.add_vertex "a") (Reachable.new true)) "b"

/-- C13: on a reachable graph and a stored name, `colour_vertex(name, c)` succeeds; the
directed flag, `num_vertices()`, `num_edges()` and the name map are as before, the
vertex of that name is as before except that its colour is `c`, every other vertex is
as before, and colouring again replaces the colour (the last call wins). -/
theorem colour_vertex_frame (g : graph) (hr : Reachable g) (name c : String)
    (hp : name ∈ g.vertices.map vertex.name) :
    (g.colour_vertex name c).1 = .ok () ∧
    (g.colour_vertex name c).2.is_directed = g.is_directed ∧
    (g.colour_vertex name c).2.num_vertices = g.num_vertices ∧
    (g.colour_vertex name c).2.num_edges = g.num_edges ∧
    (g.colour_vertex name c).2.m_name_to_id = g.m_name_to_id ∧
    (∃ i, g.find_id name = .ok i ∧
      ∀ j v, g.vertices[j]? = some v →
        (g.colour_vertex name c).2.vertices[j]? =
          some (if j = i then { v with m_colour := c } else v)) ∧
    (∀ c0, ((g.colour_vertex name c0).2.colour_vertex name c).2 =
      (g.colour_vertex name c).2) := by
  have h := (reachable_ok hr).1
  unfold vertices at hp
  obtain ⟨i, hf⟩ := (h.find_isSome_iff name).mpr hp
  obtain ⟨v, hv, -⟩ := h.getElem_of_find hf
  have hlt := h.lt_of_find hf
  rw [colour_vertex_of_find hf hv]
  refine ⟨rfl, rfl, by simp [num_vertices], rfl, rfl, ⟨i, find_id_of_find hf, ?_⟩, ?_⟩
  · intro j u hu
    show (g.m_vertices.set i { v with m_colour := c })[j]? = _
    change g.m_vertices[j]? = some u at hu
    rw [List.getElem?_set]
    by_cases hij : i = j
    · subst hij
      rw [hv] at hu
      injection hu with hu
      subst hu
      simp [hlt]
    · have hji : ¬ j = i := fun hc => hij hc.symm
      simp [hij, hji, hu]
  · intro c0
    rw [colour_vertex_of_find hf hv]
    have hv0 : ({ g with m_vertices := g.m_vertices.set i { v with m_colour := c0 } } :
        graph).m_vertices[i]? = some { v with m_colour := c0 } := by
      show (g.m_vertices.set i { v with m_colour := c0 })[i]? = _
      simp [hlt]
    have hf0 : ({ g with m_vertices := g.m_vertices.set i { v with m_colour := c0 } } :
        graph).m_name_to_id.find name = some i := hf
    rw [colour_vertex_of_find hf0 hv0]
    simp

/-- Witness for C13: colouring the one vertex of the graph left by `add_vertex("a")`. -/
theorem colour_vertex_frame_witness :
    (((new true).add_vertex "a").2.colour_vertex "a" "red").1 = .ok () ∧
    (((new true).add_vertex "a").2.colour_vertex "a" "red").2.is_directed =
      ((new true).add_vertex "a").2.is_directed ∧
    (((new true).add_vertex "a").2.colour_vertex "a" "red").2.num_vertices =
      ((new true).add_vertex "a").2.num_vertices ∧
    (((new true).add_vertex "a").2.colour_vertex "a" "red").2.num_edges =
      ((new true).add_vertex "a").2.num_edges ∧
    (((new true).add_vertex "a").2.colour_vertex "a" "red").2.m_name_to_id =
      ((new true).add_vertex "a").2.m_name_to_id ∧
    (∃ i, ((new true).add_vertex "a").2.find_id "a" = .ok i ∧
      ∀ j v, ((new true).add_vertex "a").2.vertices[j]? = some v →
        (((new true).add_vertex "a").2.colour_vertex "a" "red").2.vertices[j]? =
          some (if j = i then { v with m_colour := "red" } else v)) ∧
    (∀ c0, ((((new true).add_vertex "a").2.colour_vertex "a" c0).2.colour_vertex "a" "red").2 =
      (((new true).add_vertex "a").2.colour_vertex "a" "red").2) :=
  colour_vertex_frame _ (Reachable.step (Op.add_vertex "a") (Reachable.new true)) "a" "red"
    (by decide)

theorem for_each_append {α : Type} (body : graph → α → Except Error Unit × graph)
    (xs ys : List α) (g : graph) :
    for_each body (xs ++ ys) g =
      and_then (for_each body xs g) fun g1 => for_each body ys g1 := by
  induction xs generalizing g with
  | nil => simp [for_each, and_then]
  | cons x rest ih =>
    simp only [List.cons_append, for_each]
    rcases hbx : body g x with ⟨r, g1⟩
    cases r with
    | error e => simp [and_then]
    | ok u => simpa using ih g1

/-- The batch colouring on stored names: it succeeds, keeps the name map in step and
recolours exactly the vertices whose name is in the batch. -/
theorem colour_vertices_present (c : String) : ∀ (names : List String) (g : graph),
    names_ok g → (∀ n ∈ names, n ∈ g.m_vertices.map vertex.name) →
    (g.colour_vertices names c).1 = .ok () ∧
    names_ok (g.colour_vertices names c).2 ∧
    (g.colour_vertices names c).2.m_name_to_id = g.m_name_to_id ∧
    (g.colour_vertices names c).2.m_directed = g.m_directed ∧
    (g.colour_vertices names c).2.m_num_edges = g.m_num_edges ∧
    (∀ (j : Nat) (v : vertex), g.m_vertices[j]? = some v →
      (g.colour_vertices names c).2.m_vertices[j]? =
        some (if v.m_name ∈ names then { v with m_colour := c } else v)) := by
  intro names
  induction names with
  | nil =>
    intro g h _
    exact ⟨rfl, h, rfl, rfl, rfl, fun j v hv => by simpa [colour_vertices, for_each] using hv⟩
  | cons n rest ih =>
    intro g h hall
    obtain ⟨i, hf⟩ := (h.find_isSome_iff n).mpr (hall n (List.mem_cons_self _ _))
    obtain ⟨v, hv, hvn⟩ := h.getElem_of_find hf
    have hlt := h.lt_of_find hf
    have h1 : names_ok { g with m_vertices := g.m_vertices.set i { v with m_colour := c } } :=
      names_ok_set h hv rfl
    have hall1 : ∀ m ∈ rest, m ∈
        ({ g with m_vertices := g.m_vertices.set i { v with m_colour := c } } :
          graph).m_vertices.map vertex.name := by
      intro m hm
      rw [← h1.find_isSome_iff m]
      exact (h.find_isSome_iff m).mpr (hall m (List.mem_cons_of_mem _ hm))
    obtain ⟨r1, r2, r3, r4, r5, r6⟩ := ih _ h1 hall1
    have hstep : g.colour_vertices (n :: rest) c =
        colour_vertices { g with m_vertices := g.m_vertices.set i { v with m_colour := c } }
          rest c := by
      simp only [colour_vertices, for_each, colour_vertex_of_find hf hv]
    rw [hstep]
    refine ⟨r1, r2, r3, r4, r5, ?_⟩
    intro j u hu
    have hu1 : ({ g with m_vertices := g.m_vertices.set i { v with m_colour := c } } :
        graph).m_vertices[j]? = some (if j = i then { u with m_colour := c } else u) := by
      show (g.m_vertices.set i { v with m_colour := c })[j]? = _
      rw [List.getElem?_set]
      by_cases hij : i = j
      · subst hij
        rw [hv] at hu
        injection hu with hu
        subst hu
        simp [hlt]
      · have hji : ¬ j = i := fun hc => hij hc.symm
        simp [hij, hji, hu]
    rw [r6 j _ hu1]
    by_cases hji : j = i
    · subst hji
      rw [hv] at hu
      injection hu with hu
      subst hu
      simp only [if_true, hvn, List.mem_cons, true_or]
      split <;> rfl
    · have hne : u.m_name ≠ n := by
        intro hc
        have := (h.find_iff n j).mpr (by rw [hu]; simp [vertex.name, hc])
        rw [hf] at this
        injection this with this
        exact hji this.symm
      simp only [hji, if_false, List.mem_cons, hne, false_or]

/-- C14: on a reachable graph, `colour_vertices(names, c)` on stored names succeeds,
gives every named vertex the colour `c` and changes nothing else; when the first name
that is not stored sits after the names `pre`, the call throws the unknown-vertex error
and leaves the graph that colouring exactly the names `pre` produces (no rollback; the
names after the failing one are not visited). -/
theorem colour_vertices_batch (g : graph) (hr : Reachable g) (c : String) :
    (∀ names : List String, (∀ n ∈ names, n ∈ g.vertices.map vertex.name) →
      (g.colour_vertices names c).1 = .ok () ∧
      (∀ n ∈ names, ∃ v, (g.colour_vertices names c).2.find_vertex n = .ok v ∧ v.colour = c) ∧
      (g.colour_vertices names c).2.m_name_to_id = g.m_name_to_id ∧
      (g.colour_vertices names c).2.is_directed = g.is_directed ∧
      (g.colour_vertices names c).2.num_edges = g.num_edges ∧
      (∀ (j : Nat) (v : vertex), g.vertices[j]? = some v →
        (g.colour_vertices names c).2.vertices[j]? =
          some (if v.name ∈ names then { v with m_colour := c } else v))) ∧
    (∀ (pre : List String) (bad : String) (post : List String),
      (∀ n ∈ pre, n ∈ g.vertices.map vertex.name) → bad ∉ g.vertices.map vertex.name →
      g.colour_vertices (pre ++ bad :: post) c =
        (.error .UnknownVertex, (g.colour_vertices pre c).2)) := by
  have h := (reachable_ok hr).1
  unfold vertices
  constructor
  · intro names hall
    obtain ⟨r1, r2, r3, r4, r5, r6⟩ := colour_vertices_present c names g h hall
    refine ⟨r1, ?_, r3, r4, r5, r6⟩
    intro n hn
    obtain ⟨i, hf⟩ := (h.find_isSome_iff n).mpr (hall n hn)
    obtain ⟨v, hv, hvn⟩ := h.getElem_of_find hf
    have hG := r6 i v hv
    have hmem : v.m_name ∈ names := by rw [hvn]; exact hn
    rw [if_pos hmem] at hG
    refine ⟨{ v with m_colour := c }, ?_, rfl⟩
    have hfG : (g.colour_vertices names c).2.m_name_to_id.find n = some i := by
      rw [r3]; exact hf
    simp [find_vertex, find_id, hfG, hG]
  · intro pre bad post hall hbad
    obtain ⟨r1, r2, r3, -, -, -⟩ := colour_vertices_present c pre g h hall
    have hfb : (g.colour_vertices pre c).2.m_name_to_id.find bad = none := by
      rw [r3]; exact (h.find_none_iff bad).mpr hbad
    unfold colour_vertices at r1 hfb ⊢
    rw [for_each_append]
    rcases hpre : for_each (fun g v => g.colour_vertex v c) pre g with ⟨r, g1⟩
    rw [hpre] at r1 hfb
    simp only at r1 hfb
    subst r1
    simp [and_then, for_each, colour_vertex, find_id, hfb]

/-- Witness for C14: a batch of one stored name followed by an unknown one. -/
theorem colour_vertices_batch_witness :
    ((new true).add_vertex "a").2.colour_vertices (["a"] ++ "b" :: ["a"]) "red" =
      (.error .UnknownVertex, (((new true).add_vertex "a").2.colour_vertices ["a"] "red").2) :=
  (colour_vertices_batch _ (Reachable.step (Op.add_vertex "a") (Reachable.new true)) "red").2
    ["a"] "b" ["a"] (by decide) (by decide)

/-! ## The shape of a step -/

/-- A relation between the graph before and after a call holds for every call on a
graph whose name map is in step, as soon as it is reflexive and transitive and holds
for the three elementary changes: a new vertex, a change of colour or label, and a
successful `add_edge`. -/
theorem step_rel (R : graph → graph → Prop) (hrefl : ∀ g, R g g)
    (htrans : ∀ g1 g2 g3, R g1 g2 → R g2 g3 → R g1 g3)
    (hv : ∀ g n, names_ok g → blank n = false → g.m_name_to_id.find n = none →
      R g (g.with_vertex n))
    (hattr : ∀ g g2, names_ok g → attr_step g g2 → R g g2)
    (hedge : ∀ g a b w, names_ok g → blank a = false → blank b = false →
      R g (g.add_edge a b w).2) :
    ∀ (g : graph) (op : Op), names_ok g → R g (op.run g) := by
  intro g op h
  cases op with
  | add_vertex n =>
    show R g (g.add_vertex n).2
    cases hb : blank n with
    | true => simpa [add_vertex, hb] using hrefl g
    | false =>
      cases hp : g.m_name_to_id.find n with
      | some i => simpa [add_vertex, hb, hp] using hrefl g
      | none =>
        rw [add_vertex_eq_with_vertex g n hb hp]
        exact hv g n h hb hp
  | add_edge a b w =>
    show R g (g.add_edge a b w).2
    rcases add_edge_cases h a b w with ⟨ha, hb, -⟩ | ⟨-, heq⟩ | ⟨-, -, heq⟩
    · exact hedge g a b w h ha hb
    · rw [heq]; exact hrefl g
    · rw [heq]
      rcases lookup_or_add_snd_cases g a with hg | ⟨hb, hf, hg⟩
      · rw [hg]; exact hrefl g
      · rw [hg]; exact hv g a h hb hf
  | colour_vertex name colour => exact hattr g _ h (colour_vertex_attr_step _ _ _)
  | colour_vertices names colour =>
    show R g (g.colour_vertices names colour).2
    unfold colour_vertices
    induction names generalizing g with
    | nil => exact hrefl g
    | cons n rest ih =>
      have hs := colour_vertex_attr_step g n colour
      have h1 := names_ok_attr_step hs h
      have r1 := hattr g _ h hs
      simp only [for_each]
      rcases hc : g.colour_vertex n colour with ⟨r, g1⟩
      rw [hc] at h1 r1
      cases r with
      | error e => exact r1
      | ok u => exact htrans _ _ _ r1 (ih g1 h1)
  | label_vertex name lbl => exact hattr g _ h (label_vertex_attr_step _ _ _)
  | label_vertex_int name lbl => exact hattr g _ h (label_vertex_int_attr_step _ _ _)

/-- A property of graphs holds of every reachable graph as soon as it holds of the
empty graphs and survives the three elementary changes. -/
theorem reachable_induction (P : graph → Prop) (hnew : ∀ d, P (new d))
    (hv : ∀ g n, names_ok g → blank n = false → g.m_name_to_id.find n = none → P g →
      P (g.with_vertex n))
    (hattr : ∀ g g2, names_ok g → attr_step g g2 → P g → P g2)
    (hedge : ∀ g a b w, names_ok g → blank a = false → blank b = false → P g →
      P (g.add_edge a b w).2) :
    ∀ g, Reachable g → P g := by
  intro g hr
  induction hr with
  | new d => exact hnew d
  | step op hr ih =>
    exact step_rel (fun g1 g2 => P g1 → P g2) (fun _ hp => hp)
      (fun _ _ _ h12 h23 hp => h23 (h12 hp)) hv hattr hedge _ op (reachable_ok hr).1 ih

/-! ## What the elementary changes keep -/

theorem attr_step_getElem? {g g2 : graph} (hs : attr_step g g2) (j : Nat) :
    ∀ v, g.m_vertices[j]? = some v → ∃ u, g2.m_vertices[j]? = some u ∧
      u.m_name = v.m_name ∧ u.m_id = v.m_id ∧ u.m_edges = v.m_edges := by
  intro v hv
  rcases hs with rfl | ⟨i, x, u, hx, hn, hid, he, rfl⟩
  · exact ⟨v, hv, rfl, rfl, rfl⟩
  · have hlt : i < g.m_vertices.length := by
      by_contra hc
      rw [List.getElem?_eq_none (by omega)] at hx; cases hx
    show ∃ u2, (g.m_vertices.set i u)[j]? = some u2 ∧ _
    rw [List.getElem?_set]
    by_cases hij : i = j
    · subst hij
      rw [hx] at hv
      injection hv with hv
      subst hv
      exact ⟨u, by simp [hlt], hn, hid, he⟩
    · exact ⟨v, by simp [hij, hv], rfl, rfl, rfl⟩

theorem attr_step_length {g g2 : graph} (hs : attr_step g g2) :
    g2.m_vertices.length = g.m_vertices.length := by
  rcases hs with rfl | ⟨i, x, u, -, -, -, -, rfl⟩
  · rfl
  · simp

theorem attr_step_directed {g g2 : graph} (hs : attr_step g g2) :
    g2.m_directed = g.m_directed := by
  rcases hs with rfl | ⟨i, x, u, -, -, -, -, rfl⟩ <;> rfl

theorem attr_step_map {g g2 : graph} (hs : attr_step g g2) :
    g2.m_name_to_id = g.m_name_to_id := by
  rcases hs with rfl | ⟨i, x, u, -, -, -, -, rfl⟩ <;> rfl

theorem attr_step_num_edges {g g2 : graph} (hs : attr_step g g2) :
    g2.m_num_edges = g.m_num_edges := by
  rcases hs with rfl | ⟨i, x, u, -, -, -, -, rfl⟩ <;> rfl

theorem attr_step_edges_at {g g2 : graph} (hs : attr_step g g2) (j : Nat) :
    edges_at g2 j = edges_at g j := by
  unfold edges_at
  cases hv : g.m_vertices[j]? with
  | none =>
    have : g2.m_vertices[j]? = none := by
      rw [List.getElem?_eq_none_iff] at hv ⊢
      rw [attr_step_length hs]; exact hv
    rw [this]
  | some v =>
    obtain ⟨u, hu, -, -, he⟩ := attr_step_getElem? hs j v hv
    rw [hu]; exact he

theorem with_vertex_getElem? (g : graph) (n : String) (j : Nat) (v : vertex)
    (hv : g.m_vertices[j]? = some v) : (g.with_vertex n).m_vertices[j]? = some v := by
  have hlt : j < g.m_vertices.length := by
    by_contra hc
    rw [List.getElem?_eq_none (by omega)] at hv; cases hv
  show (g.m_vertices ++ [vertex.new n g.m_vertices.length])[j]? = some v
  rw [List.getElem?_append_left hlt]; exact hv

theorem with_vertex_getElem?_cases (g : graph) (n : String) (j : Nat) (u : vertex)
    (hu : (g.with_vertex n).m_vertices[j]? = some u) :
    g.m_vertices[j]? = some u ∨ (j = g.m_vertices.length ∧ u = vertex.new n g.m_vertices.length) := by
  change (g.m_vertices ++ [vertex.new n g.m_vertices.length])[j]? = some u at hu
  rw [List.getElem?_append] at hu
  by_cases hlt : j < g.m_vertices.length
  · rw [if_pos hlt] at hu; exact Or.inl hu
  · rw [if_neg hlt] at hu
    by_cases h0 : j - g.m_vertices.length = 0
    · rw [h0] at hu
      simp at hu
      exact Or.inr ⟨by omega, hu.symm⟩
    · rw [List.getElem?_eq_none (by simp; omega)] at hu; cases hu

theorem with_vertex_length (g : graph) (n : String) :
    (g.with_vertex n).m_vertices.length = g.m_vertices.length + 1 := by
  simp [with_vertex]

/-- The vertices after a successful `add_edge` are those left by the two
lookup-or-create steps, with their edge lists updated. -/
theorem add_edge_vertices {g : graph} (h : names_ok g) {a b : String} (ha : blank a = false)
    (hb : blank b = false) (w : Int) (j : Nat) :
    ∀ v, ((g.lookup_or_add a).2.lookup_or_add b).2.m_vertices[j]? = some v →
      (g.add_edge a b w).2.m_vertices[j]? =
        some { v with m_edges := edges_at (g.add_edge a b w).2 j } := by
  intro v hv
  obtain ⟨ia, ib, -, -, -, -, heq⟩ := add_edge_eq h ha hb w
  have key : ∃ es, (g.add_edge a b w).2.m_vertices[j]? = some { v with m_edges := es } := by
    rw [heq]
    generalize ((g.lookup_or_add a).2.lookup_or_add b).2 = g2 at *
    simp only
    cases g.m_directed with
    | true =>
      simp only [if_true, with_edge_getElem?, hv, Option.map_some']
      by_cases hj : j = ia
      · exact ⟨_, by rw [if_pos hj]⟩
      · exact ⟨v.m_edges, by rw [if_neg hj]⟩
    | false =>
      simp only [Bool.false_eq_true, if_false, with_edge_getElem?, hv, Option.map_some']
      by_cases hj : j = ia <;> by_cases hj2 : j = ib
      · exact ⟨_, by rw [if_pos hj2, if_pos hj]⟩
      · exact ⟨_, by rw [if_neg hj2, if_pos hj]⟩
      · exact ⟨_, by rw [if_pos hj2, if_neg hj]⟩
      · exact ⟨v.m_edges, by rw [if_neg hj2, if_neg hj]⟩
  obtain ⟨es, hes⟩ := key
  rw [hes]
  simp [edges_at, hes]

theorem lookup_or_add_rel (R : graph → graph → Prop) (hrefl : ∀ g, R g g)
    (hv : ∀ g n, names_ok g → blank n = false → g.m_name_to_id.find n = none →
      R g (g.with_vertex n))
    {g : graph} (h : names_ok g) (a : String) : R g (g.lookup_or_add a).2 := by
  rcases lookup_or_add_snd_cases g a with hg | ⟨hb, hf, hg⟩
  · rw [hg]; exact hrefl g
  · rw [hg]; exact hv g a h hb hf

theorem keeps_refl (g : graph) : keeps g g :=
  ⟨fun _ v hv => ⟨v, hv, rfl, rfl, List.prefix_refl _⟩, fun _ _ hn => hn⟩

theorem keeps_trans (g1 g2 g3 : graph) (h12 : keeps g1 g2) (h23 : keeps g2 g3) :
    keeps g1 g3 := by
  refine ⟨?_, fun n i hn => h23.2 n i (h12.2 n i hn)⟩
  intro i v hv
  obtain ⟨u, hu, hn, hid, he⟩ := h12.1 i v hv
  obtain ⟨x, hx, hn2, hid2, he2⟩ := h23.1 i u hu
  exact ⟨x, hx, hn2.trans hn, hid2.trans hid, he.trans he2⟩

theorem keeps_with_vertex (g : graph) (n : String) (hf : g.m_name_to_id.find n = none) :
    keeps g (g.with_vertex n) :=
  ⟨fun i v hv => ⟨v, with_vertex_getElem? g n i v hv, rfl, rfl, List.prefix_refl _⟩,
    fun k i hk => find_with_vertex_of_find g n k i hf hk⟩

theorem keeps_attr_step {g g2 : graph} (hs : attr_step g g2) : keeps g g2 := by
  refine ⟨?_, fun n i hn => by rw [attr_step_map hs]; exact hn⟩
  intro i v hv
  obtain ⟨u, hu, hn, hid, he⟩ := attr_step_getElem? hs i v hv
  exact ⟨u, hu, hn, hid, by rw [he]⟩

theorem keeps_add_edge {g : graph} (h : names_ok g) {a b : String} (ha : blank a = false)
    (hb : blank b = false) (w : Int) : keeps g (g.add_edge a b w).2 := by
  have k1 : keeps g (g.lookup_or_add a).2 :=
    lookup_or_add_rel keeps keeps_refl (fun g n _ _ hf => keeps_with_vertex g n hf) h a
  have k2 : keeps (g.lookup_or_add a).2 ((g.lookup_or_add a).2.lookup_or_add b).2 :=
    lookup_or_add_rel keeps keeps_refl (fun g n _ _ hf => keeps_with_vertex g n hf)
      (names_ok_lookup_or_add h a) b
  have k12 := keeps_trans _ _ _ k1 k2
  obtain ⟨ia, ib, -, -, -, -, -, hmap, -, hedges⟩ := add_edge_spec h ha hb w
  refine ⟨?_, fun n i hn => by rw [hmap]; exact k12.2 n i hn⟩
  intro i v hv
  obtain ⟨u, hu, hn, hid, -⟩ := k12.1 i v hv
  refine ⟨_, add_edge_vertices h ha hb w i u hu, hn, hid, ?_⟩
  have hev : edges_at g i = v.m_edges := by simp [edges_at, hv]
  show v.m_edges <+: edges_at (g.add_edge a b w).2 i
  rw [hedges i, hev, List.append_assoc]
  exact List.prefix_append _ _

theorem keeps_length {g g2 : graph} (hk : keeps g g2) :
    g.m_vertices.length ≤ g2.m_vertices.length := by
  by_contra hc
  have hlt : g2.m_vertices.length < g.m_vertices.length := by omega
  obtain ⟨u, hu, -⟩ := hk.1 g2.m_vertices.length _ (List.getElem?_eq_getElem hlt)
  rw [List.getElem?_eq_none (Nat.le_refl _)] at hu
  cases hu

/-! ## Ids, edge targets and symmetry -/

theorem ids_ok_with_vertex {g : graph} (h : ids_ok g) (n : String) :
    ids_ok (g.with_vertex n) := by
  intro j u hu
  rcases with_vertex_getElem?_cases g n j u hu with hold | ⟨hj, hnew⟩
  · exact h j u hold
  · rw [hnew, hj]; rfl

theorem ids_ok_attr_step {g g2 : graph} (hs : attr_step g g2) (h : ids_ok g) : ids_ok g2 := by
  intro j u hu
  have hlt : j < g.m_vertices.length := by
    rw [← attr_step_length hs]
    by_contra hc
    rw [List.getElem?_eq_none (by omega)] at hu; cases hu
  obtain ⟨x, hx, -, hid, -⟩ := attr_step_getElem? hs j _ (List.getElem?_eq_getElem hlt)
  rw [hx] at hu
  injection hu with hu
  rw [← hu, hid]
  exact h j _ (List.getElem?_eq_getElem hlt)

theorem ids_ok_add_edge {g : graph} (h : names_ok g) {a b : String} (ha : blank a = false)
    (hb : blank b = false) (w : Int) (hi : ids_ok g) : ids_ok (g.add_edge a b w).2 := by
  have i1 : ids_ok (g.lookup_or_add a).2 :=
    lookup_or_add_rel (fun g1 g2 => ids_ok g1 → ids_ok g2) (fun _ hp => hp)
      (fun g n _ _ _ hp => ids_ok_with_vertex hp n) h a hi
  have i2 : ids_ok ((g.lookup_or_add a).2.lookup_or_add b).2 :=
    lookup_or_add_rel (fun g1 g2 => ids_ok g1 → ids_ok g2) (fun _ hp => hp)
      (fun g n _ _ _ hp => ids_ok_with_vertex hp n) (names_ok_lookup_or_add h a) b i1
  obtain ⟨ia, ib, -, -, -, -, -, -, hlen, -⟩ := add_edge_spec h ha hb w
  intro j u hu
  have hlt : j < ((g.lookup_or_add a).2.lookup_or_add b).2.m_vertices.length := by
    rw [← hlen]
    by_contra hc
    rw [List.getElem?_eq_none (by omega)] at hu; cases hu
  have hx := add_edge_vertices h ha hb w j _ (List.getElem?_eq_getElem hlt)
  rw [hx] at hu
  injection hu with hu
  have := i2 j _ (List.getElem?_eq_getElem hlt)
  rw [← hu]
  exact this

theorem targets_ok_with_vertex {g : graph} (h : targets_ok g) (n : String) :
    targets_ok (g.with_vertex n) := by
  intro i e he
  rw [edges_at_with_vertex] at he
  rw [with_vertex_length]
  exact Nat.lt_succ_of_lt (h i e he)

theorem targets_ok_attr_step {g g2 : graph} (hs : attr_step g g2) (h : targets_ok g) :
    targets_ok g2 := by
  intro i e he
  rw [attr_step_edges_at hs] at he
  rw [attr_step_length hs]
  exact h i e he

theorem targets_ok_add_edge {g : graph} (h : names_ok g) {a b : String} (ha : blank a = false)
    (hb : blank b = false) (w : Int) (ht : targets_ok g) : targets_ok (g.add_edge a b w).2 := by
  have hG := names_ok_add_edge h a b w
  have hlen := keeps_length (keeps_add_edge h ha hb w)
  obtain ⟨ia, ib, -, hfa, hfb, -, -, -, -, hedges⟩ := add_edge_spec h ha hb w
  have hlta := hG.lt_of_find hfa
  have hltb := hG.lt_of_find hfb
  intro i e he
  rw [hedges i] at he
  simp only [List.mem_append] at he
  rcases he with (he | he) | he
  · exact Nat.lt_of_lt_of_le (ht i e he) hlen
  · split at he
    · simp at he; rw [he]; exact hltb
    · simp at he
  · split at he
    · simp at he; rw [he]; exact hlta
    · simp at he

theorem sym_ok_of_edges_at {g g2 : graph} (hd : g2.m_directed = g.m_directed)
    (he : ∀ i, edges_at g2 i = edges_at g i) (h : sym_ok g) : sym_ok g2 := by
  intro hu u v w
  rw [he u, he v]
  exact h (hd ▸ hu) u v w

theorem count_singleton_edge (e x : edge) :
    List.count e [x] = if x = e then 1 else 0 := by
  by_cases hx : x = e
  · subst hx; simp
  · have : ¬ (x == e) = true := by simpa using hx
    simp [List.count_cons, hx, this]

theorem sym_ok_add_edge {g : graph} (h : names_ok g) {a b : String} (ha : blank a = false)
    (hb : blank b = false) (w : Int) (hs : sym_ok g) : sym_ok (g.add_edge a b w).2 := by
  obtain ⟨ia, ib, -, -, -, hdir, -, -, -, hedges⟩ := add_edge_spec h ha hb w
  intro hund u v x
  rw [hdir] at hund
  obtain ⟨s1, s2⟩ := hs hund u v x
  have hcount : ∀ i (e : edge), (edges_at (g.add_edge a b w).2 i).count e =
      (edges_at g i).count e + (if i = ia ∧ (⟨ib, w⟩ : edge) = e then 1 else 0) +
        (if i = ib ∧ (⟨ia, w⟩ : edge) = e then 1 else 0) := by
    intro i e
    rw [hedges i, List.count_append, List.count_append]
    congr 1
    · congr 1
      by_cases hi : i = ia
      · simp only [hi, if_true, true_and, count_singleton_edge]
      · simp [hi]
    · by_cases hi : i = ib
      · simp only [hi, hund, true_and, if_true, count_singleton_edge]
      · simp [hi]
  constructor
  · intro huv
    rw [hcount u, hcount v, s1 huv]
    have e1 : (u = ia ∧ (⟨ib, w⟩ : edge) = ⟨v, x⟩) ↔ (v = ib ∧ (⟨ia, w⟩ : edge) = ⟨u, x⟩) := by
      simp only [edge.mk.injEq]
      constructor
      · rintro ⟨r1, r2, r3⟩; exact ⟨r2.symm, r1.symm, r3⟩
      · rintro ⟨r1, r2, r3⟩; exact ⟨r2.symm, r1.symm, r3⟩
    have e2 : (u = ib ∧ (⟨ia, w⟩ : edge) = ⟨v, x⟩) ↔ (v = ia ∧ (⟨ib, w⟩ : edge) = ⟨u, x⟩) := by
      simp only [edge.mk.injEq]
      constructor
      · rintro ⟨r1, r2, r3⟩; exact ⟨r2.symm, r1.symm, r3⟩
      · rintro ⟨r1, r2, r3⟩; exact ⟨r2.symm, r1.symm, r3⟩
    simp only [e1, e2]
    omega
  · rw [hcount u]
    have e3 : (u = ia ∧ (⟨ib, w⟩ : edge) = ⟨u, x⟩) ↔ (u = ib ∧ (⟨ia, w⟩ : edge) = ⟨u, x⟩) := by
      simp only [edge.mk.injEq]
      constructor
      · rintro ⟨r1, r2, r3⟩; exact ⟨by omega, by omega, r3⟩
      · rintro ⟨r1, r2, r3⟩; exact ⟨by omega, by omega, r3⟩
    simp only [e3]
    obtain ⟨k, hk⟩ := s2
    by_cases hc : u = ib ∧ (⟨ia, w⟩ : edge) = ⟨u, x⟩
    · rw [if_pos hc]
      exact ⟨k + 1, by omega⟩
    · rw [if_neg hc]
      exact ⟨k, by omega⟩

/-- Every reachable graph stores each vertex under its id, points every edge record at
a stored vertex and, when undirected, has a symmetric adjacency. -/
theorem reachable_wf {g : graph} (hr : Reachable g) : ids_ok g ∧ targets_ok g ∧ sym_ok g := by
  refine reachable_induction (fun g => ids_ok g ∧ targets_ok g ∧ sym_ok g) ?_ ?_ ?_ ?_ g hr
  · intro d
    refine ⟨?_, ?_, ?_⟩
    · intro i v hv; simp [new] at hv
    · intro i e he; simp [edges_at, new] at he
    · intro _ u v w; simp [edges_at, new]
  · intro g n _ _ _ ⟨h1, h2, h3⟩
    exact ⟨ids_ok_with_vertex h1 n, targets_ok_with_vertex h2 n,
      sym_ok_of_edges_at (show (g.with_vertex n).m_directed = g.m_directed from rfl)
        (edges_at_with_vertex g n) h3⟩
  · intro g g2 _ hs ⟨h1, h2, h3⟩
    exact ⟨ids_ok_attr_step hs h1, targets_ok_attr_step hs h2,
      sym_ok_of_edges_at (attr_step_directed hs) (attr_step_edges_at hs) h3⟩
  · intro g a b w h ha hb ⟨h1, h2, h3⟩
    exact ⟨ids_ok_add_edge h ha hb w h1, targets_ok_add_edge h ha hb w h2,
      sym_ok_add_edge h ha hb w h3⟩

theorem keeps_step {g : graph} (h : names_ok g) (op : Op) : keeps g (op.run g) :=
  step_rel keeps keeps_refl keeps_trans (fun g n _ _ hf => keeps_with_vertex g n hf)
    (fun _ _ _ hs => keeps_attr_step hs) (fun _ _ _ w h ha hb => keeps_add_edge h ha hb w)
    g op h

theorem find_of_find_id {g : graph} {n : String} {i : Nat} (h : g.find_id n = .ok i) :
    g.m_name_to_id.find n = some i := by
  unfold find_id at h
  cases hf : g.m_name_to_id.find n with
  | none => rw [hf] at h; cases h
  | some j => rw [hf] at h; injection h with h; rw [h]

/-- C17: in every reachable graph the id of each vertex is its position in
`vertices()`; whatever call is made next (successful or not), every vertex is still
stored at its index with the same name and id, its edge list before the call is a
prefix of its edge list after it, and `find_id` returns the same index as before for
every name it resolved before. -/
theorem vertex_identity (g : graph) (hr : Reachable g) :
    (∀ (i : Nat) (v : vertex), g.vertices[i]? = some v → v.m_id = i) ∧
    ∀ op : Op,
      (∀ (i : Nat) (v : vertex), g.vertices[i]? = some v →
        ∃ u : vertex, (op.run g).vertices[i]? = some u ∧ u.name = v.name ∧
          u.m_id = v.m_id ∧ v.edges <+: u.edges) ∧
      (∀ n i, g.find_id n = .ok i → (op.run g).find_id n = .ok i) := by
  refine ⟨(reachable_wf hr).1, ?_⟩
  intro op
  have hk := keeps_step (reachable_ok hr).1 op
  exact ⟨hk.1, fun n i hn => find_id_of_find (hk.2 n i (find_of_find_id hn))⟩

/-- Witness for C17: the graph left by `add_edge("x", "y", 1)` on the empty undirected
graph. -/
theorem vertex_identity_witness :
    (∀ (i : Nat) (v : vertex), ((new false).add_edge "x" "y" 1).2.vertices[i]? = some v →
      v.m_id = i) ∧
    ∀ op : Op,
      (∀ (i : Nat) (v : vertex), ((new false).add_edge "x" "y" 1).2.vertices[i]? = some v →
        ∃ u : vertex, (op.run ((new false).add_edge "x" "y" 1).2).vertices[i]? = some u ∧
          u.name = v.name ∧ u.m_id = v.m_id ∧ v.edges <+: u.edges) ∧
      (∀ n i, ((new false).add_edge "x" "y" 1).2.find_id n = .ok i →
        (op.run ((new false).add_edge "x" "y" 1).2).find_id n = .ok i) :=
  vertex_identity _ (Reachable.step (Op.add_edge "x" "y" 1) (Reachable.new false))

theorem reachable_foldl (ops : List Op) : ∀ g, Reachable g →
    Reachable (ops.foldl (fun g op => op.run g) g) := by
  induction ops with
  | nil => intro g hg; exact hg
  | cons op rest ih => intro g hg; exact ih _ (Reachable.step op hg)

theorem directed_step {g : graph} (h : names_ok g) (op : Op) :
    (op.run g).m_directed = g.m_directed :=
  step_rel (fun g1 g2 => g2.m_directed = g1.m_directed) (fun _ => rfl)
    (fun _ _ _ h12 h23 => h23.trans h12) (fun _ _ _ _ _ => rfl)
    (fun _ _ _ hs => attr_step_directed hs)
    (fun g a b w h ha hb => by
      obtain ⟨ia, ib, -, -, -, hd, -⟩ := add_edge_spec h ha hb w
      exact hd) g op h

theorem directed_foldl (ops : List Op) : ∀ g, Reachable g →
    (ops.foldl (fun g op => op.run g) g).m_directed = g.m_directed := by
  induction ops with
  | nil => intro g _; rfl
  | cons op rest ih =>
    intro g hg
    exact (ih _ (Reachable.step op hg)).trans (directed_step (reachable_ok hg).1 op)

/-- C16: in the graph left by any sequence of calls on `new(false)`, for all stored
vertices `u`, `v` and every weight `w`, the records `(v, w)` in the edge list of `u` are
as many as the records `(u, w)` in the edge list of `v` when `u` differs from `v`, and
the number of self-loop records `(u, w)` in the edge list of `u` is even. -/
theorem undirected_symmetric (ops : List Op) (u v : Nat) (w : Int) :
    (ops.foldl (fun g op => op.run g) (new false)).is_directed = false ∧
    (u ≠ v →
      (edges_at (ops.foldl (fun g op => op.run g) (new false)) u).count ⟨v, w⟩ =
        (edges_at (ops.foldl (fun g op => op.run g) (new false)) v).count ⟨u, w⟩) ∧
    Even ((edges_at (ops.foldl (fun g op => op.run g) (new false)) u).count ⟨u, w⟩) := by
  have hr := reachable_foldl ops _ (Reachable.new false)
  have hd := directed_foldl ops _ (Reachable.new false)
  exact ⟨hd, (reachable_wf hr).2.2 hd u v w⟩

/-! ## The loader and the generators build reachable graphs -/

/-- C11 does not hold of the code: the header is compared with literals that end in a
carriage return, so a text whose first line is exactly `directed` or `undirected`
(lines separated by a line feed alone) is rejected with the malformed-header error;
the same content with carriage-return/line-feed line ends loads as the claim says. -/
theorem load_rejects_plain_header :
    load (some "undirected\nx y 5\n") = .error .MalformedHeader ∧
    load (some "directed\nx y 5\n") = .error .MalformedHeader ∧
    load (some "directed") = .error .MalformedHeader ∧
    (∃ g, load (some "undirected\r\nx y 5\r\n") = .ok g ∧ g.is_directed = false ∧
      g.vertices.map vertex.name = ["x", "y"] ∧ g.num_edges = 1 ∧
      g.vertices.map vertex.edges = [[⟨1, 5⟩], [⟨0, 5⟩]]) :=
  ⟨rfl, rfl, rfl, _, rfl, rfl, rfl, rfl, rfl⟩

theorem returned_ok {α : Type} {r : Except Error α × graph} {g : graph}
    (h : returned r = .ok g) : g = r.2 := by
  rcases r with ⟨_ | _, g1⟩
  · cases h
  · injection h with h; exact h.symm

theorem and_then_preserves {α : Type} (P : graph → Prop) (r : Except Error α × graph)
    (next : graph → Except Error Unit × graph) (hr : P r.2)
    (hnext : ∀ g, P g → P (next g).2) : P (and_then r next).2 := by
  rcases r with ⟨_ | _, g1⟩
  · exact hr
  · exact hnext g1 hr

theorem reachable_add_vertex {g : graph} (h : Reachable g) (n : String) :
    Reachable (g.add_vertex n).2 :=
  Reachable.step (Op.add_vertex n) h

theorem reachable_add_edge {g : graph} (h : Reachable g) (a b : String) (w : Int) :
    Reachable (g.add_edge a b w).2 :=
  Reachable.step (Op.add_edge a b w) h

theorem reachable_chain {n : Nat} {g : graph} (h : chain n = .ok g) : Reachable g := by
  unfold chain at h
  rw [returned_ok h]
  refine and_then_preserves Reachable _ _ (reachable_add_vertex (Reachable.new true) _) ?_
  intro g1 hg1
  refine for_each_preserves Reachable _ ?_ _ _ hg1
  intro g2 i hg2
  exact and_then_preserves Reachable _ _ (reachable_add_vertex hg2 _)
    (fun g3 hg3 => reachable_add_edge hg3 _ _ _)

theorem reachable_grid {n : Nat} {g : graph} (h : grid n = .ok g) : Reachable g := by
  rw [grid_eq] at h
  injection h with h
  rw [← h]
  exact reachable_plain_grid n

theorem reachable_add_vertex_if_absent {g : graph} (h : Reachable g) (n : String) :
    Reachable (g.add_vertex_if_absent n).2 := by
  unfold add_vertex_if_absent
  split
  · exact and_then_preserves Reachable _ _ (reachable_add_vertex h _) (fun _ hg => hg)
  · exact h

theorem reachable_load_line {g : graph} (h : Reachable g) (line : List Char) :
    Reachable (load_line g line).2 := by
  unfold load_line
  split
  · exact h
  · split
    · exact h
    · refine and_then_preserves Reachable _ _ (reachable_add_vertex_if_absent h _) ?_
      intro g1 hg1
      exact and_then_preserves Reachable _ _ (reachable_add_vertex_if_absent hg1 _)
        (fun g2 hg2 => reachable_add_edge hg2 _ _ _)

theorem reachable_load {file : Option String} {g : graph} (h : load file = .ok g) :
    Reachable g := by
  unfold load at h
  cases file with
  | none => cases h
  | some text =>
    simp only at h
    split at h
    · rw [returned_ok h]
      exact for_each_preserves Reachable _ (fun g l hg => reachable_load_line hg l) _ _
        (Reachable.new true)
    · split at h
      · rw [returned_ok h]
        exact for_each_preserves Reachable _ (fun g l hg => reachable_load_line hg l) _ _
          (Reachable.new false)
      · cases h

theorem in_range_of_reachable {g : graph} (hr : Reachable g) : in_range g := by
  have h := (reachable_ok hr).1
  have ht := (reachable_wf hr).2.1
  refine ⟨?_, ?_, ?_, ?_, ?_, ?_⟩
  · intro v hv e he
    obtain ⟨i, hi⟩ := List.mem_iff_getElem?.mp hv
    change g.m_vertices[i]? = some v at hi
    have hlt : e.m_target < g.m_vertices.length :=
      ht i e (by simpa [edges_at, hi] using he)
    exact ⟨hlt, g.m_vertices[e.m_target], by
      simp [edge.target, List.getElem?_eq_getElem hlt]⟩
  · intro a b w
    rcases add_edge_cases h a b w with ⟨-, -, hok⟩ | ⟨-, heq⟩ | ⟨-, -, heq⟩
    · rw [hok]; intro hc; cases hc
    · rw [heq]; intro hc; cases hc
    · rw [heq]; intro hc; cases hc
  · intro n
    cases hf : g.m_name_to_id.find n with
    | none => simp [find_vertex, find_id, hf]
    | some i =>
      obtain ⟨v, hv, -⟩ := find_vertex_of_find h hf
      rw [hv]; intro hc; cases hc
  · intro n c
    cases hf : g.m_name_to_id.find n with
    | none => simp [colour_vertex, find_id, hf]
    | some i =>
      obtain ⟨v, hv, -⟩ := h.getElem_of_find hf
      rw [colour_vertex_of_find hf hv]; intro hc; cases hc
  · intro n l
    cases hf : g.m_name_to_id.find n with
    | none => simp [label_vertex, find_id, hf]
    | some i =>
      obtain ⟨v, hv, -⟩ := h.getElem_of_find hf
      rw [label_vertex_of_find hf hv]; intro hc; cases hc
  · intro n l
    cases hf : g.m_name_to_id.find n with
    | none => simp [label_vertex_int, find_id, hf]
    | some i =>
      obtain ⟨v, hv, -⟩ := h.getElem_of_find hf
      rw [label_vertex_int_of_find hf hv]; intro hc; cases hc

/-- C18: in the graph left by any sequence of calls on a new graph, and in every graph
returned by `chain`, `grid` and `load`, every edge record's target index is below
`num_vertices()`, so `edge::target` resolves to a stored vertex and the indexing inside
`add_edge`, `find_vertex`, `colour_vertex` and `label_vertex` stays in range for all
arguments. -/
theorem targets_in_range :
    (∀ (is_directed : Bool) (ops : List Op),
      in_range (ops.foldl (fun g op => op.run g) (new is_directed))) ∧
    (∀ n g, chain n = .ok g → in_range g) ∧
    (∀ n g, grid n = .ok g → in_range g) ∧
    (∀ file g, load file = .ok g → in_range g) :=
  ⟨fun d ops => in_range_of_reachable (reachable_foldl ops _ (Reachable.new d)),
    fun _ _ h => in_range_of_reachable (reachable_chain h),
    fun _ _ h => in_range_of_reachable (reachable_grid h),
    fun _ _ h => in_range_of_reachable (reachable_load h)⟩

/-! ## The edge section of `to_dot` -/

theorem line_of_eq {g : graph} {src : String} {e : edge} {t : vertex}
    (ht : g.m_vertices[e.m_target]? = some t) :
    line_of g src e =
      if g.m_directed || string_lt src t.m_name then some (dot_edge_line src t.m_name)
      else none := by
  simp [line_of, ht]

theorem dot_edges_of_eq (g : graph) (v : vertex) : ∀ es : List edge,
    (∀ e ∈ es, e.m_target < g.m_vertices.length) →
    dot_edges_of g v es = .ok (es.filterMap (line_of g v.m_name)) := by
  intro es
  induction es with
  | nil => intro _; rfl
  | cons e rest ih =>
    intro h
    have hlt := h e (List.mem_cons_self _ _)
    have ht : g.m_vertices[e.m_target]? = some g.m_vertices[e.m_target] :=
      List.getElem?_eq_getElem hlt
    have ih2 := ih (fun x hx => h x (List.mem_cons_of_mem _ hx))
    simp only [dot_edges_of, edge.target, ht, ih2, List.filterMap_cons, line_of_eq ht,
      vertex.name]
    split <;> rfl

theorem dot_edges_eq (g : graph) : ∀ vs : List vertex,
    (∀ v ∈ vs, ∀ e ∈ v.m_edges, e.m_target < g.m_vertices.length) →
    dot_edges g vs = .ok (vs.flatMap fun v => v.m_edges.filterMap (line_of g v.m_name)) := by
  intro vs
  induction vs with
  | nil => intro _; rfl
  | cons v rest ih =>
    intro h
    simp only [dot_edges, dot_edges_of_eq g v v.m_edges (h v (List.mem_cons_self _ _)),
      ih (fun x hx => h x (List.mem_cons_of_mem _ hx)), List.flatMap_cons]

theorem flatMap_eq_range {β : Type} (F : vertex → List β) (l : List vertex) :
    l.flatMap F = (List.range l.length).flatMap fun i =>
      match l[i]? with
      | some v => F v
      | none => [] := by
  induction l using List.reverseRecOn with
  | nil => rfl
  | append_singleton init x ih =>
    rw [List.flatMap_append, List.length_append, List.length_singleton, List.range_succ,
      List.flatMap_append, List.flatMap_singleton, List.flatMap_singleton, ih]
    congr 1
    · apply List.flatMap_congr
      intro i hi
      rw [List.mem_range] at hi
      rw [List.getElem?_append_left hi]
    · simp

theorem dot_edges_range {g : graph} (ht : targets_ok g) :
    dot_edges g g.m_vertices = .ok ((List.range g.m_vertices.length).flatMap (lines_at g)) := by
  rw [dot_edges_eq g g.m_vertices, flatMap_eq_range]
  · rfl
  · intro v hv e he
    obtain ⟨i, hi⟩ := List.mem_iff_getElem?.mp hv
    exact ht i e (by simpa [edges_at, hi] using he)

theorem flatMap_range_extend {β : Type} (F : Nat → List β) (n : Nat)
    (hF : ∀ i, n ≤ i → F i = []) : ∀ m, n ≤ m →
    (List.range m).flatMap F = (List.range n).flatMap F := by
  intro m
  induction m with
  | zero => intro h; rw [Nat.le_zero.mp h]
  | succ m ih =>
    intro h
    by_cases hm : n = m + 1
    · rw [hm]
    · rw [List.range_succ, List.flatMap_append, List.flatMap_singleton, hF m (by omega),
        List.append_nil]
      exact ih (by omega)

theorem flatMap_range_single {β : Type} (x : β) (i0 : Nat) : ∀ m, i0 < m →
    (List.range m).flatMap (fun i => if i = i0 then [x] else []) = [x] := by
  intro m
  induction m with
  | zero => intro h; omega
  | succ m ih =>
    intro h
    rw [List.range_succ, List.flatMap_append, List.flatMap_singleton]
    by_cases hm : m = i0
    · subst hm
      have hall : ∀ i ∈ List.range m, (if i = m then [x] else []) = ([] : List β) := by
        intro i hi
        rw [List.mem_range] at hi
        have : ¬ i = m := by omega
        simp [this]
      rw [List.flatMap_congr hall]; simp
    · rw [ih (by omega)]
      simp [hm]

theorem flatMap_range_nil {β : Type} (m : Nat) :
    (List.range m).flatMap (fun _ => ([] : List β)) = [] := by
  simp

theorem string_lt_irrefl (a : String) : string_lt a a = false := by
  simp [string_lt]

theorem string_lt_asymm {a b : String} (h : string_lt a b = true) : string_lt b a = false := by
  unfold string_lt at *
  have h1 : a.data < b.data := by simpa using h
  have h2 : ¬ b.data < a.data := lt_asymm h1
  simpa using h2

theorem string_lt_total {a b : String} (h : a ≠ b) :
    string_lt a b = true ∨ string_lt b a = true := by
  unfold string_lt
  have hne : a.data ≠ b.data := fun hc => h (String.ext hc)
  rcases lt_or_gt_of_ne hne with h1 | h1
  · left; simpa using h1
  · right; simpa using h1

theorem lines_at_of_none {g : graph} {i : Nat} (h : g.m_vertices[i]? = none) :
    lines_at g i = [] := by
  simp [lines_at, h]

theorem lines_at_of_some {g : graph} {i : Nat} {v : vertex} (h : g.m_vertices[i]? = some v) :
    lines_at g i = (edges_at g i).filterMap (line_of g v.m_name) := by
  simp [lines_at, edges_at, h]

/-- The edge lines of the records at index `i` after a successful `add_edge(a, b, w)` on
an undirected graph: the lines before, then the line `a -> b` at the index of `a` when
`a < b`, and the line `b -> a` at the index of `b` when `b < a`. -/
theorem lines_at_add_edge {g : graph} (h : names_ok g) (ht : targets_ok g)
    (hd : g.m_directed = false) {a b : String} (ha : blank a = false) (hb : blank b = false)
    (w : Int) :
    ∃ ia ib, ia < (g.add_edge a b w).2.m_vertices.length ∧
      ib < (g.add_edge a b w).2.m_vertices.length ∧
      ∀ i, lines_at (g.add_edge a b w).2 i = lines_at g i ++
        ((if i = ia ∧ string_lt a b = true then [dot_edge_line a b] else []) ++
          (if i = ib ∧ string_lt b a = true then [dot_edge_line b a] else [])) := by
  have hG := names_ok_add_edge h a b w
  have hk := keeps_add_edge h ha hb w
  have hlen := keeps_length hk
  obtain ⟨ia, ib, -, hfa, hfb, hdir, -, -, -, hedges⟩ := add_edge_spec h ha hb w
  have hlta := hG.lt_of_find hfa
  have hltb := hG.lt_of_find hfb
  obtain ⟨va, hva, hna⟩ := hG.getElem_of_find hfa
  obtain ⟨vb, hvb, hnb⟩ := hG.getElem_of_find hfb
  have hdG : (g.add_edge a b w).2.m_directed = false := hdir.trans hd
  refine ⟨ia, ib, hlta, hltb, ?_⟩
  intro i
  cases hu : (g.add_edge a b w).2.m_vertices[i]? with
  | none =>
    have hge : (g.add_edge a b w).2.m_vertices.length ≤ i := List.getElem?_eq_none_iff.mp hu
    have hgn : g.m_vertices[i]? = none := List.getElem?_eq_none (by omega)
    have h1 : ¬ i = ia := by omega
    have h2 : ¬ i = ib := by omega
    simp [lines_at_of_none hu, lines_at_of_none hgn, h1, h2]
  | some u =>
    rw [lines_at_of_some hu, hedges i]
    simp only [hd, true_and, List.filterMap_append]
    have hold : (edges_at g i).filterMap (line_of (g.add_edge a b w).2 u.m_name) =
        lines_at g i := by
      cases hv : g.m_vertices[i]? with
      | none => simp [lines_at_of_none hv, edges_at, hv]
      | some v =>
        obtain ⟨u2, hu2, hn, -, -⟩ := hk.1 i v hv
        rw [hu] at hu2
        injection hu2 with hu2
        subst hu2
        rw [lines_at_of_some hv, hn]
        apply List.filterMap_congr
        intro e he
        have hlt := ht i e he
        obtain ⟨x, hx, hxn, -, -⟩ := hk.1 e.m_target _ (List.getElem?_eq_getElem hlt)
        rw [line_of_eq hx, line_of_eq (List.getElem?_eq_getElem hlt), hxn, hdG, hd]
    rw [hold, List.append_assoc]
    congr 1
    congr 1
    · by_cases hi : i = ia
      · subst hi
        rw [hva] at hu
        injection hu with hu
        subst hu
        have hl : line_of (g.add_edge a b w).2 va.m_name ⟨ib, w⟩ =
            if string_lt a b then some (dot_edge_line a b) else none := by
          rw [line_of_eq (e := ⟨ib, w⟩) hvb, hdG, hna, hnb]; simp
        simp only [if_true, true_and, List.filterMap_cons, hl, List.filterMap_nil]
        cases string_lt a b <;> simp
      · simp [hi]
    · by_cases hi : i = ib
      · subst hi
        rw [hvb] at hu
        injection hu with hu
        subst hu
        have hl : line_of (g.add_edge a b w).2 vb.m_name ⟨ia, w⟩ =
            if string_lt b a then some (dot_edge_line b a) else none := by
          rw [line_of_eq (e := ⟨ia, w⟩) hva, hdG, hna, hnb]; simp
        simp only [if_true, true_and, List.filterMap_cons, hl, List.filterMap_nil]
        cases string_lt b a <;> simp
      · simp [hi]

theorem filterMap_length_of_isSome {α β : Type} (f : α → Option β) : ∀ l : List α,
    (∀ x ∈ l, (f x).isSome = true) → (l.filterMap f).length = l.length := by
  intro l
  induction l with
  | nil => intro _; rfl
  | cons x rest ih =>
    intro h
    have hx := h x (List.mem_cons_self _ _)
    cases hfx : f x with
    | none => rw [hfx] at hx; cases hx
    | some y =>
      rw [List.filterMap_cons, hfx]
      simp [ih (fun z hz => h z (List.mem_cons_of_mem _ hz))]

theorem dot_edges_add_edge {g : graph} (h : names_ok g) (ht : targets_ok g)
    (hd : g.m_directed = false) {a b : String} (ha : blank a = false) (hb : blank b = false)
    (w : Int) :
    ∃ ls ls2, dot_edges g g.m_vertices = .ok ls ∧
      dot_edges (g.add_edge a b w).2 (g.add_edge a b w).2.m_vertices = .ok ls2 ∧
      (a ≠ b → ls2.Perm
        ((if a.data < b.data then dot_edge_line a b else dot_edge_line b a) :: ls)) ∧
      (a = b → ls2 = ls) := by
  have htG := targets_ok_add_edge h ha hb w ht
  have hlen := keeps_length (keeps_add_edge h ha hb w)
  obtain ⟨ia, ib, hlta, hltb, hlines⟩ := lines_at_add_edge h ht hd ha hb w
  refine ⟨_, _, dot_edges_range ht, dot_edges_range htG, ?_, ?_⟩
  · intro hab
    rw [← flatMap_range_extend (lines_at g) g.m_vertices.length
      (fun i hi => lines_at_of_none (List.getElem?_eq_none hi)) _ hlen]
    rw [List.flatMap_congr (fun i _ => hlines i)]
    refine (List.flatMap_append_perm _ _ _).symm.trans ?_
    rcases string_lt_total hab with hlt | hlt
    · have hlt2 := string_lt_asymm hlt
      have hdata : a.data < b.data := by simpa [string_lt] using hlt
      simp only [hlt, hlt2, and_true, Bool.false_eq_true, and_false, if_false, List.append_nil,
        hdata, if_true]
      rw [flatMap_range_single _ ia _ hlta]
      exact List.perm_append_singleton _ _
    · have hlt2 := string_lt_asymm hlt
      have hdata : ¬ a.data < b.data := by simpa [string_lt] using hlt2
      simp only [hlt, hlt2, and_true, Bool.false_eq_true, and_false, if_false, List.nil_append,
        hdata]
      rw [flatMap_range_single _ ib _ hltb]
      exact List.perm_append_singleton _ _
  · intro hab
    subst hab
    rw [← flatMap_range_extend (lines_at g) g.m_vertices.length
      (fun i hi => lines_at_of_none (List.getElem?_eq_none hi)) _ hlen]
    apply List.flatMap_congr
    intro i _
    rw [hlines i]
    simp [string_lt_irrefl]

/-- C12: on a reachable graph `to_dot` writes, after the header and the vertex lines,
the line setting `dir = forward` (directed) or `dir = none` (undirected) and then, vertex
by vertex and record by record, for a stored record from `u` to `v` the line made of a
tab, the name of `u`, " -> ", the name of `v`, ";" and the line end, exactly when the
graph is directed or the name of `u` is strictly less than the name of `v`.  So a
directed graph gets one line per stored record; on an undirected graph an `add_edge`
between two distinct names adds exactly one line (from the smaller name to the larger)
and a self-loop adds none; the undirected graph built by `add_edge("x", "y", w)` has the
single edge line `x -> y;`, and the undirected graph built by
`add_edge("beta", "alpha", 3)` and `add_edge("alpha", "alpha", 1)` has the single edge
line `alpha -> beta;`. -/
theorem to_dot_edge_section (g : graph) (hr : Reachable g) :
    (∃ ls, dot_edges g g.vertices = .ok ls ∧
      to_dot g true = .ok (true, dot_head g ++ dot_edge_header g ++ String.join ls ++ "\x7d\n") ∧
      ls = g.vertices.flatMap (fun v => v.edges.filterMap (line_of g v.name)) ∧
      (g.is_directed = true → ls.length = g.total_records)) ∧
    dot_edge_header g =
      (if g.is_directed = true then "\n\tedge[dir = forward];\n" else "\n\tedge[dir = none];\n") ∧
    (∀ v ∈ g.vertices, ∀ e ∈ v.edges, ∃ t, e.target g = .ok t ∧
      line_of g v.name e =
        if g.is_directed = true ∨ v.name.data < t.name.data then
          some ("\t" ++ v.name ++ " -> " ++ t.name ++ ";\n")
        else none) ∧
    (g.is_directed = false → ∀ (a b : String) (w : Int), blank a = false → blank b = false →
      ∃ ls ls2, dot_edges g g.vertices = .ok ls ∧
        dot_edges (g.add_edge a b w).2 (g.add_edge a b w).2.vertices = .ok ls2 ∧
        (a ≠ b → ls2.Perm
          ((if a.data < b.data then "\t" ++ a ++ " -> " ++ b ++ ";\n"
            else "\t" ++ b ++ " -> " ++ a ++ ";\n") :: ls)) ∧
        (a = b → ls2 = ls)) ∧
    (∀ w : Int, dot_edges ((new false).add_edge "x" "y" w).2
      ((new false).add_edge "x" "y" w).2.vertices = .ok ["\tx -> y;\n"]) ∧
    dot_edges (((new false).add_edge "beta" "alpha" 3).2.add_edge "alpha" "alpha" 1).2
      (((new false).add_edge "beta" "alpha" 3).2.add_edge "alpha" "alpha" 1).2.vertices =
        .ok ["\talpha -> beta;\n"] ∧
    to_dot ((((new true).add_edge "p" "q" 7).2.colour_vertex "p" "red").2.colour_vertex
        "q" "blue").2 true = .ok (true,
      "digraph g \x7b\n\trankdir = LR;\tnode[shape=oval style=filled];\n" ++
      "\tp[name=\"p\", fillcolor=\"red\"];\n" ++
      "\tq[name=\"q\", fillcolor=\"blue\"];\n" ++
      "\n\tedge[dir = forward];\n" ++ "\tp -> q;\n" ++ "\x7d\n") := by
  have h := (reachable_ok hr).1
  have ht := (reachable_wf hr).2.1
  have hall : ∀ v ∈ g.m_vertices, ∀ e ∈ v.m_edges, e.m_target < g.m_vertices.length := by
    intro v hv e he
    obtain ⟨i, hi⟩ := List.mem_iff_getElem?.mp hv
    exact ht i e (by simpa [edges_at, hi] using he)
  have hls := dot_edges_eq g g.m_vertices hall
  unfold vertices is_directed
  refine ⟨⟨_, hls, ?_, rfl, ?_⟩, ?_, ?_, ?_, ?_, rfl, rfl⟩
  · simp [to_dot, dot_text, hls]
  · intro hdir
    rw [List.length_flatMap]
    unfold total_records
    congr 1
    apply List.map_congr_left
    intro v hv
    apply filterMap_length_of_isSome
    intro e he
    have hlt := hall v hv e he
    rw [line_of_eq (List.getElem?_eq_getElem hlt), hdir]
    rfl
  · unfold dot_edge_header
    cases g.m_directed <;> rfl
  · intro v hv e he
    have hlt := hall v hv e he
    refine ⟨g.m_vertices[e.m_target], by simp [edge.target, List.getElem?_eq_getElem hlt], ?_⟩
    rw [line_of_eq (List.getElem?_eq_getElem hlt)]
    cases g.m_directed <;> simp [string_lt, vertex.name, dot_edge_line]
  · intro hd a b w ha hb
    exact dot_edges_add_edge h ht hd ha hb w
  · intro w; rfl

/-- Witness for C12: the undirected graph with the one edge x - y. -/
theorem to_dot_edge_section_witness :
    dot_edges ((new false).add_edge "x" "y" 5).2
      ((new false).add_edge "x" "y" 5).2.vertices = .ok ["\tx -> y;\n"] :=
  (to_dot_edge_section ((new false).add_edge "x" "y" 5).2
    (Reachable.step (Op.add_edge "x" "y" 5) (Reachable.new false))).2.2.2.2.1 5

/-! ## The copy assignment -/

theorem contains_iff_find {m : name_map} {k : String} :
    m.contains k = true ↔ ∃ i, m.find k = some i := by
  unfold name_map.contains
  cases m.find k <;> simp

theorem contains_with_vertex (g : graph) (n name : String)
    (hf : g.m_name_to_id.find n = none) :
    (g.with_vertex n).m_name_to_id.contains name = true ↔
      (g.m_name_to_id.contains name = true ∨ name = n) := by
  rw [contains_iff_find, contains_iff_find]
  by_cases hn : name = n
  · subst hn
    simp [find_with_vertex_self g name hf]
  · rw [find_with_vertex_other g n name hn]
    simp [hn]

theorem contains_lookup_or_add (g : graph) {a : String} (ha : blank a = false) (name : String) :
    (g.lookup_or_add a).2.m_name_to_id.contains name = true ↔
      (g.m_name_to_id.contains name = true ∨ name = a) := by
  obtain ⟨ia, -, hcase⟩ := lookup_or_add_spec g ha
  rcases hcase with ⟨hf, hg⟩ | ⟨hf, -, hg⟩
  · rw [hg]
    constructor
    · intro h; exact Or.inl h
    · rintro (h | rfl)
      · exact h
      · exact contains_eq_true_of_find hf
  · rw [hg]; exact contains_with_vertex g a name hf

theorem contains_add_edge {g : graph} (h : names_ok g) {a b : String} (ha : blank a = false)
    (hb : blank b = false) (w : Int) (name : String) :
    (g.add_edge a b w).2.m_name_to_id.contains name = true ↔
      (g.m_name_to_id.contains name = true ∨ name = a ∨ name = b) := by
  obtain ⟨ia, ib, -, -, -, -, -, hmap, -, -⟩ := add_edge_spec h ha hb w
  rw [hmap, contains_lookup_or_add _ hb, contains_lookup_or_add _ ha, or_assoc]

theorem lookup_or_add_getElem? (g : graph) (a : String) (i : Nat) (v : vertex)
    (hv : g.m_vertices[i]? = some v) : (g.lookup_or_add a).2.m_vertices[i]? = some v := by
  rcases lookup_or_add_snd_cases g a with hg | ⟨-, -, hg⟩
  · rw [hg]; exact hv
  · rw [hg]; exact with_vertex_getElem? g a i v hv

/-- A successful `add_edge` changes nothing but the edge list of a vertex stored
before. -/
theorem add_edge_getElem? {g : graph} (h : names_ok g) {a b : String} (ha : blank a = false)
    (hb : blank b = false) (w : Int) (i : Nat) (v : vertex) (hv : g.m_vertices[i]? = some v) :
    (g.add_edge a b w).2.m_vertices[i]? =
      some { v with m_edges := edges_at (g.add_edge a b w).2 i } :=
  add_edge_vertices h ha hb w i v
    (lookup_or_add_getElem? _ b i v (lookup_or_add_getElem? g a i v hv))

theorem name_at_of_getElem? {g : graph} {t : Nat} {v : vertex} (h : g.m_vertices[t]? = some v) :
    name_at g t = v.m_name := by
  simp [name_at, h]

theorem name_at_keeps {g g2 : graph} (hk : keeps g g2) {t : Nat}
    (ht : t < g.m_vertices.length) : name_at g2 t = name_at g t := by
  obtain ⟨u, hu, hn, -, -⟩ := hk.1 t _ (List.getElem?_eq_getElem ht)
  rw [name_at_of_getElem? hu, name_at_of_getElem? (List.getElem?_eq_getElem ht), hn]

theorem names_ok.find_name_at {g : graph} (h : names_ok g) {n : String} {i : Nat}
    (hf : g.m_name_to_id.find n = some i) : name_at g i = n := by
  obtain ⟨v, hv, hn⟩ := h.getElem_of_find hf
  rw [name_at_of_getElem? hv, hn]

theorem names_ok.find_of_name_at {g : graph} (h : names_ok g) {i : Nat}
    (hi : i < g.m_vertices.length) : g.m_name_to_id.find (name_at g i) = some i := by
  rw [h.find_iff, List.getElem?_eq_getElem hi, name_at_of_getElem? (List.getElem?_eq_getElem hi)]
  rfl

/-- The records by name after a successful `add_edge(a, b, w)` on a directed graph: the
pair `(b, w)` is appended to the records of `a`, nothing else changes. -/
theorem named_records_add_edge {g : graph} (h : names_ok g) (ht : targets_ok g)
    (hd : g.m_directed = true) {a b : String} (ha : blank a = false) (hb : blank b = false)
    (w : Int) (name : String) :
    named_records (g.add_edge a b w).2 name =
      named_records g name ++ (if name = a then [(b, w)] else []) := by
  have hG := names_ok_add_edge h a b w
  have hk := keeps_add_edge h ha hb w
  obtain ⟨ia, ib, -, hfa, hfb, -, -, -, -, hedges⟩ := add_edge_spec h ha hb w
  cases hf : (g.add_edge a b w).2.m_name_to_id.find name with
  | none =>
    have hfg : g.m_name_to_id.find name = none := by
      cases hc : g.m_name_to_id.find name with
      | none => rfl
      | some i => rw [hk.2 name i hc] at hf; cases hf
    have hne : ¬ name = a := by
      rintro rfl; rw [hfa] at hf; cases hf
    simp [named_records, hf, hfg, hne]
  | some i =>
    have hold : (edges_at g i).map
        (fun e => (name_at (g.add_edge a b w).2 e.m_target, e.m_weight)) =
        named_records g name := by
      cases hc : g.m_name_to_id.find name with
      | some j =>
        have hij : j = i := by
          have := hk.2 name j hc
          rw [hf] at this; injection this with this; exact this.symm
        subst hij
        simp only [named_records, hc]
        apply List.map_congr_left
        intro e he
        rw [name_at_keeps hk (ht j e he)]
      | none =>
        have hge : g.m_vertices.length ≤ i := by
          by_contra hlt
          have hlt2 : i < g.m_vertices.length := by omega
          have e1 := name_at_keeps hk hlt2
          rw [hG.find_name_at hf] at e1
          have := h.find_of_name_at hlt2
          rw [← e1, hc] at this; cases this
        have : edges_at g i = [] := by
          simp [edges_at, List.getElem?_eq_none hge]
        simp [named_records, hc, this]
    have hiff : i = ia ↔ name = a := by
      constructor
      · intro hi
        have e1 := hG.find_name_at hf
        have e2 := hG.find_name_at hfa
        rw [hi] at e1
        exact e1.symm.trans e2
      · intro hn
        rw [hn, hfa] at hf; injection hf with hf; exact hf.symm
    simp only [named_records, hf, hedges i, hd, List.map_append, hold]
    by_cases hn : name = a
    · have hi := hiff.mpr hn
      simp [hn, hi, hG.find_name_at hfb]
    · have hi : ¬ i = ia := fun hc => hn (hiff.mp hc)
      simp [hn, hi]

/-- The colour and label of a vertex stored before a successful `add_edge` are as
before. -/
theorem look_of_add_edge {g : graph} (h : names_ok g) {a b : String} (ha : blank a = false)
    (hb : blank b = false) (w : Int) (name : String)
    (hc : g.m_name_to_id.contains name = true) :
    look_of (g.add_edge a b w).2 name = look_of g name := by
  obtain ⟨i, hf⟩ := contains_iff_find.mp hc
  obtain ⟨v, hv, -⟩ := h.getElem_of_find hf
  have hk := keeps_add_edge h ha hb w
  simp [look_of, hk.2 name i hf, hf, add_edge_getElem? h ha hb w i v hv, hv]

theorem names_ok.name_at_not_blank {g : graph} (h : names_ok g) {t : Nat}
    (ht : t < g.m_vertices.length) : blank (name_at g t) = false := by
  rw [name_at_of_getElem? (List.getElem?_eq_getElem ht)]
  exact h.not_blank _ (List.getElem_mem ht)

theorem edge_target_of_lt {g : graph} {e : edge} (ht : e.m_target < g.m_vertices.length) :
    ∃ t, e.target g = .ok t ∧ t.name = name_at g e.m_target := by
  refine ⟨g.m_vertices[e.m_target], ?_, ?_⟩
  · simp [edge.target, List.getElem?_eq_getElem ht]
  · rw [name_at_of_getElem? (List.getElem?_eq_getElem ht)]; rfl

/-- The inner loop of the copy assignment for a source vertex named `a` with the edge
records `es`: every record is replayed through `add_edge`. -/
theorem assign_edges (s : graph) (hs : names_ok s) (a : String) (ha : blank a = false) :
    ∀ (es : List edge) (d : graph) (r : Except Error Unit × graph),
    (∀ e ∈ es, e.m_target < s.m_vertices.length) → names_ok d → targets_ok d →
    for_each (fun g vw =>
      match vw.target s with
      | .error e => (.error e, g)
      | .ok t => g.add_edge a t.name vw.m_weight) es d = r →
    r.1 = .ok () ∧ names_ok r.2 ∧ targets_ok r.2 ∧ r.2.m_directed = d.m_directed ∧
    r.2.m_num_edges = d.m_num_edges + es.length ∧
    (∀ name, r.2.m_name_to_id.contains name = true ↔
      (d.m_name_to_id.contains name = true ∨ (es ≠ [] ∧ name = a) ∨
        ∃ e ∈ es, name_at s e.m_target = name)) ∧
    (d.m_directed = true → ∀ name, named_records r.2 name = named_records d name ++
      (if name = a then es.map (fun e => (name_at s e.m_target, e.m_weight)) else [])) ∧
    (∀ name, d.m_name_to_id.contains name = true → look_of r.2 name = look_of d name) := by
  intro es
  induction es with
  | nil =>
    intro d r _ hd htd hr
    simp only [for_each] at hr
    subst hr
    refine ⟨rfl, hd, htd, rfl, rfl, ?_, ?_, fun _ _ => rfl⟩
    · intro name; simp
    · intro _ name; simp
  | cons e rest ih =>
    intro d r hes hd htd hr
    have hlt := hes e (List.mem_cons_self _ _)
    obtain ⟨t, htg, htn⟩ := edge_target_of_lt hlt
    have hb : blank (name_at s e.m_target) = false := hs.name_at_not_blank hlt
    obtain ⟨ia, ib, hok, -, -, hdir, hnum, -⟩ := add_edge_spec hd ha hb e.m_weight
    have hd1 := names_ok_add_edge hd a (name_at s e.m_target) e.m_weight
    have ht1 := targets_ok_add_edge hd ha hb e.m_weight htd
    simp only [for_each, htg, htn] at hr
    have hcont := contains_add_edge hd ha hb e.m_weight
    have hrec := fun hdd => named_records_add_edge hd htd hdd ha hb e.m_weight
    have hlook := look_of_add_edge hd ha hb e.m_weight
    rcases hstep : d.add_edge a (name_at s e.m_target) e.m_weight with ⟨o, d1⟩
    rw [hstep] at hr hok hd1 ht1 hdir hnum hcont hrec hlook
    simp only at hok hdir hnum hd1 ht1 hcont hrec hlook
    subst hok
    simp only at hr
    obtain ⟨r1, r2, r3, r4, r5, r6, r7, r8⟩ :=
      ih d1 r (fun x hx => hes x (List.mem_cons_of_mem _ hx)) hd1 ht1 hr
    refine ⟨r1, r2, r3, r4.trans hdir, ?_, ?_, ?_, ?_⟩
    · rw [r5, hnum, List.length_cons]; omega
    · intro name
      rw [r6 name, hcont name]
      constructor
      · rintro ((h1 | h1 | h1) | ⟨-, h1⟩ | ⟨x, hx, h1⟩)
        · exact Or.inl h1
        · exact Or.inr (Or.inl ⟨by simp, h1⟩)
        · exact Or.inr (Or.inr ⟨e, List.mem_cons_self _ _, h1.symm⟩)
        · exact Or.inr (Or.inl ⟨by simp, h1⟩)
        · exact Or.inr (Or.inr ⟨x, List.mem_cons_of_mem _ hx, h1⟩)
      · rintro (h1 | ⟨-, h1⟩ | ⟨x, hx, h1⟩)
        · exact Or.inl (Or.inl h1)
        · exact Or.inl (Or.inr (Or.inl h1))
        · rcases List.mem_cons.mp hx with rfl | hx
          · exact Or.inl (Or.inr (Or.inr h1.symm))
          · exact Or.inr (Or.inr ⟨x, hx, h1⟩)
    · intro hdd name
      rw [r7 (hdir.trans hdd) name, hrec hdd name, List.append_assoc]
      congr 1
      by_cases hn : name = a <;> simp [hn]
    · intro name hc
      rw [r8 name ((hcont name).mpr (Or.inl hc)), hlook name hc]

theorem name_at_attr_step {g g2 : graph} (hs : attr_step g g2) (t : Nat) :
    name_at g2 t = name_at g t := by
  cases hv : g.m_vertices[t]? with
  | none =>
    have : g2.m_vertices[t]? = none := by
      rw [List.getElem?_eq_none_iff] at hv ⊢
      rw [attr_step_length hs]; exact hv
    simp [name_at, hv, this]
  | some v =>
    obtain ⟨u, hu, hn, -, -⟩ := attr_step_getElem? hs t v hv
    simp [name_at, hv, hu, hn]

theorem named_records_attr_step {g g2 : graph} (hs : attr_step g g2) (n : String) :
    named_records g2 n = named_records g n := by
  unfold named_records
  rw [attr_step_map hs]
  cases g.m_name_to_id.find n with
  | none => rfl
  | some i =>
    simp only [attr_step_edges_at hs, name_at_attr_step hs]

theorem names_ok.name_at_injective {g : graph} (h : names_ok g) {i j : Nat}
    (hi : i < g.m_vertices.length) (hj : j < g.m_vertices.length)
    (he : name_at g i = name_at g j) : i = j := by
  have e1 := h.find_of_name_at hi
  have e2 := h.find_of_name_at hj
  rw [he, e2] at e1
  injection e1 with e1
  exact e1.symm

theorem look_of_set {g : graph} {i : Nat} {v : vertex} (hv : g.m_vertices[i]? = some v)
    (c l : String) (name : String) :
    look_of { g with m_vertices := g.m_vertices.set i { v with m_colour := c, m_label := l } }
        name =
      if g.m_name_to_id.find name = some i then some (c, l) else look_of g name := by
  have hlt : i < g.m_vertices.length := by
    by_contra hc
    rw [List.getElem?_eq_none (by omega)] at hv; cases hv
  unfold look_of
  cases hf : g.m_name_to_id.find name with
  | none => simp
  | some j =>
    simp only [List.getElem?_set, Option.some.injEq]
    by_cases hij : i = j
    · subst hij; simp [hlt]
    · have hji : ¬ j = i := fun hc => hij hc.symm
      simp [hij, hji]

theorem copied_zero (s : graph) :
    copied s { m_vertices := [], m_name_to_id := [], m_directed := s.m_directed,
               m_num_edges := 0 } 0 where
  names := names_ok_new s.m_directed
  targets := by intro i e he; simp [edges_at] at he
  directed := rfl
  present := by
    intro name
    simp [name_map.contains, name_map.find]
  count := by simp
  records := by intro _ j hj; omega
  others := by intro _ name _; simp [named_records, name_map.find]
  look := by intro j hj; omega

theorem take_succ_sum (vs : List vertex) (k : Nat) (hk : k < vs.length) :
    ((vs.take (k + 1)).map fun v => v.m_edges.length).sum =
      ((vs.take k).map fun v => v.m_edges.length).sum + vs[k].m_edges.length := by
  simp only [List.take_succ, List.getElem?_eq_getElem hk, List.map_append, List.sum_append,
    Option.toList, List.map_cons, List.map_nil, List.sum_cons, List.sum_nil, Nat.add_zero]

/-- One pass of the outer loop of the copy assignment, for the source vertex at index
`k`: it throws the unknown-vertex error when that vertex is unreached, and otherwise
succeeds and leaves the destination in the state for `k + 1`. -/
theorem assign_body_step {s : graph} (hs : names_ok s) (hts : targets_ok s) {k : Nat}
    (hk : k < s.m_vertices.length) {d : graph} (hinv : copied s d k) :
    (unreached s k → (assign_body s d s.m_vertices[k]).1 = .error .UnknownVertex) ∧
    (¬ unreached s k →
      ∃ d2, assign_body s d s.m_vertices[k] = (.ok (), d2) ∧ copied s d2 (k + 1)) := by
  have hvk : s.m_vertices[k]? = some s.m_vertices[k] := List.getElem?_eq_getElem hk
  have hname : (s.m_vertices[k]).name = name_at s k := (name_at_of_getElem? hvk).symm
  have hedges : (s.m_vertices[k]).m_edges = edges_at s k := by simp [edges_at, hvk]
  have ha : blank (name_at s k) = false := hs.name_at_not_blank hk
  have key := assign_edges s hs (name_at s k) ha (edges_at s k) d _ (hts k) hinv.names
    hinv.targets rfl
  unfold assign_body
  rw [hname, hedges]
  generalize for_each _ (edges_at s k) d = r at key ⊢
  obtain ⟨r1, r2, r3, r4, r5, r6, r7, r8⟩ := key
  rcases r with ⟨o, d1⟩
  simp only at r1 r2 r3 r4 r5 r6 r7 r8
  subst r1
  simp only [and_then]
  -- whether the vertex is present after the inner loop
  have hpres : d1.m_name_to_id.contains (name_at s k) = true ↔ ¬ unreached s k := by
    rw [r6, hinv.present]
    constructor
    · rintro (⟨j, hj, h1 | ⟨e, he, h1⟩⟩ | ⟨h1, -⟩ | ⟨e, he, -⟩)
      · exact absurd (hs.name_at_injective hk (by omega) h1) (by omega)
      · intro hu
        have hlt := hts j e he
        exact hu.2 j hj e he (hs.name_at_injective hlt hk h1)
      · intro hu; exact h1 hu.1
      · intro hu; rw [hu.1] at he; cases he
    · intro hu
      by_cases hes : edges_at s k = []
      · have : ∃ j, j < k ∧ ∃ e ∈ edges_at s j, e.m_target = k := by
          by_contra hc
          apply hu
          refine ⟨hes, fun j hj e he het => hc ⟨j, hj, e, he, het⟩⟩
        obtain ⟨j, hj, e, he, het⟩ := this
        exact Or.inl ⟨j, hj, Or.inr ⟨e, he, by rw [het]⟩⟩
      · exact Or.inr (Or.inl ⟨hes, rfl⟩)
  constructor
  · intro hu
    have hnot : ¬ d1.m_name_to_id.contains (name_at s k) = true := fun hc => hpres.mp hc hu
    have hf : d1.m_name_to_id.find (name_at s k) = none := by
      rw [← contains_eq_false_iff]; simpa using hnot
    simp [find_id, hf]
  · intro hu
    obtain ⟨i, hf⟩ := contains_iff_find.mp (hpres.mpr hu)
    obtain ⟨x, hx, hxn⟩ := r2.getElem_of_find hf
    have hstep : attr_step d1 { d1 with m_vertices := d1.m_vertices.set i { x with m_colour := s.m_vertices[k].m_colour, m_label := s.m_vertices[k].m_label } } :=
      Or.inr ⟨i, x, { x with m_colour := s.m_vertices[k].m_colour, m_label := s.m_vertices[k].m_label }, hx, rfl, rfl, rfl, rfl⟩
    refine ⟨{ d1 with m_vertices := d1.m_vertices.set i { x with m_colour := s.m_vertices[k].m_colour, m_label := s.m_vertices[k].m_label } }, by simp only [find_id, hf, hx], ?_⟩
    refine ⟨names_ok_attr_step hstep r2, targets_ok_attr_step hstep r3,
      r4.trans hinv.directed, ?_, ?_, ?_, ?_, ?_⟩
    · intro name
      show d1.m_name_to_id.contains name = true ↔ _
      rw [r6, hinv.present]
      constructor
      · rintro (⟨j, hj, h1⟩ | ⟨-, h1⟩ | ⟨e, he, h1⟩)
        · exact ⟨j, by omega, h1⟩
        · exact ⟨k, by omega, Or.inl h1⟩
        · exact ⟨k, by omega, Or.inr ⟨e, he, h1⟩⟩
      · rintro ⟨j, hj, h1⟩
        by_cases hjk : j = k
        · subst hjk
          rcases h1 with h1 | ⟨e, he, h1⟩
          · have := (r6 (name_at s j)).mp (hpres.mpr hu)
            rw [hinv.present] at this
            rw [h1]; exact this
          · exact Or.inr (Or.inr ⟨e, he, h1⟩)
        · exact Or.inl ⟨j, by omega, h1⟩
    · show d1.m_num_edges = _
      rw [r5, hinv.count, take_succ_sum _ _ hk, hedges]
    · intro hd j hj
      rw [named_records_attr_step hstep, r7 (hinv.directed.trans hd)]
      by_cases hjk : j = k
      · subst hjk
        rw [hinv.others hd _ (fun j2 hj2 hc =>
          absurd (hs.name_at_injective hk (by omega) hc) (by omega))]
        simp [named_records, hs.find_of_name_at hk]
      · have hne : ¬ name_at s j = name_at s k := fun hc =>
          hjk (hs.name_at_injective (by omega) hk hc)
        rw [hinv.records hd j (by omega)]
        simp [hne]
    · intro hd name hall
      rw [named_records_attr_step hstep, r7 (hinv.directed.trans hd),
        hinv.others hd name (fun j hj => hall j (by omega))]
      simp [hall k (by omega)]
    · intro j hj
      rw [look_of_set hx]
      by_cases hjk : j = k
      · subst hjk
        simp [hf, look_of, hs.find_of_name_at hk, hvk]
      · have hne : ¬ name_at s j = name_at s k := fun hc =>
          hjk (hs.name_at_injective (by omega) hk hc)
        have hfj : ¬ d1.m_name_to_id.find (name_at s j) = some i := by
          intro hc
          have e1 := r2.find_name_at hc
          have e2 := r2.find_name_at hf
          exact hne (e1.symm.trans e2)
        have hcj : d.m_name_to_id.contains (name_at s j) = true :=
          (hinv.present _).mpr ⟨j, by omega, Or.inl rfl⟩
        rw [if_neg hfj, r8 _ hcj, hinv.look j (by omega)]

/-- While no vertex before index `k` is unreached, the outer loop of the copy
assignment runs through the first `k` source vertices without throwing. -/
theorem assign_prefix {s : graph} (hs : names_ok s) (hts : targets_ok s) (k : Nat)
    (hk : k ≤ s.m_vertices.length) (hall : ∀ i, i < k → ¬ unreached s i) :
    ∃ d, for_each (assign_body s) (s.m_vertices.take k)
        { m_vertices := [], m_name_to_id := [], m_directed := s.m_directed,
          m_num_edges := 0 } = (.ok (), d) ∧ copied s d k := by
  induction k with
  | zero => exact ⟨_, rfl, copied_zero s⟩
  | succ k ih =>
    obtain ⟨d, hd, hinv⟩ := ih (by omega) (fun i hi => hall i (by omega))
    have hlt : k < s.m_vertices.length := by omega
    obtain ⟨d2, h2, hinv2⟩ := (assign_body_step hs hts hlt hinv).2 (hall k (by omega))
    refine ⟨d2, ?_, hinv2⟩
    rw [List.take_succ, List.getElem?_eq_getElem hlt, for_each_append, hd]
    simp [and_then, for_each, h2]

/-- The copy assignment throws at the first unreached source vertex. -/
theorem assign_throws {s : graph} (hs : names_ok s) (hts : targets_ok s) (dst : graph)
    {k : Nat} (hk : k < s.m_vertices.length) (hall : ∀ i, i < k → ¬ unreached s i)
    (hu : unreached s k) : (assign dst s).1 = .error .UnknownVertex := by
  obtain ⟨d, hd, hinv⟩ := assign_prefix hs hts k (by omega) hall
  have hstep := (assign_body_step hs hts hk hinv).1 hu
  have hsplit : s.m_vertices =
      s.m_vertices.take k ++ s.m_vertices[k] :: s.m_vertices.drop (k + 1) := by
    rw [← List.drop_eq_getElem_cons hk, List.take_append_drop]
  unfold assign
  rw [hsplit, for_each_append, hd]
  rcases hb : assign_body s d s.m_vertices[k] with ⟨o, g1⟩
  rw [hb] at hstep
  simp only at hstep
  subst hstep
  simp [and_then, for_each, hb]

/-- When no source vertex is unreached the copy assignment returns, and the destination
is the copy described by `copied` for the whole vertex sequence. -/
theorem assign_returns {s : graph} (hs : names_ok s) (hts : targets_ok s) (dst : graph)
    (hall : ∀ i, i < s.m_vertices.length → ¬ unreached s i) :
    (assign dst s).1 = .ok () ∧ copied s (assign dst s).2 s.m_vertices.length := by
  obtain ⟨d, hd, hinv⟩ := assign_prefix hs hts s.m_vertices.length (le_refl _) hall
  rw [List.take_length] at hd
  unfold assign
  rw [hd]
  exact ⟨rfl, hinv⟩

/-- In an undirected graph a vertex without edge records is the target of no record. -/
theorem unreached_of_no_edges {s : graph} (hsym : sym_ok s) (hd : s.m_directed = false)
    {i : Nat} (hi : edges_at s i = []) : unreached s i := by
  refine ⟨hi, ?_⟩
  intro j hj e he het
  have h1 := (hsym hd j i e.m_weight).1 (by omega)
  rw [hi] at h1
  have h2 : 0 < (edges_at s j).count ⟨i, e.m_weight⟩ := by
    rw [List.count_pos_iff]
    have : e = ⟨i, e.m_weight⟩ := by cases e; simp at het; simp [het]
    rw [← this]; exact he
  simp at h1
  omega

/-- C20: for a reachable source graph `s` and any other destination, the copy assignment
throws the unknown-vertex error of `find_id` exactly when some vertex of `s` has an
empty edge list and is the target of no record of a vertex with a smaller index, and
returns exactly when there is no such vertex; for an undirected `s` there is such a
vertex exactly when some vertex has no edges.  When `s` is directed and has no such
vertex, the assignment returns, the destination has the edge count of `s` and the vertex
names of `s`, and every vertex name has the same sequence of (target name, weight)
records, the same colour and the same label as in `s`. -/
theorem assign_outcome (s : graph) (hr : Reachable s) (dst : graph) :
    ((assign dst s).1 = .error .UnknownVertex ↔
      ∃ i, i < s.num_vertices ∧ unreached s i) ∧
    ((assign dst s).1 = .ok () ↔ ¬ ∃ i, i < s.num_vertices ∧ unreached s i) ∧
    (s.is_directed = false →
      ((∃ i, i < s.num_vertices ∧ unreached s i) ↔
        ∃ i, i < s.num_vertices ∧ edges_at s i = [])) ∧
    (s.is_directed = true → (¬ ∃ i, i < s.num_vertices ∧ unreached s i) →
      (assign dst s).1 = .ok () ∧
      (assign dst s).2.num_edges = s.num_edges ∧
      (∀ name, (assign dst s).2.m_name_to_id.contains name = s.m_name_to_id.contains name) ∧
      ∀ v ∈ s.vertices,
        named_records (assign dst s).2 v.name = named_records s v.name ∧
        look_of (assign dst s).2 v.name = look_of s v.name) := by
  obtain ⟨hs, hc⟩ := reachable_ok hr
  obtain ⟨-, hts, hsym⟩ := reachable_wf hr
  have hfail : (∃ i, i < s.num_vertices ∧ unreached s i) →
      (assign dst s).1 = .error .UnknownVertex := by
    intro hex
    classical
    have hmin := Nat.find_spec hex
    exact assign_throws hs hts dst hmin.1
      (fun i hi hu => Nat.find_min hex hi ⟨lt_trans hi hmin.1, hu⟩) hmin.2
  have hok : (¬ ∃ i, i < s.num_vertices ∧ unreached s i) →
      (assign dst s).1 = .ok () ∧ copied s (assign dst s).2 s.m_vertices.length := by
    intro hn
    exact assign_returns hs hts dst (fun i hi hu => hn ⟨i, hi, hu⟩)
  refine ⟨⟨?_, hfail⟩, ⟨?_, fun hn => (hok hn).1⟩, ?_, ?_⟩
  · intro he
    by_contra hn
    rw [(hok hn).1] at he
    cases he
  · intro he hex
    rw [hfail hex] at he
    cases he
  · intro hd
    constructor
    · rintro ⟨i, hi, hu⟩
      exact ⟨i, hi, hu.1⟩
    · rintro ⟨i, hi, he⟩
      exact ⟨i, hi, unreached_of_no_edges hsym hd he⟩
  · intro hd hn
    obtain ⟨h1, hcp⟩ := hok hn
    have hd2 : s.m_directed = true := hd
    refine ⟨h1, ?_, ?_, ?_⟩
    · show (assign dst s).2.m_num_edges = s.m_num_edges
      rw [hcp.count, List.take_length]
      have h2 := hc
      unfold count_ok total_records records_per_call at h2
      rw [hd2] at h2
      simpa using h2
    · intro name
      rw [Bool.eq_iff_iff, hcp.present, contains_iff_find]
      constructor
      · rintro ⟨j, hj, h | ⟨e, he, h⟩⟩
        · exact ⟨j, h ▸ hs.find_of_name_at hj⟩
        · exact ⟨e.m_target, h ▸ hs.find_of_name_at (hts j e he)⟩
      · rintro ⟨i, hf⟩
        exact ⟨i, hs.lt_of_find hf, Or.inl (hs.find_name_at hf).symm⟩
    · intro v hv
      obtain ⟨j, hj, hjv⟩ := List.getElem_of_mem hv
      have hj2 : j < s.m_vertices.length := hj
      have hnm : v.name = name_at s j := by
        rw [name_at_of_getElem? (List.getElem?_eq_getElem hj2)]
        rw [← hjv]
        rfl
      rw [hnm]
      exact ⟨hcp.records hd2 j hj2, hcp.look j hj2⟩

/-- Witness for C20: the directed graph with the one edge x -> y, whose vertex y has no
edges and is the target of the record of x. -/
theorem assign_outcome_witness :
    Reachable ((new true).add_edge "x" "y" 5).2 ∧
    (assign (new false) ((new true).add_edge "x" "y" 5).2).1 = .ok () ∧
    (assign (new false) ((new true).add_edge "x" "y" 5).2).2.num_edges =
      ((new true).add_edge "x" "y" 5).2.num_edges ∧
    (∀ name, (assign (new false) ((new true).add_edge "x" "y" 5).2).2.m_name_to_id.contains name
      = ((new true).add_edge "x" "y" 5).2.m_name_to_id.contains name) ∧
    ∀ v ∈ ((new true).add_edge "x" "y" 5).2.vertices,
      named_records (assign (new false) ((new true).add_edge "x" "y" 5).2).2 v.name =
        named_records ((new true).add_edge "x" "y" 5).2 v.name ∧
      look_of (assign (new false) ((new true).add_edge "x" "y" 5).2).2 v.name =
        look_of ((new true).add_edge "x" "y" 5).2 v.name :=
  ⟨Reachable.step (Op.add_edge "x" "y" 5) (Reachable.new true),
    (assign_outcome ((new true).add_edge "x" "y" 5).2
      (Reachable.step (Op.add_edge "x" "y" 5) (Reachable.new true)) (new false)).2.2.2 rfl
      (by decide)⟩

end graph


